import Mathlib

/-!
# iMOPSE: order crossover, repair, uniform crossover and the CVRP evaluator

A shallow embedding of

* `CCVRP_OX::FixChild`, `CCVRP_OX::Crossover` (CCVRP_OX.cpp),
* `CUniformCX::Crossover` (CUniformCX.cpp),
* `CCVRP::CCVRP`, `CCVRP::GetNearestDepotIdx`, `CCVRP::Evaluate`,
  `CCVRP::CreateProblemEncoding` (CCVRP.cpp),
* the encoding types of SProblemEncoding.h.

Conventions of the embedding:

* `std::vector<T>` is `List T` (container sizes are assumed to fit the machine types, the
  only machine constant the code compares with, `INT_MAX`, is kept);
* `int` is `Int` and `size_t` is `Nat`; the statements on the load of the vehicle carry the
  bounds on the capacity and the demands under which no subtraction of the code leaves the
  range of a 32-bit `int`;
* `float` is IEEE 754 binary32 under round to nearest, ties to even, every operation
  rounded to binary32 on its own (`FLT_EVAL_METHOD` 0). A float that the code computes (a
  sum, a difference, a quotient, the conversion of a `size_t`) is a value of `F32`: a finite
  value, carried as the rational it denotes, an infinity or a NaN. Every float operation
  takes the rounding of its exact result as an argument: `binary32` is the arithmetic of
  the code, `exactArithmetic` the arithmetic without rounding, for the statements the
  specification makes over exact arithmetic. The floats that the code only reads, copies
  and compares (the entries of the distance table, the bounds of the normalization, the
  float genes, the random draws) are finite and carried as rationals; `FLT_MAX` is kept as
  a constant. The two zeros are one value;
* the calls to `CRandom` are replaced by the values they return, passed in as arguments;
* undefined behaviour of the C++ code (reading outside a vector, reading a variable that
  was never assigned) and loops that do not stop are made explicit in the result type
  `Except Err`.
-/

namespace iMOPSE

/-- Ways in which the embedded C++ code can fail to produce a value. -/
inductive Err where
  /-- An index outside a vector was read or written. -/
  | outOfBounds
  /-- A local variable was read before any assignment. -/
  | uninitialized
  /-- A `while` loop did not stop within the allotted number of iterations. -/
  | outOfFuel
  deriving DecidableEq, Repr

instance instDecidableEqExcept {ε α : Type} [DecidableEq ε] [DecidableEq α] :
    DecidableEq (Except ε α)
  | .ok x, .ok y => if h : x = y then isTrue (h ▸ rfl) else isFalse (fun e => h (Except.ok.inj e))
  | .error x, .error y =>
    if h : x = y then isTrue (h ▸ rfl) else isFalse (fun e => h (Except.error.inj e))
  | .ok _, .error _ => isFalse (fun e => Except.noConfusion e)
  | .error _, .ok _ => isFalse (fun e => Except.noConfusion e)

/-- The constant `INT_MAX` of `<climits>` (32-bit `int`). -/
def INT_MAX : Int := 2147483647

/-- The constant `FLT_MAX` of `<cfloat>`, `(2 - 2^-23) * 2^127`. -/
def FLT_MAX : ℚ := 340282346638528859811704183484516925440

/-! ## The type `float` -/

/-- A value of the type `float` (IEEE 754 binary32): a finite value, carried as the rational
it denotes (the two zeros are one value), an infinity with its sign, or a NaN. -/
inductive F32 where
  | fin (q : ℚ)
  | inf (negative : Bool)
  | nan
  deriving DecidableEq, Repr

/-- The integer nearest to `x`, the even one of the two when `x` lies half way. -/
def roundHalfEven (x : ℚ) : Int :=
  if x - ⌊x⌋ < 1 / 2 then ⌊x⌋
  else if 1 / 2 < x - ⌊x⌋ then ⌊x⌋ + 1
  else if ⌊x⌋ % 2 = 0 then ⌊x⌋ else ⌊x⌋ + 1

/-- The exponent `e` of the binade `2^e ≤ |q| < 2^(e+1)` of `q`, and `-126`, the exponent of
the subnormal numbers, below `2^-126`. -/
def binade (q : ℚ) : Int := max (Int.log 2 |q|) (-126)

/-- The unit in the last place at `q`: a binary32 significand has 24 bits. -/
def ulp (q : ℚ) : ℚ := 2 ^ (binade q - 23)

/-- The multiple of the unit in the last place nearest to `q`, ties to the even
significand: the binary32 value nearest to `q` when the exponent range has no upper end. -/
def nearest32 (q : ℚ) : ℚ := roundHalfEven (q / ulp q) * ulp q

/-- The rounding of binary32 arithmetic: the nearest binary32 value, and the infinity of the
sign of `q` when that value is `2^128` or more in magnitude (overflow). -/
def binary32 (q : ℚ) : F32 :=
  if |nearest32 q| < 2 ^ 128 then .fin (nearest32 q) else .inf (decide (q < 0))

/-- Exact arithmetic: no rounding and no overflow. -/
def exactArithmetic (q : ℚ) : F32 := .fin q

/-- A float that is neither an infinity nor a NaN. -/
def F32.isFinite : F32 → Bool
  | .fin _ => true
  | _ => false

/-- The float `-x`. -/
def F32.neg : F32 → F32
  | .fin q => .fin (-q)
  | .inf negative => .inf (!negative)
  | .nan => .nan

/-- The float `x + y`, the exact sum of two finite values rounded by `rnd`. -/
def F32.add (rnd : ℚ → F32) : F32 → F32 → F32
  | .fin a, .fin b => rnd (a + b)
  | .fin _, .inf negative => .inf negative
  | .inf negative, .fin _ => .inf negative
  | .inf negative, .inf negative' => if negative = negative' then .inf negative else .nan
  | _, _ => .nan

/-- The float `x - y`. -/
def F32.sub (rnd : ℚ → F32) (x y : F32) : F32 := F32.add rnd x (F32.neg y)

/-- The float `x / y`, the exact quotient of two finite values rounded by `rnd`; a finite
value other than zero divided by zero is an infinity, zero divided by zero is a NaN. -/
def F32.div (rnd : ℚ → F32) : F32 → F32 → F32
  | .fin a, .fin b =>
    if b = 0 then (if a = 0 then .nan else .inf (decide (a < 0))) else rnd (a / b)
  | .fin _, .inf _ => .fin 0
  | .inf negative, .fin b => .inf (xor negative (decide (b < 0)))
  | _, _ => .nan

/-! ## SProblemEncoding.h -/

/-- The struct `SEncodingDescriptor`. -/
structure SEncodingDescriptor where
  m_MinValue : ℚ
  m_MaxValue : ℚ
  deriving DecidableEq, Repr

/-- The enum `EEncodingType`. -/
inductive EEncodingType where
  | ASSOCIATION
  | PERMUTATION
  | BINARY
  deriving DecidableEq, Repr

/-- The struct `SEncodingSection`. -/
structure SEncodingSection where
  m_SectionDescription : List SEncodingDescriptor
  m_SectionType : EEncodingType
  deriving DecidableEq, Repr

/-- The struct `SProblemEncoding`. -/
structure SProblemEncoding where
  m_objectivesNumber : Int
  m_Encoding : List SEncodingSection
  m_additionalProblemData : List (List ℚ)
  deriving DecidableEq, Repr

/-! ## Genotype and individual (the fields the code under study reads and writes) -/

/-- Modelled from the spec: the struct `SGenotype` (SGenotype.h is not among the sources),
"two parallel representations, an integer sequence and a float sequence"; the fields are
named as the code under study names them. -/
structure SGenotype where
  m_IntGenotype : List Int
  m_FloatGenotype : List ℚ
  deriving DecidableEq, Repr

/-- Modelled from the spec: the class `AIndividual` (AIndividual.h is not among the sources),
which "owns one Genotype, a raw evaluation vector and a normalized evaluation vector"; the
fields are named as the code under study names them. -/
structure AIndividual where
  m_Genotype : SGenotype
  m_Evaluation : List F32
  m_NormalizedEvaluation : List F32
  deriving DecidableEq, Repr

/-- The four individuals a crossover operator receives by reference. -/
structure Family where
  firstParent : AIndividual
  secondParent : AIndividual
  firstChild : AIndividual
  secondChild : AIndividual
  deriving DecidableEq, Repr

/-- An individual that carries the given integer genotype and nothing else. -/
def intIndividual (g : List Int) : AIndividual :=
  { m_Genotype := { m_IntGenotype := g, m_FloatGenotype := [] },
    m_Evaluation := [], m_NormalizedEvaluation := [] }

/-- An individual that carries the given float genotype and nothing else. -/
def floatIndividual (g : List ℚ) : AIndividual :=
  { m_Genotype := { m_IntGenotype := [], m_FloatGenotype := g },
    m_Evaluation := [], m_NormalizedEvaluation := [] }

/-- The genes `0, 1, ..., n-1` as `int`s: the vector `all_genes` of `FixChild`. -/
def allGenes (n : Nat) : List Int := (List.range n).map Int.ofNat

/-- A genotype is a permutation of `[0,n)`: a rearrangement of `0, 1, ..., n-1`. -/
def IsPermutation (n : Nat) (g : List Int) : Prop := List.Perm g (allGenes n)

instance (n : Nat) (g : List Int) : Decidable (IsPermutation n g) := by
  unfold IsPermutation; infer_instance

/-! ## CCVRP_OX::FixChild -/

/-- The genes of `[0,n)` that do not occur in `childGenes`, in ascending order: the loop of
lines 24-30 of `FixChild` over `all_genes`. -/
def absentGenes (n : Nat) (childGenes : List Int) : List Int :=
  (allGenes n).filter (fun gene => decide (childGenes.count gene < 1))

/-- The vector `missing_genes` of `FixChild` (lines 23-30). -/
def missingGenes (childGenes : List Int) : List Int :=
  absentGenes childGenes.length childGenes

/-- State of the replacement loop of `FixChild` (lines 33-49): the child's genes and the
counter `ii`. -/
structure FixState where
  childGenes : List Int
  ii : Nat
  deriving DecidableEq, Repr

/-- One iteration of the replacement loop of `FixChild` at position `i` (lines 36-48).
The duplicate test counts in the child as it stands; `std::find` in `all_genes` succeeds
exactly on the genes of `[0,size)`; `missing_genes[ii]` is read. -/
def fixStep (all_genes missing_genes : List Int) (s : FixState) (i : Nat) :
    Except Err FixState :=
  match s.childGenes[i]? with
  | none => .error .outOfBounds
  | some gene =>
    if s.childGenes.count gene > 1 then
      if gene ∈ all_genes then
        match missing_genes[s.ii]? with
        | none => .error .outOfBounds
        | some m => .ok { childGenes := s.childGenes.set i m, ii := s.ii + 1 }
      else .ok s
    else .ok s

/-- The replacement loop of `FixChild` over the positions `0 .. size-1`. -/
def fixLoop (all_genes missing_genes : List Int) (childGenes : List Int) :
    Except Err FixState :=
  (List.range childGenes.length).foldlM (fixStep all_genes missing_genes)
    { childGenes := childGenes, ii := 0 }

/-- The function `CCVRP_OX::FixChild` on the integer genotype. The second computation of
`missing_genes` (lines 51-58) only fills a local vector and has no effect. -/
def FixChildGenes (childGenes : List Int) : Except Err (List Int) := do
  let all_genes := allGenes childGenes.length
  let missing_genes := missingGenes childGenes
  let s ← fixLoop all_genes missing_genes childGenes
  pure s.childGenes

/-- The function `CCVRP_OX::FixChild`: the child with its integer genotype repaired. -/
def FixChild (child : AIndividual) : Except Err AIndividual := do
  let g ← FixChildGenes child.m_Genotype.m_IntGenotype
  pure { child with m_Genotype := { child.m_Genotype with m_IntGenotype := g } }

/-- The number of excess duplicate occurrences of a genotype: the sum, over the values that
occur, of the number of occurrences minus one. -/
def excessDuplicates (g : List Int) : Nat :=
  (g.dedup.map (fun v => g.count v - 1)).sum

/-- Invariant of the replacement loop of `FixChild` before position `k`, for a genotype
whose genes all lie in `[0,n)`: the genes still absent are `missing_genes` from `ii` on, and
every gene at a position below `k` occurs once. -/
structure FixInv (n : Nat) (missing_genes : List Int) (k : Nat) (s : FixState) : Prop where
  len : s.childGenes.length = n
  absent : absentGenes n s.childGenes = missing_genes.drop s.ii
  inRange : ∀ x ∈ s.childGenes, x ∈ allGenes n
  settled : ∀ j (hj : j < s.childGenes.length), j < k →
    s.childGenes.count s.childGenes[j] = 1

/-! ## CCVRP_OX::Crossover -/

/-- The circular `while` loop of `Crossover` (lines 105-111 and 115-121): starting at
`idx`, advance while the parent's gene at `idx` is found in the child and is not `INT_MAX`.
`fuel` bounds the number of advances; the result is the index at which the loop stops. -/
def findFree : Nat → List Int → List Int → Nat → Nat → Except Err Nat
  | fuel, child, parent, sectionSize, idx =>
    match parent[idx]? with
    | none => .error .outOfBounds
    | some gene =>
      if gene ∈ child ∧ gene ≠ INT_MAX then
        match fuel with
        | 0 => .error .outOfFuel
        | fuel + 1 => findFree fuel child parent sectionSize ((idx + 1) % sectionSize)
      else .ok idx

/-- Lines 105-113 (and 115-123) for one child: find the next gene of the other parent that
the child does not hold yet, write it at position `i`, advance the index. -/
def fillOne (fuel : Nat) (parent : List Int) (sectionSize : Nat) (child : List Int)
    (childIdx : Nat) (i : Nat) : Except Err (List Int × Nat) := do
  let idx ← findFree fuel child parent sectionSize childIdx
  match parent[idx]? with
  | none => .error .outOfBounds
  | some gene =>
    if i < child.length then
      pure (child.set i gene, (idx + 1) % sectionSize)
    else .error .outOfBounds

/-- State of the fill loop of `Crossover`: both children's integer genotypes and the two
indices `firstChildIdx`, `secondChildIdx`. -/
structure FillState where
  firstChild : List Int
  secondChild : List Int
  firstChildIdx : Nat
  secondChildIdx : Nat
  deriving DecidableEq, Repr

/-- One iteration of the fill loop of `Crossover` at position `i` (lines 99-125): positions
of the segment `[a,b)` are skipped; elsewhere the first child takes its next gene from the
second parent and the second child from the first parent. -/
def fillStep (fuel : Nat) (firstParentGenes secondParentGenes : List Int)
    (sectionSize a b : Nat) (s : FillState) (i : Nat) : Except Err FillState :=
  if i < a ∨ i ≥ b then do
    let (c1, i1) ← fillOne fuel secondParentGenes sectionSize s.firstChild s.firstChildIdx i
    let (c2, i2) ← fillOne fuel firstParentGenes sectionSize s.secondChild s.secondChildIdx i
    pure { firstChild := c1, secondChild := c2, firstChildIdx := i1, secondChildIdx := i2 }
  else pure s

/-- The call `std::copy(src.begin() + a, src.begin() + b, dst.begin() + a)`: positions
`[a,b)` of `dst` receive positions `[a,b)` of `src`. -/
def copyRange (src dst : List Int) (a b : Nat) : Except Err (List Int) :=
  if a ≤ b ∧ b ≤ src.length ∧ b ≤ dst.length then
    .ok (dst.take a ++ (src.drop a).take (b - a) ++ dst.drop b)
  else .error .outOfBounds

/-- The body of the `if` of `Crossover` for one section (lines 83-125), given the cut
points `a` and `b` that were drawn: both children are filled with `-1`, the segments are
copied crosswise, the remaining positions are filled in circular order. -/
def crossoverSection (fuel : Nat) (sectionSize a b : Nat)
    (firstParentGenes secondParentGenes firstChild secondChild : List Int) :
    Except Err (List Int × List Int) := do
  let c1 := List.replicate firstChild.length (-1 : Int)
  let c2 := List.replicate secondChild.length (-1 : Int)
  let c2 ← copyRange firstParentGenes c2 a b
  let c1 ← copyRange secondParentGenes c1 a b
  let start := if b = sectionSize then 0 else b
  let s ← (List.range sectionSize).foldlM
    (fillStep fuel firstParentGenes secondParentGenes sectionSize a b)
    { firstChild := c1, secondChild := c2, firstChildIdx := start, secondChildIdx := start }
  pure (s.firstChild, s.secondChild)

/-- The values `CRandom` returns while `Crossover` handles one section: the float `r`
compared with the crossover probability and the two integers of the `GetInt` calls (not
negative, the lower bound passed to `GetInt` being `0`), read only when `r` is below the
probability. -/
structure OXDraw where
  r : ℚ
  first : Nat
  second : Nat
  deriving DecidableEq, Repr

/-- The cut point `a` of line 83. -/
def OXDraw.a (d : OXDraw) : Nat := d.first

/-- The cut point `b` of line 84, `GetInt(0, sectionSize - a) + a`. -/
def OXDraw.b (d : OXDraw) : Nat := d.second + d.first

/-- The body of the `for` loop over the encoding sections of `Crossover` (lines 75-126). -/
def crossoverStep (m_CrossoverProbability : ℚ) (fuel : Nat) (s : Family)
    (sd : SEncodingSection × OXDraw) : Except Err Family :=
  let sectionSize := sd.1.m_SectionDescription.length
  if sd.2.r < m_CrossoverProbability then do
    let (c1, c2) ← crossoverSection fuel sectionSize sd.2.a sd.2.b
      s.firstParent.m_Genotype.m_IntGenotype s.secondParent.m_Genotype.m_IntGenotype
      s.firstChild.m_Genotype.m_IntGenotype s.secondChild.m_Genotype.m_IntGenotype
    pure { s with
      firstChild := { s.firstChild with
        m_Genotype := { s.firstChild.m_Genotype with m_IntGenotype := c1 } },
      secondChild := { s.secondChild with
        m_Genotype := { s.secondChild.m_Genotype with m_IntGenotype := c2 } } }
  else pure s

/-- The function `CCVRP_OX::Crossover`: `draws k` holds the random values of the `k`-th
section; `fuel` bounds the advances of each circular `while` loop. -/
def CCVRP_OX.Crossover (m_CrossoverProbability : ℚ) (draws : Nat → OXDraw) (fuel : Nat)
    (problemEncoding : SProblemEncoding) (s : Family) : Except Err Family :=
  (problemEncoding.m_Encoding.zip
      ((List.range problemEncoding.m_Encoding.length).map draws)).foldlM
    (crossoverStep m_CrossoverProbability fuel) s

/-! ## Closed form of the children of `Crossover` -/

/-- The number of positions below `i` that lie outside the segment `[a,b)`. -/
def fillCount (a b i : Nat) : Nat :=
  if i ≤ a then i else if i ≤ b then a else a + (i - b)

/-- The position in the other parent of the gene that `Crossover` puts at position `j` of a
child: the segment keeps its position, the other positions read the parent circularly from
`b` on. -/
def oxSource (n a b j : Nat) : Nat :=
  if j < a then (if b + j < n then b + j else b + j - n)
  else if j < b then j
  else (if a + j < n then a + j else a + j - n)

/-- The child built from `parent` once the fill loop has handled the positions below `i`:
the segment and the filled positions hold their genes, the others the sentinel `-1`. -/
def oxPartial (parent : List Int) (n a b i : Nat) : List Int :=
  (List.range n).map (fun j =>
    if (a ≤ j ∧ j < b) ∨ j < i then parent.getD (oxSource n a b j) 0 else -1)

/-- The child built from `parent` at the end of `Crossover`. -/
def oxChild (parent : List Int) (n a b : Nat) : List Int :=
  (List.range n).map (fun j => parent.getD (oxSource n a b j) 0)

/-- The family `Crossover` leaves when the draw of a single section of size `n` succeeds
with cut points `a`, `b`: only the children's integer genotypes are replaced. -/
def oxResult (s : Family) (n a b : Nat) : Family :=
  { s with
    firstChild := { s.firstChild with
      m_Genotype := { s.firstChild.m_Genotype with
        m_IntGenotype := oxChild s.secondParent.m_Genotype.m_IntGenotype n a b } },
    secondChild := { s.secondChild with
      m_Genotype := { s.secondChild.m_Genotype with
        m_IntGenotype := oxChild s.firstParent.m_Genotype.m_IntGenotype n a b } } }

/-! ## CUniformCX::Crossover -/

/-- The assignment `child[g] = parent[g]` on float genotypes (lines 24 and 29). -/
def copyGene (parent child : List ℚ) (g : Nat) : Except Err (List ℚ) :=
  match parent[g]? with
  | none => .error .outOfBounds
  | some v => if g < child.length then .ok (child.set g v) else .error .outOfBounds

/-- State of the gene loop of `CUniformCX::Crossover`: the children's float genotypes and
the number of random floats drawn so far. -/
structure UXState where
  firstChild : List ℚ
  secondChild : List ℚ
  drawn : Nat
  deriving DecidableEq, Repr

/-- One iteration of the gene loop of `CUniformCX::Crossover` (lines 22-30): two draws, one
for each child. `draws k` is the value of the `k`-th call of `CRandom::GetFloat(0, 1)`. -/
def uniformStep (draws : Nat → ℚ) (firstParent secondParent : List ℚ) (s : UXState)
    (g : Nat) : Except Err UXState := do
  let c1 ← if draws s.drawn < 1 / 2 then copyGene secondParent s.firstChild g
           else pure s.firstChild
  let c2 ← if draws (s.drawn + 1) < 1 / 2 then copyGene firstParent s.secondChild g
           else pure s.secondChild
  pure { firstChild := c1, secondChild := c2, drawn := s.drawn + 2 }

/-- The function `CUniformCX::Crossover`: the section size is read from the first section of
the encoding, `draws 0` is the outer draw. -/
def CUniformCX.Crossover (m_CrossoverProbability : ℚ) (draws : Nat → ℚ)
    (problemEncoding : SProblemEncoding) (s : Family) : Except Err Family :=
  match problemEncoding.m_Encoding[0]? with
  | none => .error .outOfBounds
  | some section0 =>
    let sectionSize := section0.m_SectionDescription.length
    if draws 0 < m_CrossoverProbability then do
      let r ← (List.range sectionSize).foldlM
        (uniformStep draws s.firstParent.m_Genotype.m_FloatGenotype
          s.secondParent.m_Genotype.m_FloatGenotype)
        { firstChild := s.firstChild.m_Genotype.m_FloatGenotype,
          secondChild := s.secondChild.m_Genotype.m_FloatGenotype, drawn := 1 }
      pure { s with
        firstChild := { s.firstChild with
          m_Genotype := { s.firstChild.m_Genotype with m_FloatGenotype := r.firstChild } },
        secondChild := { s.secondChild with
          m_Genotype := { s.secondChild.m_Genotype with m_FloatGenotype := r.secondChild } } }
    else pure s

/-- The children's float genotypes once the gene loop has handled the positions below `k`,
read off the draws: position `j` of a child holds the other parent's gene when its own draw
was below `0.5` and its previous gene otherwise. -/
def uxPartial (draws : Nat → ℚ) (shift : Nat) (parent child : List ℚ) (k : Nat) : List ℚ :=
  (List.range child.length).map (fun j =>
    if j < k ∧ draws (2 * j + shift) < 1 / 2 then parent.getD j 0 else child.getD j 0)

/-! ## CCVRP: the capacitated routing problem -/

/-- Modelled from the spec: the struct `SCityCVRP` (CCVRPTemplate.h is not among the
sources), a "City: identifier + non-negative demand"; the fields are named as `CCVRP.cpp`
names them. -/
structure SCityCVRP where
  m_ID : Nat
  m_demand : Int
  deriving DecidableEq, Repr

/-- Modelled from the spec: the class `CCVRPTemplate` (CCVRPTemplate.h is not among the
sources), reduced to what its getters return: the "city list (identifier, demand), depot
identifier list, a position-indexed distance table", the vehicle capacity and the bounds of
the normalization. -/
structure CCVRPTemplate where
  cities : List SCityCVRP
  depots : List Nat
  distMtx : List (List ℚ)
  capacity : Int
  maxDistance : ℚ
  minDistance : ℚ
  deriving DecidableEq, Repr

/-- Modelled from the spec: the getter `CCVRPTemplate::GetCitiesSize` (not among the
sources), the "city count". -/
def CCVRPTemplate.GetCitiesSize (t : CCVRPTemplate) : Nat := t.cities.length

/-- The class `CCVRP`: the members the code under study reads and writes. -/
structure CCVRP where
  m_ProblemEncoding : SProblemEncoding
  m_CVRPTemplate : CCVRPTemplate
  m_MaxObjectiveValues : List ℚ
  m_MinObjectiveValues : List ℚ
  deriving DecidableEq, Repr

/-- The function `CCVRP::CreateProblemEncoding`: `citiesSize - 1` is computed in `size_t`
(64 bits) and converted to `float`, that is, under the default rounding mode, to the nearest
binary32 value, ties to even (a `size_t` is below `2^64`, so the conversion does not
overflow). -/
def CCVRP.CreateProblemEncoding (t : CCVRPTemplate) : SProblemEncoding :=
  let citiesSize := t.GetCitiesSize
  let citiesSection : SEncodingSection :=
    { m_SectionDescription := List.replicate citiesSize
        { m_MinValue := 0,
          m_MaxValue := nearest32 ((((citiesSize : Int) - 1) % 2 ^ 64 : Int) : ℚ) },
      m_SectionType := EEncodingType.PERMUTATION }
  { m_objectivesNumber := 1, m_Encoding := [citiesSection],
    m_additionalProblemData := t.distMtx }

/-- The constructor `CCVRP::CCVRP`: it builds the encoding and copies the two bounds; it
has no `throw` and no check, so it returns a problem for every template. -/
def CCVRP.create (cvrpBase : CCVRPTemplate) : Except Err CCVRP :=
  .ok { m_ProblemEncoding := CCVRP.CreateProblemEncoding cvrpBase,
        m_CVRPTemplate := cvrpBase,
        m_MaxObjectiveValues := [cvrpBase.maxDistance],
        m_MinObjectiveValues := [cvrpBase.minDistance] }

/-- The inner loop of `GetNearestDepotIdx` (lines 34-40): the position of the first city
whose identifier is `idx`; `none` when the local `depot_index` is left unassigned. -/
def depotPosition (cities : List SCityCVRP) (idx : Nat) : Option Nat :=
  cities.findIdx? (fun city => city.m_ID == idx)

/-- The read `distMtx[i][j]`. -/
def distAt (distMtx : List (List ℚ)) (i j : Nat) : Except Err ℚ :=
  match distMtx[i]? with
  | none => .error .outOfBounds
  | some row =>
    match row[j]? with
    | none => .error .outOfBounds
    | some d => .ok d

/-- The locals `minDist` and `chosenIdx` of `GetNearestDepotIdx`; `chosenIdx` is declared
without a value. -/
structure DepotScan where
  minDist : ℚ
  chosenIdx : Option Nat
  deriving DecidableEq, Repr

/-- One iteration of the loop over the depots of `GetNearestDepotIdx` (lines 33-45). -/
def depotStep (t : CCVRPTemplate) (cityIdx : Nat) (s : DepotScan) (idx : Nat) :
    Except Err DepotScan :=
  match depotPosition t.cities idx with
  | none => .error .uninitialized
  | some depot_index =>
    match distAt t.distMtx cityIdx depot_index with
    | .error e => .error e
    | .ok d =>
      if d < s.minDist then .ok { minDist := d, chosenIdx := some depot_index }
      else .ok s

/-- The function `CCVRP::GetNearestDepotIdx`. -/
def CCVRP.GetNearestDepotIdx (t : CCVRPTemplate) (cityIdx : Nat) : Except Err Nat :=
  match t.depots.foldlM (depotStep t cityIdx) { minDist := FLT_MAX, chosenIdx := none } with
  | .error e => .error e
  | .ok s =>
    match s.chosenIdx with
    | none => .error .uninitialized
    | some chosenIdx => .ok chosenIdx

/-- The read `size_t x = m_IntGenotype[i]`: a negative gene converts to an index beyond
every vector, which each later use of `x` reads. -/
def geneAt (genes : List Int) (i : Nat) : Except Err Nat :=
  match genes[i]? with
  | none => .error .outOfBounds
  | some g => if 0 ≤ g then .ok g.toNat else .error .outOfBounds

/-- The read `cities[i].m_demand`. -/
def demandAt (cities : List SCityCVRP) (i : Nat) : Except Err Int :=
  match cities[i]? with
  | none => .error .outOfBounds
  | some city => .ok city.m_demand

/-- The locals `current_load` and `distance` of `Evaluate`. The load is an `int`, carried as
an `Int`: with a capacity and demands in `[0, INT_MAX]` no subtraction of the loop leaves
the 32-bit range. -/
structure RouteState where
  current_load : Int
  distance : F32
  deriving DecidableEq, Repr

/-- One iteration of the route loop of `Evaluate` (lines 72-87); each `distance += d` is a
float addition, rounded by `rnd`. -/
def evalStep (rnd : ℚ → F32) (t : CCVRPTemplate) (genes : List Int) (s : RouteState)
    (i : Nat) : Except Err RouteState := do
  let cityIdx ← geneAt genes i
  let nextCityIdx ← geneAt genes ((i + 1) % t.GetCitiesSize)
  let demand ← demandAt t.cities nextCityIdx
  if s.current_load < demand then do
    let depotIdx ← CCVRP.GetNearestDepotIdx t cityIdx
    let d1 ← distAt t.distMtx cityIdx depotIdx
    let d2 ← distAt t.distMtx depotIdx nextCityIdx
    pure { current_load := t.capacity - demand,
           distance := F32.add rnd (F32.add rnd s.distance (.fin d1)) (.fin d2) }
  else do
    let d ← distAt t.distMtx cityIdx nextCityIdx
    pure { current_load := s.current_load - demand,
           distance := F32.add rnd s.distance (.fin d) }

/-- The route loop of `Evaluate` (lines 70-87) run over the positions `0 .. k-1`. -/
def routeLoop (rnd : ℚ → F32) (t : CCVRPTemplate) (genes : List Int) (k : Nat) :
    Except Err RouteState :=
  (List.range k).foldlM (evalStep rnd t genes)
    { current_load := t.capacity, distance := .fin 0 }

/-- The quotient `(raw - min) / (max - min)` of the normalization (line 96): two float
subtractions and a float division. -/
def normalize (rnd : ℚ → F32) (raw : F32) (lo hi : ℚ) : F32 :=
  F32.div rnd (F32.sub rnd raw (.fin lo)) (F32.sub rnd (.fin hi) (.fin lo))

/-- The function `CCVRP::Evaluate`: the raw evaluation becomes the one-element vector of the
route distance and entry `0` of the normalized evaluation is overwritten. -/
def CCVRP.Evaluate (rnd : ℚ → F32) (problem : CCVRP) (individual : AIndividual) :
    Except Err AIndividual := do
  let s ← routeLoop rnd problem.m_CVRPTemplate individual.m_Genotype.m_IntGenotype
    problem.m_CVRPTemplate.GetCitiesSize
  let m_Evaluation := [s.distance]
  match problem.m_MinObjectiveValues[0]?, problem.m_MaxObjectiveValues[0]? with
  | some lo, some hi =>
    if 0 < individual.m_NormalizedEvaluation.length then
      pure { individual with
        m_Evaluation := m_Evaluation,
        m_NormalizedEvaluation :=
          individual.m_NormalizedEvaluation.set 0 (normalize rnd s.distance lo hi) }
    else .error .outOfBounds
  | _, _ => .error .outOfBounds

/-- A template on which every read of `Evaluate` and `GetNearestDepotIdx` is defined: the
distance table is square over the cities with entries below `FLT_MAX`, the depot list is
not empty and every depot identifier is the identifier of a city. -/
structure CCVRPTemplate.WellFormed (t : CCVRPTemplate) : Prop where
  rows : t.distMtx.length = t.cities.length
  cols : ∀ row ∈ t.distMtx, row.length = t.cities.length
  finite : ∀ row ∈ t.distMtx, ∀ d ∈ row, d < FLT_MAX
  depots_ne : t.depots ≠ []
  depots_known : ∀ idx ∈ t.depots, ∃ city ∈ t.cities, city.m_ID = idx

/-- The route cost in the words of the specification, after `k` transitions of a route over
`n` cities: the load starts at the capacity and the distance at `0`; the transition from
`current = genotype k` to `next = genotype ((k+1) mod n)` adds the two legs of a detour by
the nearest depot of `current`, the leg to the depot and then the leg from it, and resets
the load when the load is below the demand of `next`, adds the direct leg otherwise, and
then takes the demand of `next` off the load. Every addition to the distance is a float
addition, rounded by `rnd`. -/
def specRoute (rnd : ℚ → F32) (capacity : Int) (demand : Nat → Int) (dist : Nat → Nat → ℚ)
    (nearestDepot : Nat → Nat) (genotype : Nat → Nat) (n : Nat) : Nat → Int × F32
  | 0 => (capacity, .fin 0)
  | k + 1 =>
    let load := (specRoute rnd capacity demand dist nearestDepot genotype n k).1
    let distance := (specRoute rnd capacity demand dist nearestDepot genotype n k).2
    let current := genotype k
    let next := genotype ((k + 1) % n)
    if load < demand next then
      (capacity - demand next,
        F32.add rnd (F32.add rnd distance (.fin (dist current (nearestDepot current))))
          (.fin (dist (nearestDepot current) next)))
    else (load - demand next, F32.add rnd distance (.fin (dist current next)))

/-- The demand of the city at a position of the city list (`0` outside the list). -/
def demandOf (t : CCVRPTemplate) (i : Nat) : Int :=
  match t.cities[i]? with
  | some city => city.m_demand
  | none => 0

/-- The entry `dist[i][j]` of the distance table (`0` outside the table). -/
def distOf (t : CCVRPTemplate) (i j : Nat) : ℚ :=
  (t.distMtx.getD i []).getD j 0

/-- The value of `GetNearestDepotIdx` at a city position (`0` where it has none). -/
def nearestDepotOf (t : CCVRPTemplate) (cityIdx : Nat) : Nat :=
  match CCVRP.GetNearestDepotIdx t cityIdx with
  | .ok p => p
  | .error _ => 0

/-- The city position held at position `i` of a genotype (`0` outside the genotype). -/
def positionOf (genes : List Int) (i : Nat) : Nat :=
  (genes.getD i 0).toNat

/-- The route cost of the specification read on a template and a genotype, after `k`
transitions. -/
def specRouteOf (rnd : ℚ → F32) (t : CCVRPTemplate) (genes : List Int) (k : Nat) :
    Int × F32 :=
  specRoute rnd t.capacity (demandOf t) (distOf t) (nearestDepotOf t) (positionOf genes)
    t.cities.length k

/-! ## Concrete scenarios -/

/-- The encoding with one PERMUTATION section of `n` genes bounded by `[0, n-1]`. -/
def permutationEncoding (n : Nat) : SProblemEncoding :=
  { m_objectivesNumber := 1,
    m_Encoding := [{ m_SectionDescription := List.replicate n ⟨0, (n : ℚ) - 1⟩,
                     m_SectionType := EEncodingType.PERMUTATION }],
    m_additionalProblemData := [] }

/-- The family of scenario B: parents `[0,1,2,3,4]` and `[4,3,2,1,0]`, children that start
as copies of their parents. -/
def scenarioB : Family :=
  { firstParent := intIndividual [0, 1, 2, 3, 4],
    secondParent := intIndividual [4, 3, 2, 1, 0],
    firstChild := intIndividual [0, 1, 2, 3, 4],
    secondChild := intIndividual [4, 3, 2, 1, 0] }

/-- Draws that make the crossover of every section succeed (against probability `1`) with
cut points `a` and `b`. -/
def cutDraws (a b : Nat) : Nat → OXDraw := fun _ => { r := 0, first := a, second := b - a }

/-- Draws that make the crossover of every section fail against the probability `1/2`: the
float drawn is `3/4`; the two integers are then never read. -/
def failingDraws : Nat → OXDraw := fun _ => { r := 3 / 4, first := 1, second := 2 }

/-- The family `CUniformCX::Crossover` leaves when the outer draw succeeds on a section of
size `n`: only the children's float genotypes are replaced. -/
def uxResult (s : Family) (n : Nat) (draws : Nat → ℚ) : Family :=
  { s with
    firstChild := { s.firstChild with
      m_Genotype := { s.firstChild.m_Genotype with
        m_FloatGenotype := uxPartial draws 1 s.secondParent.m_Genotype.m_FloatGenotype
          s.firstChild.m_Genotype.m_FloatGenotype n } },
    secondChild := { s.secondChild with
      m_Genotype := { s.secondChild.m_Genotype with
        m_FloatGenotype := uxPartial draws 2 s.firstParent.m_Genotype.m_FloatGenotype
          s.secondChild.m_Genotype.m_FloatGenotype n } } }

/-- An encoding with one section of `n` genes bounded by `[0,1]`. -/
def floatEncoding (n : Nat) : SProblemEncoding :=
  { m_objectivesNumber := 1,
    m_Encoding := [{ m_SectionDescription := List.replicate n ⟨0, 1⟩,
                     m_SectionType := EEncodingType.ASSOCIATION }],
    m_additionalProblemData := [] }

/-- Parents `[1,2]` and `[3,4]` with children that hold genes of neither parent. -/
def strangers : Family :=
  { firstParent := floatIndividual [1, 2], secondParent := floatIndividual [3, 4],
    firstChild := floatIndividual [5, 6], secondChild := floatIndividual [7, 8] }

/-- Parents `[1,2]` and `[3,4]` with children that start as copies of their parents. -/
def copies : Family :=
  { firstParent := floatIndividual [1, 2], secondParent := floatIndividual [3, 4],
    firstChild := floatIndividual [1, 2], secondChild := floatIndividual [3, 4] }

/-- Draws `0, 0, 1, 1, 0, ...`: below `0.5` except the third and the fourth. -/
def sampleDraws : Nat → ℚ := fun k => if k = 2 ∨ k = 3 then 1 else 0

/-- Scenario A: four cities with demands `[2,3,1,4]`, capacity `5`, one depot, the city at
position `0`, and a symmetric distance table. -/
def scenarioA : CCVRPTemplate :=
  { cities := [⟨10, 2⟩, ⟨11, 3⟩, ⟨12, 1⟩, ⟨13, 4⟩],
    depots := [10],
    distMtx := [[0, 1, 2, 3], [1, 0, 4, 5], [2, 4, 0, 6], [3, 5, 6, 0]],
    capacity := 5, maxDistance := 28, minDistance := 14 }

/-- The individual of scenario A: the route `[1,2,3,0]`, one normalized objective. -/
def routeA : AIndividual :=
  { m_Genotype := { m_IntGenotype := [1, 2, 3, 0], m_FloatGenotype := [] },
    m_Evaluation := [.fin 0], m_NormalizedEvaluation := [.fin 0] }

/-- Scenario A without its depot: the depot list is empty. -/
def noDepots : CCVRPTemplate := { scenarioA with depots := [] }

/-- Scenario A with three depots, the cities at positions `3`, `1` and `2`; from city `0`
they lie at distances `3`, `1` and `2`. -/
def threeDepots : CCVRPTemplate := { scenarioA with depots := [13, 11, 12] }

/-! ## `FixChild` on arbitrary genotypes and its pairing rule -/

/-- The number of positions at which the genotype `g'` differs from the genotype `g`. -/
def changedPositions (g g' : List Int) : Nat :=
  ((List.range g.length).filter (fun i => decide (g'[i]? ≠ g[i]?))).length

/-- Invariant of the replacement loop of `FixChild` on an arbitrary genotype `g` of length
`n`: the genes still absent are `missing_genes` from `ii` on, the counter `ii` does not pass
the end of `missing_genes`, the genes of `g` outside `[0,n)` are where they were, and at
most `ii` positions have changed. -/
structure FixSafe (n : Nat) (missing_genes g : List Int) (s : FixState) : Prop where
  len : s.childGenes.length = n
  absent : absentGenes n s.childGenes = missing_genes.drop s.ii
  bound : s.ii ≤ missing_genes.length
  kept : ∀ (i : Nat) (x : Int), g[i]? = some x → x ∉ allGenes n → s.childGenes[i]? = some x
  changed : changedPositions g s.childGenes ≤ s.ii

/-- The pairing rule in the words of the specification: position `i` is overwritten when
its value occurs again further right (so a value keeps only its last occurrence). -/
def repeatsLater (g : List Int) (i : Nat) : Bool :=
  decide (g.getD i 0 ∈ g.drop (i + 1))

/-- The number of overwritten positions to the left of position `i`. -/
def overwrittenBefore (g : List Int) (i : Nat) : Nat :=
  ((List.range i).filter (repeatsLater g)).length

/-- The gene the pairing rule of the specification puts at position `i`: the `j`-th
overwritten position, counting from `0` in ascending position order, receives the `j`-th
missing value in ascending order; the other positions keep their gene. -/
def pairedGene (g : List Int) (i : Nat) : Int :=
  if repeatsLater g i then (missingGenes g).getD (overwrittenBefore g i) 0 else g.getD i 0

/-- The genotype the pairing rule of the specification yields on its first `k` positions. -/
def pairedUpTo (g : List Int) (k : Nat) : List Int :=
  (List.range k).map (pairedGene g)

/-- The genotype the pairing rule of the specification yields. -/
def pairedGenotype (g : List Int) : List Int := pairedUpTo g g.length

/-- Invariant of the replacement loop of `FixChild` before position `k` on a genotype `g`
with genes in `[0,n)`: the positions below `k` hold the genes of the pairing rule, the
others the genes of `g`; no gene below `k` occurs from `k` on; `ii` counts the overwritten
positions and stays inside `missing_genes`. -/
structure PairInv (g : List Int) (k : Nat) (s : FixState) : Prop where
  genes : s.childGenes = pairedUpTo g k ++ g.drop k
  counter : s.ii = overwrittenBefore g k
  fresh : ∀ x ∈ pairedUpTo g k, x ∉ g.drop k
  absent : absentGenes g.length s.childGenes = (missingGenes g).drop s.ii
  inBounds : ∀ i, i < k → repeatsLater g i = true →
    overwrittenBefore g i < (missingGenes g).length

/-- The individual `child` with its integer genotype replaced by `g`. -/
def withIntGenotype (child : AIndividual) (g : List Int) : AIndividual :=
  { child with m_Genotype := { child.m_Genotype with m_IntGenotype := g } }

/-! ## Further scenarios -/

/-- The family of the run that does not stop: both parents are `[0,0]`, no permutation. -/
def repeatedParents : Family :=
  { firstParent := intIndividual [0, 0], secondParent := intIndividual [0, 0],
    firstChild := intIndividual [0, 0], secondChild := intIndividual [0, 0] }

/-- Scenario A with degenerate normalization bounds: maximum and minimum are both `14`. -/
def degenerateBounds : CCVRPTemplate := { scenarioA with maxDistance := 14 }

/-- A template of `2^24 + 2` cities: `citiesSize - 1` is `2^24 + 1`, the least whole number
that is not a binary32 value. -/
def manyCities : CCVRPTemplate :=
  { cities := List.replicate 16777218 ⟨0, 0⟩, depots := [], distMtx := [],
    capacity := 0, maxDistance := 1, minDistance := 0 }

/-- Two cities without demand, at the distances `2^24` one way and `1` the other: the exact
cost of the round trip, `2^24 + 1`, is not a binary32 value. -/
def longLeg : CCVRPTemplate :=
  { cities := [⟨0, 0⟩, ⟨1, 0⟩], depots := [0], distMtx := [[0, 16777216], [1, 0]],
    capacity := 0, maxDistance := 1, minDistance := 0 }

/-- The individual of the round trip over the two cities of `longLeg`: the route `[0,1]`. -/
def roundTrip : AIndividual :=
  { m_Genotype := { m_IntGenotype := [0, 1], m_FloatGenotype := [] },
    m_Evaluation := [.fin 0], m_NormalizedEvaluation := [.fin 0] }

/-! # Properties

## Binary32 rounding -/

theorem roundHalfEven_intCast (m : Int) : roundHalfEven (m : ℚ) = m := by
  unfold roundHalfEven
  rw [Int.floor_intCast, sub_self, if_pos (by norm_num)]

theorem ulp_pos (q : ℚ) : 0 < ulp q := by
  unfold ulp
  positivity

/-- A rational that is a whole multiple of its unit in the last place is its own nearest
binary32 value. -/
theorem nearest32_of_multiple {q : ℚ} {m : Int} (h : q = m * ulp q) : nearest32 q = q := by
  have hne : ulp q ≠ 0 := (ulp_pos q).ne'
  have hq : q / ulp q = m := by
    rw [div_eq_iff hne]
    exact h
  unfold nearest32
  rw [hq, roundHalfEven_intCast]
  exact h.symm

theorem binade_natCast {n : Nat} : binade (n : ℚ) = Nat.log 2 n := by
  unfold binade
  rw [abs_of_nonneg (Nat.cast_nonneg n), Int.log_natCast]
  apply max_eq_left
  omega

/-- The whole numbers up to `2^24` are binary32 values. -/
theorem nearest32_natCast {n : Nat} (h : n ≤ 2 ^ 24) : nearest32 (n : ℚ) = n := by
  have he : Nat.log 2 n ≤ 24 := by
    calc Nat.log 2 n ≤ Nat.log 2 (2 ^ 24) := Nat.log_mono_right h
      _ = 24 := Nat.log_pow (by norm_num) 24
  have hu : ulp (n : ℚ) = 2 ^ ((Nat.log 2 n : Int) - 23) := by
    unfold ulp
    rw [binade_natCast]
  rcases Nat.lt_or_ge (Nat.log 2 n) 24 with hlt | hge
  · apply nearest32_of_multiple (m := (n : Int) * 2 ^ (23 - Nat.log 2 n))
    rw [hu]
    push_cast
    rw [mul_assoc, ← zpow_natCast, ← zpow_add₀ (by norm_num : (2 : ℚ) ≠ 0)]
    have : ((23 - Nat.log 2 n : Nat) : Int) + ((Nat.log 2 n : Int) - 23) = 0 := by omega
    rw [this, zpow_zero, mul_one]
  · have h24 : Nat.log 2 n = 24 := le_antisymm he hge
    have hn : n = 2 ^ 24 := by
      apply le_antisymm h
      have hn0 : n ≠ 0 := by
        intro h0
        rw [h0] at h24
        simp at h24
      have := Nat.pow_log_le_self 2 hn0
      rw [h24] at this
      exact this
    apply nearest32_of_multiple (m := 2 ^ 23)
    rw [hu, h24, hn]
    norm_num

/-- Rounding a whole number up to `2^24` changes nothing. -/
theorem binary32_natCast {n : Nat} (h : n ≤ 2 ^ 24) : binary32 (n : ℚ) = .fin n := by
  unfold binary32
  rw [nearest32_natCast h, if_pos]
  rw [abs_of_nonneg (Nat.cast_nonneg n)]
  calc (n : ℚ) ≤ ((2 ^ 24 : Nat) : ℚ) := by exact_mod_cast h
    _ < 2 ^ 128 := by norm_num

/-- The whole number `2^24 + 1` lies half way between the binary32 values `2^24` and
`2^24 + 2`; the one with the even significand is `2^24`. -/
theorem nearest32_tie : nearest32 16777217 = 16777216 := by
  have hb : binade (16777217 : ℚ) = 24 := by
    have := binade_natCast (n := 16777217)
    rw [Nat.log_eq_of_pow_le_of_lt_pow (by norm_num)
      (by norm_num : 16777217 < 2 ^ (24 + 1))] at this
    simpa using this
  have hu : ulp (16777217 : ℚ) = 2 := by
    unfold ulp
    rw [hb]
    norm_num
  have hf : ⌊(16777217 : ℚ) / 2⌋ = 8388608 := by
    rw [Int.floor_eq_iff]
    constructor <;> norm_num
  unfold nearest32
  rw [hu]
  unfold roundHalfEven
  rw [hf]
  norm_num

theorem binary32_tie : binary32 16777217 = .fin 16777216 := by
  unfold binary32
  rw [nearest32_tie, if_pos]
  norm_num [abs_of_nonneg]

theorem roundHalfEven_bounds (x : ℚ) : ⌊x⌋ ≤ roundHalfEven x ∧ roundHalfEven x ≤ ⌊x⌋ + 1 := by
  unfold roundHalfEven
  split_ifs <;> constructor <;> omega

/-- The nearest binary32 value of a whole number below `2^64` is at most `2^64`. -/
theorem nearest32_natCast_bounds {n : Nat} (h : n < 2 ^ 64) :
    0 ≤ nearest32 (n : ℚ) ∧ nearest32 (n : ℚ) ≤ 2 ^ 64 := by
  have he : Nat.log 2 n < 64 := by
    rcases Nat.eq_zero_or_pos n with h0 | hpos
    · rw [h0]; simp
    · exact Nat.log_lt_of_lt_pow hpos.ne' h
  have hlt : n < 2 ^ (Nat.log 2 n + 1) := Nat.lt_pow_succ_log_self (by norm_num) n
  have hu : ulp (n : ℚ) = 2 ^ ((Nat.log 2 n : Int) - 23) := by
    unfold ulp
    rw [binade_natCast]
  have hupos := ulp_pos (n : ℚ)
  have hx0 : 0 ≤ (n : ℚ) / ulp n := div_nonneg (Nat.cast_nonneg n) hupos.le
  have hexp : ((24 : Nat) : Int) + ((Nat.log 2 n : Int) - 23)
      = ((Nat.log 2 n + 1 : Nat) : Int) := by
    push_cast; ring
  have hxlt : (n : ℚ) / ulp n < 2 ^ 24 := by
    rw [div_lt_iff₀ hupos, hu, ← zpow_natCast, ← zpow_add₀ (by norm_num : (2 : ℚ) ≠ 0),
      hexp, zpow_natCast]
    exact_mod_cast hlt
  obtain ⟨hlo, hhi⟩ := roundHalfEven_bounds ((n : ℚ) / ulp n)
  have hf0 : 0 ≤ ⌊(n : ℚ) / ulp n⌋ := Int.floor_nonneg.2 hx0
  have hflt : ⌊(n : ℚ) / ulp n⌋ < 2 ^ 24 := by
    have : ((⌊(n : ℚ) / ulp n⌋ : Int) : ℚ) < ((2 ^ 24 : Int) : ℚ) := by
      push_cast
      exact lt_of_le_of_lt (Int.floor_le _) hxlt
    exact_mod_cast this
  have hr0 : (0 : ℚ) ≤ (roundHalfEven ((n : ℚ) / ulp n) : ℚ) := by
    exact_mod_cast le_trans hf0 hlo
  have hr1 : (roundHalfEven ((n : ℚ) / ulp n) : ℚ) ≤ 2 ^ 24 := by
    have : roundHalfEven ((n : ℚ) / ulp n) ≤ 2 ^ 24 := by omega
    exact_mod_cast this
  unfold nearest32
  refine ⟨mul_nonneg hr0 hupos.le, ?_⟩
  calc (roundHalfEven ((n : ℚ) / ulp n) : ℚ) * ulp n ≤ 2 ^ 24 * ulp n :=
        mul_le_mul_of_nonneg_right hr1 hupos.le
    _ = 2 ^ (Nat.log 2 n + 1) := by
        rw [hu, ← zpow_natCast, ← zpow_add₀ (by norm_num : (2 : ℚ) ≠ 0), hexp, zpow_natCast]
    _ ≤ 2 ^ 64 := pow_le_pow_right₀ (by norm_num) (by omega)

/-- The conversion of a `size_t` to `float` does not overflow: it is the nearest binary32
value. -/
theorem binary32_natCast_finite {n : Nat} (h : n < 2 ^ 64) :
    binary32 (n : ℚ) = .fin (nearest32 (n : ℚ)) := by
  obtain ⟨h0, h1⟩ := nearest32_natCast_bounds h
  unfold binary32
  rw [if_pos]
  rw [abs_of_nonneg h0]
  exact lt_of_le_of_lt h1 (by norm_num)

/-! ## Permutations of `[0,n)` -/

theorem mem_allGenes {n : Nat} {x : Int} : x ∈ allGenes n ↔ 0 ≤ x ∧ x < n := by
  unfold allGenes
  constructor
  · intro h
    obtain ⟨k, hk, rfl⟩ := List.mem_map.1 h
    have := List.mem_range.1 hk
    simp only [Int.ofNat_eq_coe]
    omega
  · rintro ⟨h0, hn⟩
    refine List.mem_map.2 ⟨x.toNat, List.mem_range.2 (by omega), ?_⟩
    simp only [Int.ofNat_eq_coe]
    omega

theorem allGenes_nodup (n : Nat) : (allGenes n).Nodup := by
  unfold allGenes
  refine List.Nodup.map ?_ (List.nodup_range n)
  intro a b h
  simpa using h

theorem length_allGenes (n : Nat) : (allGenes n).length = n := by
  simp [allGenes]

/-- A list of length `n` without repetition whose entries lie in `[0,n)` is a permutation. -/
theorem isPermutation_of_nodup {n : Nat} {g : List Int} (hn : g.length = n) (hd : g.Nodup)
    (hr : ∀ x ∈ g, x ∈ allGenes n) : IsPermutation n g := by
  unfold IsPermutation
  have hsub : g.Subperm (allGenes n) := List.subperm_of_subset hd hr
  exact hsub.perm_of_length_le (by rw [length_allGenes, hn])

theorem IsPermutation.length_eq {n : Nat} {g : List Int} (h : IsPermutation n g) :
    g.length = n := by
  have := List.Perm.length_eq h
  rwa [length_allGenes] at this

theorem IsPermutation.nodup {n : Nat} {g : List Int} (h : IsPermutation n g) : g.Nodup :=
  (List.Perm.nodup_iff h).2 (allGenes_nodup n)

theorem IsPermutation.mem_iff {n : Nat} {g : List Int} (h : IsPermutation n g) {x : Int} :
    x ∈ g ↔ 0 ≤ x ∧ x < n := by
  rw [List.Perm.mem_iff h, mem_allGenes]

theorem IsPermutation.count_eq_one {n : Nat} {g : List Int} (h : IsPermutation n g)
    {v : Nat} (hv : v < n) : g.count (v : Int) = 1 := by
  have hm : (v : Int) ∈ g := h.mem_iff.2 ⟨by omega, by omega⟩
  exact List.count_eq_one_of_mem h.nodup hm

theorem IsPermutation.sentinel_not_mem {n : Nat} {g : List Int} (h : IsPermutation n g) :
    (-1 : Int) ∉ g := by
  intro hm
  have := h.mem_iff.1 hm
  omega

/-! ## The replacement loop of `FixChild` -/

theorem mem_absentGenes {n : Nat} {cg : List Int} {x : Int} :
    x ∈ absentGenes n cg ↔ x ∈ allGenes n ∧ cg.count x = 0 := by
  unfold absentGenes
  rw [List.mem_filter]
  simp

theorem absentGenes_nodup (n : Nat) (cg : List Int) : (absentGenes n cg).Nodup :=
  (allGenes_nodup n).filter _

/-- Pigeonhole: a list of length `n` that repeats a value misses a gene of `[0,n)`. -/
theorem absentGenes_ne_nil {n : Nat} {cg : List Int} {x : Int} (hn : cg.length = n)
    (hx : 1 < cg.count x) : absentGenes n cg ≠ [] := by
  intro hnil
  have hsub : allGenes n ⊆ cg := by
    intro y hy
    by_contra hyc
    have : y ∈ absentGenes n cg := mem_absentGenes.2 ⟨hy, List.count_eq_zero.2 hyc⟩
    rw [hnil] at this
    exact List.not_mem_nil _ this
  have hperm : List.Perm (allGenes n) cg :=
    (List.subperm_of_subset (allGenes_nodup n) hsub).perm_of_length_le
      (by rw [length_allGenes, hn])
  have hnd : cg.Nodup := (List.Perm.nodup_iff hperm).1 (allGenes_nodup n)
  have := List.nodup_iff_count_le_one.1 hnd x
  omega

/-- Overwriting one occurrence of a repeated gene with the first absent gene removes that
gene from the absent ones and changes nothing else. -/
theorem absentGenes_set {n : Nat} {cg : List Int} {i : Nat} (hi : i < cg.length)
    (hdup : 1 < cg.count cg[i]) {m : Int} {rest : List Int}
    (hab : absentGenes n cg = m :: rest) : absentGenes n (cg.set i m) = rest := by
  have hm : m ∈ absentGenes n cg := by rw [hab]; exact List.mem_cons_self _ _
  have hm0 : cg.count m = 0 := (mem_absentGenes.1 hm).2
  have hnd : (m :: rest).Nodup := hab ▸ absentGenes_nodup n cg
  have hmrest : m ∉ rest := (List.nodup_cons.1 hnd).1
  have hne : cg[i] ≠ m := by
    intro h
    rw [h] at hdup
    omega
  have key : absentGenes n (cg.set i m) = (absentGenes n cg).filter (fun x => decide (x ≠ m)) := by
    unfold absentGenes
    rw [List.filter_filter]
    apply List.filter_congr
    intro x _
    rw [List.count_set _ _ _ _ hi]
    by_cases hxm : x = m
    · subst hxm
      simp
    · by_cases hxc : cg[i] = x
      · subst hxc
        have h1 : (m == cg[i]) = false := by simpa using fun h => hne h.symm
        simp only [beq_self_eq_true, if_true, h1]
        simp [hxm]
        omega
      · have h1 : (m == x) = false := by simpa using fun h => hxm h.symm
        have h2 : (cg[i] == x) = false := by simpa using hxc
        simp [h1, h2, hxm]
  rw [key, hab, List.filter_cons]
  simp only [ne_eq, not_true_eq_false, decide_False, Bool.false_eq_true, if_false]
  rw [List.filter_eq_self]
  intro x hx
  simp only [ne_eq, decide_not, Bool.not_eq_true', decide_eq_false_iff_not]
  rintro rfl
  exact hmrest hx

/-- A step of the replacement loop at a gene that occurs once changes nothing. -/
theorem fixStep_of_count_le {all_genes missing_genes : List Int} {s : FixState} {i : Nat}
    (hi : i < s.childGenes.length) (h : s.childGenes.count s.childGenes[i] ≤ 1) :
    fixStep all_genes missing_genes s i = .ok s := by
  unfold fixStep
  rw [List.getElem?_eq_getElem hi]
  simp only
  rw [if_neg (by omega)]

/-- A step of the replacement loop at a repeated gene of `[0,n)` writes `missing_genes[ii]`. -/
theorem fixStep_of_dup {all_genes missing_genes : List Int} {s : FixState} {i : Nat}
    (hi : i < s.childGenes.length) (h : 1 < s.childGenes.count s.childGenes[i])
    (hmem : s.childGenes[i] ∈ all_genes) {m : Int} (hm : missing_genes[s.ii]? = some m) :
    fixStep all_genes missing_genes s i
      = .ok { childGenes := s.childGenes.set i m, ii := s.ii + 1 } := by
  unfold fixStep
  rw [List.getElem?_eq_getElem hi]
  simp only
  rw [if_pos h, if_pos hmem, hm]

theorem fixStep_inv {n : Nat} {missing_genes : List Int} {k : Nat} {s : FixState}
    (hinv : FixInv n missing_genes k s) (hk : k < n) :
    ∃ s', fixStep (allGenes n) missing_genes s k = .ok s' ∧ FixInv n missing_genes (k + 1) s' := by
  obtain ⟨hlen, habs, hrange, hset⟩ := hinv
  have hi : k < s.childGenes.length := by omega
  by_cases hdup : 1 < s.childGenes.count s.childGenes[k]
  · have hne := absentGenes_ne_nil hlen hdup
    obtain ⟨m, rest, hmr⟩ := List.exists_cons_of_ne_nil hne
    have hdrop : missing_genes.drop s.ii = m :: rest := by rw [← habs, hmr]
    have hget : missing_genes[s.ii]? = some m := by
      have := congrArg (fun l => l[0]?) hdrop
      simpa using this
    have hm : m ∈ absentGenes n s.childGenes := by rw [hmr]; exact List.mem_cons_self _ _
    have hm0 : s.childGenes.count m = 0 := (mem_absentGenes.1 hm).2
    refine ⟨_, fixStep_of_dup hi hdup (hrange _ (List.getElem_mem _)) hget, ?_⟩
    refine ⟨by simpa using hlen, ?_, ?_, ?_⟩
    · show absentGenes n (s.childGenes.set k m) = missing_genes.drop (s.ii + 1)
      rw [absentGenes_set hi hdup hmr]
      have := congrArg List.tail hdrop
      simpa using this.symm
    · intro x hx
      rcases List.mem_or_eq_of_mem_set hx with h | h
      · exact hrange x h
      · rw [h]; exact (mem_absentGenes.1 hm).1
    · intro j hj hjk
      show (s.childGenes.set k m).count (s.childGenes.set k m)[j] = 1
      have hj' : j < s.childGenes.length := by simpa using hj
      rw [List.count_set _ _ _ _ hi, List.getElem_set]
      by_cases hkj : k = j
      · subst hkj
        have hne : s.childGenes[k] ≠ m := by
          intro h; rw [h] at hdup; omega
        simp [hm0]
      · have h1 := hset j hj' (by omega)
        simp only [hkj, if_false]
        have hne1 : s.childGenes[k] ≠ s.childGenes[j] := by
          intro h; rw [h] at hdup; omega
        have hne2 : m ≠ s.childGenes[j] := by
          intro h; rw [← h] at h1; omega
        simp [hne1, hne2, h1]
  · refine ⟨s, fixStep_of_count_le hi (by omega), hlen, habs, hrange, ?_⟩
    intro j hj hjk
    by_cases hkj : j = k
    · subst hkj
      have : 0 < s.childGenes.count s.childGenes[j] :=
        List.count_pos_iff.2 (List.getElem_mem _)
      omega
    · exact hset j hj (by omega)

theorem fixLoop_upTo {n : Nat} {g : List Int} (hn : g.length = n)
    (hr : ∀ x ∈ g, x ∈ allGenes n) (k : Nat) (hk : k ≤ n) :
    ∃ s, (List.range k).foldlM (fixStep (allGenes n) (absentGenes n g))
        { childGenes := g, ii := 0 } = .ok s ∧ FixInv n (absentGenes n g) k s := by
  induction k with
  | zero =>
    refine ⟨_, rfl, hn, by simp, hr, ?_⟩
    intro j _ hj
    omega
  | succ k ih =>
    obtain ⟨s, hs, hinv⟩ := ih (by omega)
    obtain ⟨s', hs', hinv'⟩ := fixStep_inv hinv (by omega)
    refine ⟨s', ?_, hinv'⟩
    rw [List.range_succ, List.foldlM_append, hs]
    simpa using hs'

/-- On a genotype of length `n` with genes in `[0,n)`, `FixChild` returns a permutation. -/
theorem FixChildGenes_of_inRange {n : Nat} {g : List Int} (hn : g.length = n)
    (hr : ∀ x ∈ g, x ∈ allGenes n) :
    ∃ g', FixChildGenes g = .ok g' ∧ IsPermutation n g' := by
  obtain ⟨s, hs, hinv⟩ := fixLoop_upTo hn hr n (le_refl n)
  refine ⟨s.childGenes, ?_, ?_⟩
  · unfold FixChildGenes fixLoop missingGenes
    dsimp only
    rw [hn, hs]
    rfl
  · refine isPermutation_of_nodup hinv.len ?_ hinv.inRange
    rw [List.nodup_iff_count_eq_one]
    intro x hx
    obtain ⟨j, hj, rfl⟩ := List.getElem_of_mem hx
    exact hinv.settled j hj (by rw [← hinv.len]; exact hj)

theorem foldlM_fixed {α σ : Type} (f : σ → α → Except Err σ) (s : σ) (l : List α)
    (h : ∀ i ∈ l, f s i = .ok s) : l.foldlM f s = .ok s := by
  induction l with
  | nil => rfl
  | cons x xs ih =>
    rw [List.foldlM_cons, h x (List.mem_cons_self _ _)]
    exact ih (fun i hi => h i (List.mem_cons_of_mem _ hi))

/-- On a genotype without repetition `FixChild` changes nothing. -/
theorem FixChildGenes_of_nodup {g : List Int} (hd : g.Nodup) : FixChildGenes g = .ok g := by
  unfold FixChildGenes fixLoop
  dsimp only
  rw [foldlM_fixed _ _ _ ?_]
  · rfl
  · intro i hi
    have hi' : i < g.length := List.mem_range.1 hi
    exact fixStep_of_count_le hi' (List.nodup_iff_count_le_one.1 hd _)

theorem sum_map_pred_add_length (l : List Int) (f : Int → Nat) (h : ∀ v ∈ l, 1 ≤ f v) :
    (l.map (fun v => f v - 1)).sum + l.length = (l.map f).sum := by
  induction l with
  | nil => rfl
  | cons x xs ih =>
    have hx := h x (List.mem_cons_self _ _)
    have := ih (fun v hv => h v (List.mem_cons_of_mem _ hv))
    simp only [List.map_cons, List.sum_cons, List.length_cons]
    omega

/-- When the excess duplicate occurrences are as many as the missing genes, every gene of
the genotype lies in `[0,n)`. -/
theorem inRange_of_excess_eq_missing {g : List Int}
    (h : excessDuplicates g = (missingGenes g).length) : ∀ x ∈ g, x ∈ allGenes g.length := by
  have h1 : excessDuplicates g + g.dedup.length = g.length := by
    unfold excessDuplicates
    rw [sum_map_pred_add_length g.dedup (fun v => g.count v)
      (fun v hv => List.count_pos_iff.2 (List.mem_dedup.1 hv))]
    exact List.sum_map_count_dedup_eq_length g
  have h2 := List.length_eq_length_filter_add (l := allGenes g.length)
    (fun gene => decide (g.count gene < 1))
  rw [length_allGenes] at h2
  have h2' : g.length = (missingGenes g).length
      + ((allGenes g.length).filter (fun gene => ! decide (g.count gene < 1))).length := h2
  set present := (allGenes g.length).filter (fun gene => ! decide (g.count gene < 1)) with hp
  have hsub : present ⊆ g.dedup := by
    intro x hx
    rw [hp, List.mem_filter] at hx
    have : ¬ g.count x < 1 := by simpa using hx.2
    exact List.mem_dedup.2 (List.count_pos_iff.1 (by omega))
  have hnd : present.Nodup := (allGenes_nodup _).filter _
  have hperm : List.Perm present g.dedup :=
    (List.subperm_of_subset hnd hsub).perm_of_length_le (by omega)
  intro x hx
  have : x ∈ present := (List.Perm.mem_iff hperm).2 (List.mem_dedup.2 hx)
  rw [hp] at this
  exact (List.mem_filter.1 this).1

/-! ## The fill loop of `Crossover` -/

theorem oxSource_lt {n a b j : Nat} (hab : a ≤ b) (hbn : b ≤ n) (hj : j < n) :
    oxSource n a b j < n := by
  unfold oxSource
  split_ifs <;> omega

theorem oxSource_inj {n a b j k : Nat} (hab : a ≤ b) (hbn : b ≤ n) (hj : j < n) (hk : k < n)
    (h : oxSource n a b j = oxSource n a b k) : j = k := by
  unfold oxSource at h
  split_ifs at h <;> omega

theorem oxSource_segment {n a b j : Nat} (h1 : a ≤ j) (h2 : j < b) : oxSource n a b j = j := by
  unfold oxSource
  split_ifs <;> omega

theorem mod_of_lt_two_mul {n x : Nat} (h : x < 2 * n) :
    x % n = if x < n then x else x - n := by
  split_ifs with hx
  · exact Nat.mod_eq_of_lt hx
  · rw [Nat.mod_eq_sub_mod (by omega), Nat.mod_eq_of_lt (by omega)]

/-- At a position outside the segment the circular index stands at the source position. -/
theorem fillIndex_eq_oxSource {n a b i : Nat} (hab : a ≤ b) (hbn : b ≤ n) (hi : i < n)
    (hf : i < a ∨ b ≤ i) : (b + fillCount a b i) % n = oxSource n a b i := by
  rw [mod_of_lt_two_mul (by unfold fillCount; split_ifs <;> omega)]
  unfold fillCount oxSource
  split_ifs <;> omega

theorem fillCount_succ_of_fill {a b i : Nat} (hab : a ≤ b) (hf : i < a ∨ b ≤ i) :
    fillCount a b (i + 1) = fillCount a b i + 1 := by
  unfold fillCount
  split_ifs <;> omega

theorem fillCount_succ_of_segment {a b i : Nat} (h1 : a ≤ i) (h2 : i < b) :
    fillCount a b (i + 1) = fillCount a b i := by
  unfold fillCount
  split_ifs <;> omega

theorem length_oxPartial (parent : List Int) (n a b i : Nat) :
    (oxPartial parent n a b i).length = n := by
  simp [oxPartial]

theorem getElem_oxPartial (parent : List Int) (n a b i j : Nat)
    (hj : j < (oxPartial parent n a b i).length) :
    (oxPartial parent n a b i)[j] =
      if (a ≤ j ∧ j < b) ∨ j < i then parent.getD (oxSource n a b j) 0 else -1 := by
  simp [oxPartial]

/-- The gene due at a position outside the segment is not in the partial child yet. -/
theorem not_mem_oxPartial {parent : List Int} {n a b i : Nat} (hab : a ≤ b) (hbn : b ≤ n)
    (hlen : parent.length = n) (hd : parent.Nodup) (hs : (-1 : Int) ∉ parent)
    (hi : i < n) (hf : i < a ∨ b ≤ i) :
    parent.getD (oxSource n a b i) 0 ∉ oxPartial parent n a b i := by
  intro hmem
  obtain ⟨j, hj, hjeq⟩ := List.getElem_of_mem hmem
  rw [getElem_oxPartial] at hjeq
  have hjn : j < n := by rwa [length_oxPartial] at hj
  have hsi : oxSource n a b i < parent.length := by rw [hlen]; exact oxSource_lt hab hbn hi
  have hsj : oxSource n a b j < parent.length := by rw [hlen]; exact oxSource_lt hab hbn hjn
  rw [List.getD_eq_getElem _ _ hsi] at hjeq
  split_ifs at hjeq with hc
  · rw [List.getD_eq_getElem _ _ hsj] at hjeq
    have := (List.Nodup.getElem_inj_iff hd).1 hjeq
    have := oxSource_inj hab hbn hjn hi this
    omega
  · exact hs (hjeq ▸ List.getElem_mem _)

theorem findFree_of_not_mem {fuel : Nat} {child parent : List Int} {sectionSize idx : Nat}
    {gene : Int} (hg : parent[idx]? = some gene) (hn : gene ∉ child) :
    findFree fuel child parent sectionSize idx = .ok idx := by
  cases fuel <;> simp [findFree, hg, hn]

theorem oxPartial_set (parent : List Int) (n a b i : Nat) :
    (oxPartial parent n a b i).set i (parent.getD (oxSource n a b i) 0)
      = oxPartial parent n a b (i + 1) := by
  apply List.ext_getElem
  · simp [length_oxPartial]
  · intro j h1 h2
    rw [List.getElem_set, getElem_oxPartial, getElem_oxPartial]
    by_cases hij : i = j
    · subst hij
      simp
    · simp only [hij, if_false]
      have : (j < i + 1) ↔ j < i := by omega
      simp only [this]

theorem oxPartial_skip {parent : List Int} {n a b i : Nat} (h1 : a ≤ i) (h2 : i < b) :
    oxPartial parent n a b (i + 1) = oxPartial parent n a b i := by
  unfold oxPartial
  apply List.map_congr_left
  intro j _
  have : ((a ≤ j ∧ j < b) ∨ j < i + 1) ↔ ((a ≤ j ∧ j < b) ∨ j < i) := by omega
  simp only [this]

/-- Lines 105-113 at a position outside the segment: no advance of the `while` loop. -/
theorem fillOne_oxPartial {parent : List Int} {n a b i : Nat} (fuel : Nat) (hab : a ≤ b)
    (hbn : b ≤ n) (hlen : parent.length = n) (hd : parent.Nodup) (hs : (-1 : Int) ∉ parent)
    (hi : i < n) (hf : i < a ∨ b ≤ i) :
    fillOne fuel parent n (oxPartial parent n a b i) ((b + fillCount a b i) % n) i
      = .ok (oxPartial parent n a b (i + 1), (b + fillCount a b (i + 1)) % n) := by
  have hsi : oxSource n a b i < parent.length := by rw [hlen]; exact oxSource_lt hab hbn hi
  have hget : parent[oxSource n a b i]? = some (parent.getD (oxSource n a b i) 0) := by
    rw [List.getD_eq_getElem _ _ hsi, List.getElem?_eq_getElem hsi]
  unfold fillOne
  rw [fillIndex_eq_oxSource hab hbn hi hf,
    findFree_of_not_mem hget (not_mem_oxPartial hab hbn hlen hd hs hi hf)]
  simp only [bind, Except.bind, hget, length_oxPartial, hi, if_true, pure, Except.pure]
  rw [oxPartial_set, fillCount_succ_of_fill hab hf, ← fillIndex_eq_oxSource hab hbn hi hf]
  simp [Nat.add_assoc]

/-- One iteration of the fill loop on permutation-like parents. -/
theorem fillStep_oxPartial {p1 p2 : List Int} {n a b i : Nat} (fuel : Nat) (hab : a ≤ b)
    (hbn : b ≤ n) (hl1 : p1.length = n) (hd1 : p1.Nodup) (hs1 : (-1 : Int) ∉ p1)
    (hl2 : p2.length = n) (hd2 : p2.Nodup) (hs2 : (-1 : Int) ∉ p2) (hi : i < n) :
    fillStep fuel p1 p2 n a b
        { firstChild := oxPartial p2 n a b i, secondChild := oxPartial p1 n a b i,
          firstChildIdx := (b + fillCount a b i) % n,
          secondChildIdx := (b + fillCount a b i) % n } i
      = .ok { firstChild := oxPartial p2 n a b (i + 1),
              secondChild := oxPartial p1 n a b (i + 1),
              firstChildIdx := (b + fillCount a b (i + 1)) % n,
              secondChildIdx := (b + fillCount a b (i + 1)) % n } := by
  unfold fillStep
  by_cases hf : i < a ∨ i ≥ b
  · rw [if_pos hf]
    simp only [fillOne_oxPartial fuel hab hbn hl2 hd2 hs2 hi hf,
      fillOne_oxPartial fuel hab hbn hl1 hd1 hs1 hi hf, bind, Except.bind, pure, Except.pure]
  · rw [if_neg hf]
    have h1 : a ≤ i := by omega
    have h2 : i < b := by omega
    rw [oxPartial_skip h1 h2, oxPartial_skip h1 h2, fillCount_succ_of_segment h1 h2]
    rfl

/-- The fill loop after `k` positions. -/
theorem fillLoop_upTo {p1 p2 : List Int} {n a b : Nat} (fuel : Nat) (hab : a ≤ b)
    (hbn : b ≤ n) (hl1 : p1.length = n) (hd1 : p1.Nodup) (hs1 : (-1 : Int) ∉ p1)
    (hl2 : p2.length = n) (hd2 : p2.Nodup) (hs2 : (-1 : Int) ∉ p2) (k : Nat) (hk : k ≤ n) :
    (List.range k).foldlM (fillStep fuel p1 p2 n a b)
        { firstChild := oxPartial p2 n a b 0, secondChild := oxPartial p1 n a b 0,
          firstChildIdx := (b + fillCount a b 0) % n,
          secondChildIdx := (b + fillCount a b 0) % n }
      = .ok { firstChild := oxPartial p2 n a b k, secondChild := oxPartial p1 n a b k,
              firstChildIdx := (b + fillCount a b k) % n,
              secondChildIdx := (b + fillCount a b k) % n } := by
  induction k with
  | zero => rfl
  | succ k ih =>
    rw [List.range_succ, List.foldlM_append, ih (by omega)]
    simp only [bind, Except.bind, List.foldlM_cons, List.foldlM_nil]
    rw [fillStep_oxPartial fuel hab hbn hl1 hd1 hs1 hl2 hd2 hs2 (by omega)]
    rfl

/-- The children after `std::fill` and `std::copy`: the segment inside, `-1` elsewhere. -/
theorem copyRange_sentinels {parent : List Int} {n a b : Nat} (m : Nat) (hab : a ≤ b)
    (hbn : b ≤ n) (hlen : parent.length = n) (hm : m = n) :
    copyRange parent (List.replicate m (-1)) a b = .ok (oxPartial parent n a b 0) := by
  subst hm
  unfold copyRange
  rw [if_pos ⟨hab, by omega, by simpa using hbn⟩]
  congr 1
  apply List.ext_getElem
  · simp [length_oxPartial]
    omega
  · intro j h1 h2
    rw [getElem_oxPartial]
    have hjn : j < m := by rwa [length_oxPartial] at h2
    by_cases hja : j < a
    · rw [List.getElem_append_left (by simp; omega), List.getElem_append_left (by simp; omega)]
      simp
      omega
    · by_cases hjb : j < b
      · rw [List.getElem_append_left (by simp; omega),
          List.getElem_append_right (by simp; omega)]
        rw [if_pos (Or.inl ⟨by omega, hjb⟩), oxSource_segment (by omega) hjb,
          List.getD_eq_getElem _ _ (by omega)]
        simp
        congr 1
        omega
      · rw [List.getElem_append_right (by simp; omega)]
        simp
        omega

theorem fillStart_eq {n a b : Nat} (hbn : b ≤ n) :
    (if b = n then 0 else b) = (b + fillCount a b 0) % n := by
  have : fillCount a b 0 = 0 := by unfold fillCount; simp
  rw [this]
  split_ifs with h
  · subst h; simp
  · simp; exact (Nat.mod_eq_of_lt (by omega)).symm

theorem oxPartial_full (parent : List Int) (n a b : Nat) :
    oxPartial parent n a b n = oxChild parent n a b := by
  unfold oxPartial oxChild
  apply List.map_congr_left
  intro j hj
  rw [if_pos (Or.inr (List.mem_range.1 hj))]

/-- Closed form of the body of `Crossover` for one section: on parents of length `n`
without repetition and without the sentinel, whatever the fuel and the children's previous
genes, each child is read off the other parent. -/
theorem crossoverSection_eq {p1 p2 c1 c2 : List Int} {n a b : Nat} (fuel : Nat) (hab : a ≤ b)
    (hbn : b ≤ n) (hl1 : p1.length = n) (hd1 : p1.Nodup) (hs1 : (-1 : Int) ∉ p1)
    (hl2 : p2.length = n) (hd2 : p2.Nodup) (hs2 : (-1 : Int) ∉ p2)
    (hc1 : c1.length = n) (hc2 : c2.length = n) :
    crossoverSection fuel n a b p1 p2 c1 c2 = .ok (oxChild p2 n a b, oxChild p1 n a b) := by
  unfold crossoverSection
  simp only [copyRange_sentinels c2.length hab hbn hl1 hc2,
    copyRange_sentinels c1.length hab hbn hl2 hc1, bind, Except.bind]
  rw [fillStart_eq (a := a) hbn,
    fillLoop_upTo fuel hab hbn hl1 hd1 hs1 hl2 hd2 hs2 n (le_refl n)]
  simp only [oxPartial_full]
  rfl

theorem length_oxChild (parent : List Int) (n a b : Nat) : (oxChild parent n a b).length = n := by
  simp [oxChild]

/-- The child read off a permutation of `[0,n)` is a permutation of `[0,n)`. -/
theorem oxChild_isPermutation {parent : List Int} {n a b : Nat} (hab : a ≤ b) (hbn : b ≤ n)
    (hp : IsPermutation n parent) : IsPermutation n (oxChild parent n a b) := by
  have hlen := hp.length_eq
  refine isPermutation_of_nodup (length_oxChild _ _ _ _) ?_ ?_
  · unfold oxChild
    refine List.Nodup.map_on ?_ (List.nodup_range n)
    intro x hx y hy hxy
    have hx' := List.mem_range.1 hx
    have hy' := List.mem_range.1 hy
    have h1 : oxSource n a b x < parent.length := by rw [hlen]; exact oxSource_lt hab hbn hx'
    have h2 : oxSource n a b y < parent.length := by rw [hlen]; exact oxSource_lt hab hbn hy'
    rw [List.getD_eq_getElem _ _ h1, List.getD_eq_getElem _ _ h2] at hxy
    exact oxSource_inj hab hbn hx' hy' ((List.Nodup.getElem_inj_iff hp.nodup).1 hxy)
  · intro x hx
    unfold oxChild at hx
    obtain ⟨j, hj, rfl⟩ := List.mem_map.1 hx
    have hj' := List.mem_range.1 hj
    have h1 : oxSource n a b j < parent.length := by rw [hlen]; exact oxSource_lt hab hbn hj'
    rw [List.getD_eq_getElem _ _ h1, mem_allGenes]
    exact hp.mem_iff.1 (List.getElem_mem _)

/-- `Crossover` on a single-section encoding when the draw succeeds. -/
theorem Crossover_single {n a b : Nat} {enc : SProblemEncoding} {sec : SEncodingSection}
    {s : Family} {p : ℚ} {draws : Nat → OXDraw} (fuel : Nat)
    (henc : enc.m_Encoding = [sec]) (hsec : sec.m_SectionDescription.length = n)
    (hp1 : IsPermutation n s.firstParent.m_Genotype.m_IntGenotype)
    (hp2 : IsPermutation n s.secondParent.m_Genotype.m_IntGenotype)
    (hc1 : s.firstChild.m_Genotype.m_IntGenotype.length = n)
    (hc2 : s.secondChild.m_Genotype.m_IntGenotype.length = n)
    (hr : (draws 0).r < p) (ha : (draws 0).a = a) (hb : (draws 0).b = b)
    (hab : a ≤ b) (hbn : b ≤ n) :
    CCVRP_OX.Crossover p draws fuel enc s = .ok (oxResult s n a b) := by
  unfold CCVRP_OX.Crossover
  rw [henc]
  have h1 : List.range 1 = [0] := rfl
  simp only [List.length_singleton, h1, List.map_cons, List.map_nil,
    List.zip_cons_cons, List.zip_nil_right, List.foldlM_cons, List.foldlM_nil]
  unfold crossoverStep
  simp only [hr, if_true, hsec, ha, hb]
  rw [crossoverSection_eq fuel hab hbn hp1.length_eq hp1.nodup hp1.sentinel_not_mem
    hp2.length_eq hp2.nodup hp2.sentinel_not_mem hc1 hc2]
  rfl

theorem FixChild_of_nodup {child : AIndividual} (hd : child.m_Genotype.m_IntGenotype.Nodup) :
    FixChild child = .ok child := by
  unfold FixChild
  rw [FixChildGenes_of_nodup hd]
  rfl

theorem getElem?_oxChild_segment {parent : List Int} {n a b j : Nat} (hlen : parent.length = n)
    (hbn : b ≤ n) (h1 : a ≤ j) (h2 : j < b) : (oxChild parent n a b)[j]? = parent[j]? := by
  have hj : j < n := by omega
  unfold oxChild
  rw [List.getElem?_map, List.getElem?_range hj]
  simp only [Option.map_some', oxSource_segment h1 h2]
  rw [List.getElem?_eq_getElem (by omega), List.getD_eq_getElem _ _ (by omega)]

theorem segment_oxChild {parent : List Int} {n a b : Nat} (hlen : parent.length = n)
    (hbn : b ≤ n) :
    ((oxChild parent n a b).drop a).take (b - a) = (parent.drop a).take (b - a) := by
  apply List.ext_getElem?
  intro j
  by_cases hj : j < b - a
  · rw [List.getElem?_take_of_lt hj, List.getElem?_take_of_lt hj, List.getElem?_drop,
      List.getElem?_drop]
    exact getElem?_oxChild_segment hlen hbn (by omega) (by omega)
  · rw [List.getElem?_take_eq_none (by omega), List.getElem?_take_eq_none (by omega)]

/-! ## The gene loop of the uniform crossover -/

theorem length_uxPartial (draws : Nat → ℚ) (shift : Nat) (parent child : List ℚ) (k : Nat) :
    (uxPartial draws shift parent child k).length = child.length := by
  simp [uxPartial]

theorem getElem_uxPartial (draws : Nat → ℚ) (shift : Nat) (parent child : List ℚ) (k j : Nat)
    (hj : j < (uxPartial draws shift parent child k).length) :
    (uxPartial draws shift parent child k)[j]
      = if j < k ∧ draws (2 * j + shift) < 1 / 2 then parent.getD j 0 else child.getD j 0 := by
  unfold uxPartial
  rw [List.getElem_map, List.getElem_range]

theorem getElem?_uxPartial (draws : Nat → ℚ) (shift : Nat) (parent child : List ℚ) (k j : Nat)
    (hjp : j < parent.length) (hjc : j < child.length) :
    (uxPartial draws shift parent child k)[j]?
      = if j < k ∧ draws (2 * j + shift) < 1 / 2 then parent[j]? else child[j]? := by
  rw [List.getElem?_eq_getElem (by rw [length_uxPartial]; exact hjc), getElem_uxPartial]
  split_ifs
  · rw [List.getD_eq_getElem _ _ hjp, List.getElem?_eq_getElem hjp]
  · rw [List.getD_eq_getElem _ _ hjc, List.getElem?_eq_getElem hjc]

theorem uxPartial_zero (draws : Nat → ℚ) (shift : Nat) (parent child : List ℚ) :
    uxPartial draws shift parent child 0 = child := by
  apply List.ext_getElem
  · rw [length_uxPartial]
  · intro j h1 h2
    rw [getElem_uxPartial, if_neg (by omega), List.getD_eq_getElem _ _ h2]

theorem uxPartial_succ (draws : Nat → ℚ) (shift : Nat) (parent child : List ℚ) (k : Nat) :
    uxPartial draws shift parent child (k + 1)
      = if draws (2 * k + shift) < 1 / 2
        then (uxPartial draws shift parent child k).set k (parent.getD k 0)
        else uxPartial draws shift parent child k := by
  split_ifs with hd
  · apply List.ext_getElem
    · rw [List.length_set, length_uxPartial, length_uxPartial]
    · intro j h1 h2
      rw [List.getElem_set, getElem_uxPartial, getElem_uxPartial]
      by_cases hkj : k = j
      · subst hkj
        rw [if_pos ⟨by omega, hd⟩, if_pos rfl]
      · rw [if_neg hkj]
        have : j < k + 1 ↔ j < k := by omega
        simp only [this]
  · apply List.ext_getElem
    · rw [length_uxPartial, length_uxPartial]
    · intro j h1 h2
      rw [getElem_uxPartial, getElem_uxPartial]
      by_cases hkj : j = k
      · subst hkj
        rw [if_neg (fun h => hd h.2), if_neg (fun h => hd h.2)]
      · have : j < k + 1 ↔ j < k := by omega
        simp only [this]

theorem copyGene_uxPartial (draws : Nat → ℚ) (shift : Nat) (parent child : List ℚ) (k : Nat)
    (hp : k < parent.length) (hc : k < child.length) :
    copyGene parent (uxPartial draws shift parent child k) k
      = .ok ((uxPartial draws shift parent child k).set k (parent.getD k 0)) := by
  unfold copyGene
  rw [List.getElem?_eq_getElem hp, length_uxPartial]
  simp only [hc, if_true, List.getD_eq_getElem _ _ hp]

/-- One iteration of the gene loop of the uniform crossover, in closed form. -/
theorem uniformStep_uxPartial (draws : Nat → ℚ) (p1 p2 c1 c2 : List ℚ) (k : Nat)
    (h1 : k < p1.length) (h2 : k < p2.length) (h3 : k < c1.length) (h4 : k < c2.length) :
    uniformStep draws p1 p2
        { firstChild := uxPartial draws 1 p2 c1 k, secondChild := uxPartial draws 2 p1 c2 k,
          drawn := 2 * k + 1 } k
      = .ok { firstChild := uxPartial draws 1 p2 c1 (k + 1),
              secondChild := uxPartial draws 2 p1 c2 (k + 1),
              drawn := 2 * (k + 1) + 1 } := by
  unfold uniformStep
  rw [uxPartial_succ draws 1, uxPartial_succ draws 2]
  simp only [copyGene_uxPartial draws 1 p2 c1 k h2 h3, copyGene_uxPartial draws 2 p1 c2 k h1 h4]
  have e : 2 * k + 1 + 1 = 2 * k + 2 := rfl
  rw [e]
  by_cases hd1 : draws (2 * k + 1) < 1 / 2 <;> by_cases hd2 : draws (2 * k + 2) < 1 / 2 <;>
    simp only [hd1, hd2, if_true, if_false, bind, Except.bind, pure, Except.pure] <;> rfl

/-- The gene loop of the uniform crossover after `k` positions. -/
theorem uniformLoop_upTo (draws : Nat → ℚ) (p1 p2 c1 c2 : List ℚ) (k : Nat)
    (h1 : k ≤ p1.length) (h2 : k ≤ p2.length) (h3 : k ≤ c1.length) (h4 : k ≤ c2.length) :
    (List.range k).foldlM (uniformStep draws p1 p2)
        { firstChild := c1, secondChild := c2, drawn := 1 }
      = .ok { firstChild := uxPartial draws 1 p2 c1 k, secondChild := uxPartial draws 2 p1 c2 k,
              drawn := 2 * k + 1 } := by
  induction k with
  | zero => rw [uxPartial_zero, uxPartial_zero]; rfl
  | succ k ih =>
    rw [List.range_succ, List.foldlM_append, ih (by omega) (by omega) (by omega) (by omega)]
    simp only [bind, Except.bind, List.foldlM_cons, List.foldlM_nil]
    rw [uniformStep_uxPartial draws p1 p2 c1 c2 k (by omega) (by omega) (by omega) (by omega)]
    rfl

theorem uniformCrossover_of_draw {n : Nat} {enc : SProblemEncoding} {sec : SEncodingSection}
    {s : Family} {p : ℚ} {draws : Nat → ℚ} (henc : enc.m_Encoding[0]? = some sec)
    (hsec : sec.m_SectionDescription.length = n)
    (h1 : n ≤ s.firstParent.m_Genotype.m_FloatGenotype.length)
    (h2 : n ≤ s.secondParent.m_Genotype.m_FloatGenotype.length)
    (h3 : n ≤ s.firstChild.m_Genotype.m_FloatGenotype.length)
    (h4 : n ≤ s.secondChild.m_Genotype.m_FloatGenotype.length)
    (hr : draws 0 < p) :
    CUniformCX.Crossover p draws enc s = .ok (uxResult s n draws) := by
  unfold CUniformCX.Crossover
  rw [henc]
  simp only [hr, if_true, hsec]
  rw [uniformLoop_upTo draws _ _ _ _ n h1 h2 h3 h4]
  rfl

theorem uniformCrossover_of_no_draw {enc : SProblemEncoding} {sec : SEncodingSection}
    {s : Family} {p : ℚ} {draws : Nat → ℚ} (henc : enc.m_Encoding[0]? = some sec)
    (hr : p ≤ draws 0) : CUniformCX.Crossover p draws enc s = .ok s := by
  unfold CUniformCX.Crossover
  rw [henc]
  simp only [not_lt.2 hr, if_false]
  rfl

/-! ## The nearest depot -/

/-- A depot identifier that names a city resolves to a position of the city list. -/
theorem depotPosition_of_known {cities : List SCityCVRP} {idx : Nat}
    (h : ∃ city ∈ cities, city.m_ID = idx) :
    ∃ q, depotPosition cities idx = some q ∧ q < cities.length := by
  have h' : ∃ x, x ∈ cities ∧ (fun city : SCityCVRP => city.m_ID == idx) x = true := by
    obtain ⟨city, hm, he⟩ := h
    exact ⟨city, hm, by simpa using he⟩
  exact ⟨_, List.findIdx?_eq_some_of_exists h', List.findIdx_lt_length_of_exists h'⟩

/-- On a well-formed template every entry of the distance table at city positions is read
and lies below `FLT_MAX`. -/
theorem distAt_of_wellFormed {t : CCVRPTemplate} (hwf : t.WellFormed) {i j : Nat}
    (hi : i < t.cities.length) (hj : j < t.cities.length) :
    ∃ d, distAt t.distMtx i j = .ok d ∧ d < FLT_MAX := by
  have hi' : i < t.distMtx.length := by rw [hwf.rows]; exact hi
  have hrow : t.distMtx[i] ∈ t.distMtx := List.getElem_mem _
  have hj' : j < (t.distMtx[i]).length := by rw [hwf.cols _ hrow]; exact hj
  refine ⟨(t.distMtx[i])[j], ?_, hwf.finite _ hrow _ (List.getElem_mem _)⟩
  unfold distAt
  rw [List.getElem?_eq_getElem hi']
  simp only
  rw [List.getElem?_eq_getElem hj']

theorem depotStep_eq {t : CCVRPTemplate} {cityIdx idx q : Nat} {e : ℚ} (s : DepotScan)
    (hq : depotPosition t.cities idx = some q) (he : distAt t.distMtx cityIdx q = .ok e) :
    depotStep t cityIdx s idx
      = .ok (if e < s.minDist then { minDist := e, chosenIdx := some q } else s) := by
  unfold depotStep
  rw [hq]
  simp only [he]
  split_ifs <;> rfl

/-- The scan of `GetNearestDepotIdx` over a list of depots that all resolve: it returns a
state whose `minDist` is at most every distance seen; either nothing was below the initial
`minDist` and the state is unchanged, or `chosenIdx` is the position of the earliest depot
at the least distance. -/
theorem depotScan_spec (t : CCVRPTemplate) (cityIdx : Nat) (depots : List Nat)
    (hres : ∀ idx ∈ depots, ∃ q e, depotPosition t.cities idx = some q ∧
      distAt t.distMtx cityIdx q = .ok e) (s : DepotScan) :
    ∃ s', depots.foldlM (depotStep t cityIdx) s = .ok s' ∧ s'.minDist ≤ s.minDist ∧
      (∀ idx ∈ depots, ∀ q e, depotPosition t.cities idx = some q →
        distAt t.distMtx cityIdx q = .ok e → s'.minDist ≤ e) ∧
      (s' = s ∨ ∃ k idx p, depots[k]? = some idx ∧ depotPosition t.cities idx = some p ∧
        s'.chosenIdx = some p ∧ distAt t.distMtx cityIdx p = .ok s'.minDist ∧
        s'.minDist < s.minDist ∧
        ∀ (j idx' q : Nat) (e : ℚ), j < k → depots[j]? = some idx' → depotPosition t.cities idx' = some q →
          distAt t.distMtx cityIdx q = .ok e → s'.minDist < e) := by
  induction depots generalizing s with
  | nil =>
    exact ⟨s, rfl, le_refl _, fun _ h => absurd h (List.not_mem_nil _), Or.inl rfl⟩
  | cons x xs ih =>
    obtain ⟨q, e, hq, he⟩ := hres x (List.mem_cons_self _ _)
    have hres' : ∀ idx ∈ xs, ∃ q e, depotPosition t.cities idx = some q ∧
        distAt t.distMtx cityIdx q = .ok e :=
      fun idx h => hres idx (List.mem_cons_of_mem _ h)
    have hstep := depotStep_eq s hq he
    have same : ∀ {q' : Nat} {e' : ℚ}, depotPosition t.cities x = some q' →
        distAt t.distMtx cityIdx q' = .ok e' → e' = e := by
      intro q' e' hq' he'
      rw [hq] at hq'
      cases hq'
      rw [he] at he'
      cases he'
      rfl
    by_cases hlt : e < s.minDist
    · rw [if_pos hlt] at hstep
      obtain ⟨s', hs', hle, hall, hcase⟩ := ih hres' { minDist := e, chosenIdx := some q }
      have hle' : s'.minDist ≤ e := hle
      refine ⟨s', ?_, le_of_lt (lt_of_le_of_lt hle' hlt), ?_, Or.inr ?_⟩
      · rw [List.foldlM_cons, hstep]; exact hs'
      · intro idx hidx q' e' hq' he'
        rcases List.mem_cons.1 hidx with h | h
        · subst h; rw [same hq' he']; exact hle'
        · exact hall idx h q' e' hq' he'
      · rcases hcase with h | ⟨k, idx, p, hk, hp, hch, hd, hlt', hearly⟩
        · subst h
          refine ⟨0, x, q, List.getElem?_cons_zero, hq, rfl, he, hlt, ?_⟩
          intro j _ _ _ hj
          omega
        · refine ⟨k + 1, idx, p, by simpa using hk, hp, hch, hd, lt_trans hlt' hlt, ?_⟩
          intro j idx' q' e' hj hget hq' he'
          cases j with
          | zero =>
            have : idx' = x := by simpa using hget.symm
            subst this
            rw [same hq' he']; exact hlt'
          | succ j =>
            exact hearly j idx' q' e' (by omega) (by simpa using hget) hq' he'
    · rw [if_neg hlt] at hstep
      obtain ⟨s', hs', hle, hall, hcase⟩ := ih hres' s
      refine ⟨s', ?_, hle, ?_, ?_⟩
      · rw [List.foldlM_cons, hstep]; exact hs'
      · intro idx hidx q' e' hq' he'
        rcases List.mem_cons.1 hidx with h | h
        · subst h; rw [same hq' he']; exact le_trans hle (not_lt.1 hlt)
        · exact hall idx h q' e' hq' he'
      · rcases hcase with h | ⟨k, idx, p, hk, hp, hch, hd, hlt', hearly⟩
        · exact Or.inl h
        · refine Or.inr ⟨k + 1, idx, p, by simpa using hk, hp, hch, hd, hlt', ?_⟩
          intro j idx' q' e' hj hget hq' he'
          cases j with
          | zero =>
            have : idx' = x := by simpa using hget.symm
            subst this
            rw [same hq' he']; exact lt_of_lt_of_le hlt' (not_lt.1 hlt)
          | succ j =>
            exact hearly j idx' q' e' (by omega) (by simpa using hget) hq' he'

/-- On a well-formed template `GetNearestDepotIdx` returns the position of the earliest
depot of the list at the least distance from the city. -/
theorem GetNearestDepotIdx_spec {t : CCVRPTemplate} (hwf : t.WellFormed) {cityIdx : Nat}
    (hc : cityIdx < t.cities.length) :
    ∃ k idx p d, t.depots[k]? = some idx ∧ depotPosition t.cities idx = some p ∧
      p < t.cities.length ∧
      CCVRP.GetNearestDepotIdx t cityIdx = .ok p ∧ distAt t.distMtx cityIdx p = .ok d ∧
      ∀ (j idx' q : Nat), t.depots[j]? = some idx' → depotPosition t.cities idx' = some q →
        ∃ e, distAt t.distMtx cityIdx q = .ok e ∧ d ≤ e ∧ (j < k → d < e) := by
  have hres : ∀ idx ∈ t.depots, ∃ q e, depotPosition t.cities idx = some q ∧
      distAt t.distMtx cityIdx q = .ok e := by
    intro idx hidx
    obtain ⟨q, hq, hql⟩ := depotPosition_of_known (hwf.depots_known idx hidx)
    obtain ⟨e, he, _⟩ := distAt_of_wellFormed hwf hc hql
    exact ⟨q, e, hq, he⟩
  obtain ⟨s', hs', _, hall, hcase⟩ :=
    depotScan_spec t cityIdx t.depots hres { minDist := FLT_MAX, chosenIdx := none }
  rcases hcase with h | ⟨k, idx, p, hk, hp, hch, hd, _, hearly⟩
  · exfalso
    obtain ⟨x, xs, hx⟩ := List.exists_cons_of_ne_nil hwf.depots_ne
    have hxm : x ∈ t.depots := by rw [hx]; exact List.mem_cons_self _ _
    obtain ⟨q, hq, hql⟩ := depotPosition_of_known (hwf.depots_known x hxm)
    obtain ⟨e, he, hfin⟩ := distAt_of_wellFormed hwf hc hql
    have := hall x hxm q e hq he
    rw [h] at this
    exact absurd hfin (not_lt.2 this)
  · have hpl : p < t.cities.length := by
      obtain ⟨q, hq, hql⟩ := depotPosition_of_known
        (hwf.depots_known idx (List.getElem?_mem hk))
      rw [hp] at hq
      cases hq
      exact hql
    refine ⟨k, idx, p, s'.minDist, hk, hp, hpl, ?_, hd, ?_⟩
    · unfold CCVRP.GetNearestDepotIdx
      rw [hs']
      simp only [hch]
    · intro j idx' q hget hq
      obtain ⟨q', hq', hql⟩ := depotPosition_of_known
        (hwf.depots_known idx' (List.getElem?_mem hget))
      rw [hq] at hq'
      cases hq'
      obtain ⟨e, he, _⟩ := distAt_of_wellFormed hwf hc hql
      exact ⟨e, he, hall idx' (List.getElem?_mem hget) q e hq he,
        fun hj => hearly j idx' q e hj hget hq he⟩

/-! ## The route loop of `Evaluate` -/

/-- A position below `n` of a permutation of `[0,n)` holds a city position below `n`. -/
theorem geneAt_of_permutation {n : Nat} {genes : List Int} (hp : IsPermutation n genes)
    {i : Nat} (hi : i < n) :
    geneAt genes i = .ok (positionOf genes i) ∧ positionOf genes i < n := by
  have hlen := hp.length_eq
  have hi' : i < genes.length := by omega
  have hmem := hp.mem_iff.1 (List.getElem_mem (l := genes) hi')
  unfold geneAt positionOf
  rw [List.getElem?_eq_getElem hi', List.getD_eq_getElem _ _ hi']
  simp only [hmem.1, if_true]
  exact ⟨trivial, by omega⟩

theorem demandAt_eq {t : CCVRPTemplate} {i : Nat} (hi : i < t.cities.length) :
    demandAt t.cities i = .ok (demandOf t i) := by
  unfold demandAt demandOf
  rw [List.getElem?_eq_getElem hi]

theorem distAt_eq {t : CCVRPTemplate} (hwf : t.WellFormed) {i j : Nat}
    (hi : i < t.cities.length) (hj : j < t.cities.length) :
    distAt t.distMtx i j = .ok (distOf t i j) := by
  have hi' : i < t.distMtx.length := by rw [hwf.rows]; exact hi
  have hrow : t.distMtx[i] ∈ t.distMtx := List.getElem_mem _
  have hj' : j < (t.distMtx[i]).length := by rw [hwf.cols _ hrow]; exact hj
  unfold distAt distOf
  rw [List.getElem?_eq_getElem hi', List.getD_eq_getElem _ _ hi']
  simp only
  rw [List.getElem?_eq_getElem hj', List.getD_eq_getElem _ _ hj']

theorem nearestDepot_eq {t : CCVRPTemplate} (hwf : t.WellFormed) {i : Nat}
    (hi : i < t.cities.length) :
    CCVRP.GetNearestDepotIdx t i = .ok (nearestDepotOf t i) ∧
      nearestDepotOf t i < t.cities.length := by
  obtain ⟨_, _, p, _, _, _, hpl, hp, _⟩ := GetNearestDepotIdx_spec hwf hi
  unfold nearestDepotOf
  rw [hp]
  exact ⟨rfl, hpl⟩

/-- One transition of the route of the specification. -/
theorem specRouteOf_succ (rnd : ℚ → F32) (t : CCVRPTemplate) (genes : List Int) (k : Nat) :
    specRouteOf rnd t genes (k + 1)
      = if (specRouteOf rnd t genes k).1
            < demandOf t (positionOf genes ((k + 1) % t.cities.length))
        then (t.capacity - demandOf t (positionOf genes ((k + 1) % t.cities.length)),
          F32.add rnd
            (F32.add rnd (specRouteOf rnd t genes k).2
              (.fin (distOf t (positionOf genes k) (nearestDepotOf t (positionOf genes k)))))
            (.fin (distOf t (nearestDepotOf t (positionOf genes k))
              (positionOf genes ((k + 1) % t.cities.length)))))
        else ((specRouteOf rnd t genes k).1
            - demandOf t (positionOf genes ((k + 1) % t.cities.length)),
          F32.add rnd (specRouteOf rnd t genes k).2
            (.fin (distOf t (positionOf genes k)
              (positionOf genes ((k + 1) % t.cities.length))))) :=
  rfl

/-- One iteration of the route loop of `Evaluate` is one transition of the specification. -/
theorem evalStep_eq_spec (rnd : ℚ → F32) {t : CCVRPTemplate} (hwf : t.WellFormed)
    {genes : List Int} (hp : IsPermutation t.cities.length genes) {k : Nat}
    (hk : k < t.cities.length) :
    evalStep rnd t genes
        { current_load := (specRouteOf rnd t genes k).1,
          distance := (specRouteOf rnd t genes k).2 } k
      = .ok { current_load := (specRouteOf rnd t genes (k + 1)).1,
              distance := (specRouteOf rnd t genes (k + 1)).2 } := by
  have hn : 0 < t.cities.length := by omega
  obtain ⟨hcur, hcurlt⟩ := geneAt_of_permutation hp hk
  obtain ⟨hnext, hnextlt⟩ := geneAt_of_permutation hp (Nat.mod_lt (k + 1) hn)
  obtain ⟨hdep, hdeplt⟩ := nearestDepot_eq hwf hcurlt
  unfold evalStep CCVRPTemplate.GetCitiesSize
  simp only [hcur, hnext, demandAt_eq hnextlt, bind, Except.bind, pure, Except.pure]
  rw [specRouteOf_succ]
  split_ifs with hload
  · simp only [hdep, distAt_eq hwf hcurlt hdeplt, distAt_eq hwf hdeplt hnextlt]
  · simp only [distAt_eq hwf hcurlt hnextlt]

/-- The route loop of `Evaluate` after `k` transitions is the route of the specification. -/
theorem routeLoop_eq_spec (rnd : ℚ → F32) {t : CCVRPTemplate} (hwf : t.WellFormed)
    {genes : List Int} (hp : IsPermutation t.cities.length genes) (k : Nat)
    (hk : k ≤ t.cities.length) :
    routeLoop rnd t genes k
      = .ok { current_load := (specRouteOf rnd t genes k).1,
              distance := (specRouteOf rnd t genes k).2 } := by
  unfold routeLoop
  induction k with
  | zero => rfl
  | succ k ih =>
    rw [List.range_succ, List.foldlM_append, ih (by omega)]
    simp only [bind, Except.bind, List.foldlM_cons, List.foldlM_nil]
    rw [evalStep_eq_spec rnd hwf hp (by omega)]
    rfl

/-- `Evaluate` on a problem built by the constructor, given the result of the route loop. -/
theorem Evaluate_of_routeLoop {rnd : ℚ → F32} {t : CCVRPTemplate} {individual : AIndividual}
    {s : RouteState}
    (hs : routeLoop rnd t individual.m_Genotype.m_IntGenotype t.cities.length = .ok s)
    (hnorm : individual.m_NormalizedEvaluation ≠ []) :
    ∃ problem, CCVRP.create t = .ok problem ∧
      CCVRP.Evaluate rnd problem individual = .ok { individual with
        m_Evaluation := [s.distance],
        m_NormalizedEvaluation := individual.m_NormalizedEvaluation.set 0
          (normalize rnd s.distance t.minDistance t.maxDistance) } := by
  refine ⟨_, rfl, ?_⟩
  unfold CCVRP.Evaluate CCVRPTemplate.GetCitiesSize
  simp only [hs, bind, Except.bind]
  have : 0 < individual.m_NormalizedEvaluation.length := List.length_pos.2 hnorm
  simp only [List.getElem?_cons_zero, this, if_true]
  rfl

/-- With a capacity and demands that are not negative and fit an `int`, every load of the
route stays inside the range of a 32-bit `int`: no subtraction of the loop overflows. -/
theorem specRouteOf_load_range (rnd : ℚ → F32) {t : CCVRPTemplate}
    (hcap : 0 ≤ t.capacity ∧ t.capacity ≤ INT_MAX)
    (hdem : ∀ city ∈ t.cities, 0 ≤ city.m_demand ∧ city.m_demand ≤ INT_MAX)
    (genes : List Int) (k : Nat) :
    -INT_MAX ≤ (specRouteOf rnd t genes k).1 ∧ (specRouteOf rnd t genes k).1 ≤ INT_MAX := by
  have hd : ∀ i, 0 ≤ demandOf t i ∧ demandOf t i ≤ INT_MAX := by
    intro i
    unfold demandOf
    cases hc : t.cities[i]? with
    | none => exact ⟨le_refl _, by decide⟩
    | some city => exact hdem city (List.getElem?_mem hc)
  have hmax : (0 : Int) ≤ INT_MAX := by decide
  induction k with
  | zero =>
    show -INT_MAX ≤ t.capacity ∧ t.capacity ≤ INT_MAX
    omega
  | succ k ih =>
    rw [specRouteOf_succ]
    obtain ⟨h0, h1⟩ := hd (positionOf genes ((k + 1) % t.cities.length))
    split_ifs with hload
    · show -INT_MAX ≤ t.capacity - _ ∧ t.capacity - _ ≤ INT_MAX
      omega
    · show -INT_MAX ≤ (specRouteOf rnd t genes k).1 - _ ∧
        (specRouteOf rnd t genes k).1 - _ ≤ INT_MAX
      omega

/-- On a well-formed template the nearest depot of the specification is the position of a
depot of the list, at the least distance from the city among the depots. -/
theorem nearestDepotOf_spec {t : CCVRPTemplate} (hwf : t.WellFormed) {i : Nat}
    (hi : i < t.cities.length) :
    ∃ (k idx : Nat), t.depots[k]? = some idx ∧
      depotPosition t.cities idx = some (nearestDepotOf t i) ∧
      ∀ (j idx' q : Nat), t.depots[j]? = some idx' → depotPosition t.cities idx' = some q →
        distOf t i (nearestDepotOf t i) ≤ distOf t i q := by
  obtain ⟨k, idx, p, d, hk, hp, hpl, hres, hd, hall⟩ := GetNearestDepotIdx_spec hwf hi
  have hnp : nearestDepotOf t i = p := by
    unfold nearestDepotOf
    rw [hres]
  rw [hnp]
  refine ⟨k, idx, hk, hp, ?_⟩
  intro j idx' q hj hq
  obtain ⟨e, he, hle, _⟩ := hall j idx' q hj hq
  obtain ⟨q', hq', hql⟩ := depotPosition_of_known (hwf.depots_known idx' (List.getElem?_mem hj))
  rw [hq] at hq'
  cases hq'
  rw [distAt_eq hwf hi hpl] at hd
  rw [distAt_eq hwf hi hql] at he
  cases hd
  cases he
  exact hle

/-! ## Scenario A -/

theorem scenarioA_wellFormed : scenarioA.WellFormed := by
  refine ⟨rfl, by decide, ?_, by decide, by decide⟩
  intro row hrow d hd
  simp only [scenarioA, List.mem_cons, List.mem_singleton, List.not_mem_nil, or_false] at hrow
  rcases hrow with rfl | rfl | rfl | rfl <;>
    simp only [List.mem_cons, List.mem_singleton, List.not_mem_nil, or_false] at hd <;>
    rcases hd with rfl | rfl | rfl | rfl <;> norm_num [FLT_MAX]

theorem scenarioA_nearest : nearestDepotOf scenarioA 3 = 0 := by
  have h : (3 : ℚ) < FLT_MAX := by norm_num [FLT_MAX]
  simp [nearestDepotOf, CCVRP.GetNearestDepotIdx, depotStep, depotPosition, distAt, scenarioA,
    List.findIdx?, h]

theorem scenarioA_cities :
    scenarioA.cities = [⟨10, 2⟩, ⟨11, 3⟩, ⟨12, 1⟩, ⟨13, 4⟩] ∧ scenarioA.capacity = 5 :=
  ⟨rfl, rfl⟩

theorem scenarioA_distances :
    distOf scenarioA 1 2 = 4 ∧ distOf scenarioA 2 3 = 6 ∧ distOf scenarioA 3 0 = 3 ∧
    distOf scenarioA 0 0 = 0 ∧ distOf scenarioA 0 1 = 1 :=
  ⟨rfl, rfl, rfl, rfl, rfl⟩

/-- The route of the specification on scenario A, transition by transition, in an
arithmetic that rounds no whole number up to `14`: the loads are `5, 4, 0, 3, 0`, the only
detour is the third transition, from `3` to `0`, and the distances are `0, 4, 10, 13, 14`,
the third transition adding `3` and then `0`. -/
theorem scenarioA_route (rnd : ℚ → F32) (hr : ∀ n : Nat, n ≤ 14 → rnd (n : ℚ) = .fin n) :
    specRouteOf rnd scenarioA [1, 2, 3, 0] 0 = (5, .fin 0) ∧
    specRouteOf rnd scenarioA [1, 2, 3, 0] 1 = (4, .fin 4) ∧
    specRouteOf rnd scenarioA [1, 2, 3, 0] 2 = (0, .fin 10) ∧
    specRouteOf rnd scenarioA [1, 2, 3, 0] 3 = (3, .fin 13) ∧
    specRouteOf rnd scenarioA [1, 2, 3, 0] 4 = (0, .fin 14) := by
  have hn := scenarioA_nearest
  obtain ⟨hc, hcap⟩ := scenarioA_cities
  obtain ⟨d1, d2, d3, d4, d5⟩ := scenarioA_distances
  have r4 : rnd 4 = .fin 4 := by simpa using hr 4 (by norm_num)
  have r10 : rnd 10 = .fin 10 := by simpa using hr 10 (by norm_num)
  have r13 : rnd 13 = .fin 13 := by simpa using hr 13 (by norm_num)
  have r14 : rnd 14 = .fin 14 := by simpa using hr 14 (by norm_num)
  have h0 : specRouteOf rnd scenarioA [1, 2, 3, 0] 0 = (5, .fin 0) := rfl
  have h1 : specRouteOf rnd scenarioA [1, 2, 3, 0] 1 = (4, .fin 4) := by
    rw [specRouteOf_succ, h0]
    have hp0 : positionOf [1, 2, 3, 0] 0 = 1 := rfl
    have hp1 : positionOf [1, 2, 3, 0] ((0 + 1) % scenarioA.cities.length) = 2 := rfl
    have hd : demandOf scenarioA 2 = 1 := rfl
    rw [hp0, hp1, hd, d1, hcap]
    norm_num [F32.add, r4]
  have h2 : specRouteOf rnd scenarioA [1, 2, 3, 0] 2 = (0, .fin 10) := by
    rw [specRouteOf_succ, h1]
    have hp0 : positionOf [1, 2, 3, 0] 1 = 2 := rfl
    have hp1 : positionOf [1, 2, 3, 0] ((1 + 1) % scenarioA.cities.length) = 3 := rfl
    have hd : demandOf scenarioA 3 = 4 := rfl
    rw [hp0, hp1, hd, d2]
    norm_num [F32.add, r10]
  have h3 : specRouteOf rnd scenarioA [1, 2, 3, 0] 3 = (3, .fin 13) := by
    rw [specRouteOf_succ, h2]
    have hp0 : positionOf [1, 2, 3, 0] 2 = 3 := rfl
    have hp1 : positionOf [1, 2, 3, 0] ((2 + 1) % scenarioA.cities.length) = 0 := rfl
    have hd : demandOf scenarioA 0 = 2 := rfl
    rw [hp0, hp1, hd, hn, d3, d4, hcap]
    norm_num [F32.add, r13]
  have h4 : specRouteOf rnd scenarioA [1, 2, 3, 0] 4 = (0, .fin 14) := by
    rw [specRouteOf_succ, h3]
    have hp0 : positionOf [1, 2, 3, 0] 3 = 0 := rfl
    have hp1 : positionOf [1, 2, 3, 0] ((3 + 1) % scenarioA.cities.length) = 1 := rfl
    have hd : demandOf scenarioA 1 = 3 := rfl
    rw [hp0, hp1, hd, d5]
    norm_num [F32.add, r14]
  exact ⟨h0, h1, h2, h3, h4⟩

/-- Binary32 arithmetic rounds no whole number up to `14`. -/
theorem binary32_small (n : Nat) (h : n ≤ 14) : binary32 (n : ℚ) = .fin n :=
  binary32_natCast (le_trans h (by norm_num))

theorem scenarioA_routeLoop (rnd : ℚ → F32) (hr : ∀ n : Nat, n ≤ 14 → rnd (n : ℚ) = .fin n) :
    routeLoop rnd scenarioA routeA.m_Genotype.m_IntGenotype scenarioA.cities.length
      = .ok { current_load := 0, distance := .fin 14 } := by
  have hp : IsPermutation scenarioA.cities.length [1, 2, 3, 0] := by decide
  have h := routeLoop_eq_spec rnd scenarioA_wellFormed hp 4 (by decide)
  rw [(scenarioA_route rnd hr).2.2.2.2] at h
  exact h

theorem threeDepots_wellFormed : threeDepots.WellFormed :=
  ⟨scenarioA_wellFormed.rows, scenarioA_wellFormed.cols, scenarioA_wellFormed.finite,
    by decide, by decide⟩

/-! ## Normalization -/

theorem normalize_min {lo hi : ℚ} (h : hi ≠ lo) :
    normalize exactArithmetic (.fin lo) lo hi = .fin 0 := by
  have hne : hi + -lo ≠ 0 := by
    rw [← sub_eq_add_neg]
    exact sub_ne_zero.2 h
  simp only [normalize, F32.sub, F32.neg, F32.add, exactArithmetic, F32.div]
  rw [if_neg hne, add_neg_cancel, zero_div]

theorem normalize_max {lo hi : ℚ} (h : hi ≠ lo) :
    normalize exactArithmetic (.fin hi) lo hi = .fin 1 := by
  have hne : hi + -lo ≠ 0 := by
    rw [← sub_eq_add_neg]
    exact sub_ne_zero.2 h
  simp only [normalize, F32.sub, F32.neg, F32.add, exactArithmetic, F32.div]
  rw [if_neg hne, div_self hne]

/-- With equal bounds the divisor of the normalization is zero, so that the quotient is an
infinity or a NaN whatever the raw value. -/
theorem normalize_degenerate (raw : F32) (lo : ℚ) :
    F32.sub binary32 (.fin lo) (.fin lo) = .fin 0 ∧
    (normalize binary32 raw lo lo).isFinite = false := by
  have hz : binary32 0 = .fin 0 := by simpa using binary32_natCast (n := 0) (by norm_num)
  have hdiv : F32.sub binary32 (.fin lo) (.fin lo) = .fin 0 := by
    simp only [F32.sub, F32.neg, F32.add, add_neg_cancel, hz]
  refine ⟨hdiv, ?_⟩
  unfold normalize
  rw [hdiv]
  cases F32.sub binary32 raw (.fin lo) with
  | fin a =>
    by_cases ha : a = 0
    · simp [F32.div, ha, F32.isFinite]
    · simp [F32.div, ha, F32.isFinite]
  | inf negative => simp [F32.div, F32.isFinite]
  | nan => simp [F32.div, F32.isFinite]

/-! ## Rounding of the route distance -/

theorem longLeg_wellFormed : longLeg.WellFormed := by
  refine ⟨rfl, by decide, ?_, by decide, by decide⟩
  intro row hrow d hd
  simp only [longLeg, List.mem_cons, List.mem_singleton, List.not_mem_nil, or_false] at hrow
  rcases hrow with rfl | rfl <;>
    simp only [List.mem_cons, List.mem_singleton, List.not_mem_nil, or_false] at hd <;>
    rcases hd with rfl | rfl <;> norm_num [FLT_MAX]

/-- The route `[0,1]` over two cities at the distances `2^24` and `1`: the exact cost is
`2^24 + 1`, the binary32 sum that `Evaluate` stores is `2^24`. -/
theorem longLeg_route :
    specRouteOf exactArithmetic longLeg [0, 1] 2 = (0, .fin 16777217) ∧
    specRouteOf binary32 longLeg [0, 1] 2 = (0, .fin 16777216) := by
  have hb : binary32 16777216 = .fin 16777216 := by
    simpa using binary32_natCast (n := 16777216) (by norm_num)
  have hsum : (16777216 : ℚ) + 1 = 16777217 := by norm_num
  have hzero : (0 : ℚ) + 16777216 = 16777216 := by norm_num
  have h1 : ∀ rnd, specRouteOf rnd longLeg [0, 1] 1 = (0, rnd 16777216) := by
    intro rnd
    rw [specRouteOf_succ]
    show (if (0 : Int) < 0 then _ else ((0 : Int) - 0, rnd (0 + 16777216))) = _
    rw [if_neg (by decide), hzero]
    rfl
  have h2 : ∀ rnd, specRouteOf rnd longLeg [0, 1] 2
      = (0, F32.add rnd (rnd 16777216) (.fin 1)) := by
    intro rnd
    rw [specRouteOf_succ, h1]
    show (if (0 : Int) < 0 then _ else ((0 : Int) - 0, F32.add rnd (rnd 16777216) (.fin 1)))
      = _
    rw [if_neg (by decide)]
    rfl
  constructor
  · rw [h2]
    show ((0 : Int), F32.fin (16777216 + 1)) = _
    rw [hsum]
  · rw [h2, hb]
    show ((0 : Int), binary32 (16777216 + 1)) = _
    rw [hsum, binary32_tie]

/-- `Evaluate` on that round trip: the raw evaluation that the code stores is `2^24`, where
exact arithmetic gives `2^24 + 1`. -/
theorem longLeg_evaluate :
    (∃ problem individual', CCVRP.create longLeg = .ok problem ∧
      CCVRP.Evaluate binary32 problem roundTrip = .ok individual' ∧
      individual'.m_Evaluation = [.fin 16777216]) ∧
    (∃ problem individual', CCVRP.create longLeg = .ok problem ∧
      CCVRP.Evaluate exactArithmetic problem roundTrip = .ok individual' ∧
      individual'.m_Evaluation = [.fin 16777217]) := by
  have hp : IsPermutation longLeg.cities.length roundTrip.m_Genotype.m_IntGenotype := by
    decide
  have hnorm : roundTrip.m_NormalizedEvaluation ≠ [] := by decide
  obtain ⟨hE, hB⟩ := longLeg_route
  constructor
  · obtain ⟨problem, hc, he⟩ := Evaluate_of_routeLoop
      (routeLoop_eq_spec binary32 longLeg_wellFormed hp 2 (le_refl _)) hnorm
    refine ⟨problem, _, hc, he, ?_⟩
    show [(specRouteOf binary32 longLeg [0, 1] 2).2] = _
    rw [hB]
  · obtain ⟨problem, hc, he⟩ := Evaluate_of_routeLoop
      (routeLoop_eq_spec exactArithmetic longLeg_wellFormed hp 2 (le_refl _)) hnorm
    refine ⟨problem, _, hc, he, ?_⟩
    show [(specRouteOf exactArithmetic longLeg [0, 1] 2).2] = _
    rw [hE]

/-! ## Tables of whole numbers -/

/-- Every entry of a table of whole numbers is a whole number, also the `0` read outside
the table. -/
theorem distOf_whole {t : CCVRPTemplate}
    (hwhole : ∀ row ∈ t.distMtx, ∀ d ∈ row, ∃ m : Nat, d = m) (i j : Nat) :
    ∃ m : Nat, distOf t i j = m := by
  unfold distOf
  rcases Nat.lt_or_ge i t.distMtx.length with hi | hi
  · rw [List.getD_eq_getElem _ _ hi]
    rcases Nat.lt_or_ge j (t.distMtx[i]).length with hj | hj
    · rw [List.getD_eq_getElem _ _ hj]
      exact hwhole _ (List.getElem_mem _) _ (List.getElem_mem _)
    · rw [List.getD_eq_default _ _ hj]
      exact ⟨0, by norm_num⟩
  · rw [List.getD_eq_default _ _ hi]
    exact ⟨0, by simp⟩

/-- On a table of whole numbers the loads of the route do not depend on the arithmetic, the
exact distance is a whole number, and the binary32 distance is the exact one as long as the
exact one is at most `2^24`: no addition rounds. -/
theorem specRouteOf_whole {t : CCVRPTemplate}
    (hwhole : ∀ row ∈ t.distMtx, ∀ d ∈ row, ∃ m : Nat, d = m) (genes : List Int) (k : Nat) :
    ∃ m : Nat, specRouteOf exactArithmetic t genes k
        = ((specRouteOf binary32 t genes k).1, .fin m) ∧
      (m ≤ 2 ^ 24 → (specRouteOf binary32 t genes k).2 = .fin m) := by
  induction k with
  | zero => exact ⟨0, by simp [specRouteOf, specRoute], fun _ => by simp [specRouteOf, specRoute]⟩
  | succ k ih =>
    obtain ⟨m, hE, hB⟩ := ih
    have hE1 : (specRouteOf exactArithmetic t genes k).1 = (specRouteOf binary32 t genes k).1 := by
      rw [hE]
    have hE2 : (specRouteOf exactArithmetic t genes k).2 = .fin m := by
      rw [hE]
    rw [specRouteOf_succ, specRouteOf_succ, hE1, hE2]
    split_ifs with hload
    · obtain ⟨n1, h1⟩ := distOf_whole hwhole (positionOf genes k)
        (nearestDepotOf t (positionOf genes k))
      obtain ⟨n2, h2⟩ := distOf_whole hwhole (nearestDepotOf t (positionOf genes k))
        (positionOf genes ((k + 1) % t.cities.length))
      rw [h1, h2]
      refine ⟨m + n1 + n2, ?_, ?_⟩
      · simp [F32.add, exactArithmetic]
      · intro hle
        rw [hB (by omega)]
        have e1 : binary32 ((m : ℚ) + n1) = .fin ((m : ℚ) + n1) := by
          have := binary32_natCast (n := m + n1) (by omega)
          push_cast at this
          exact this
        have e2 : binary32 ((m : ℚ) + n1 + n2) = .fin ((m : ℚ) + n1 + n2) := by
          have := binary32_natCast (n := m + n1 + n2) (by omega)
          push_cast at this
          exact this
        simp only [F32.add, e1, e2]
        push_cast
        rfl
    · obtain ⟨n1, h1⟩ := distOf_whole hwhole (positionOf genes k)
        (positionOf genes ((k + 1) % t.cities.length))
      rw [h1]
      refine ⟨m + n1, ?_, ?_⟩
      · simp [F32.add, exactArithmetic]
      · intro hle
        rw [hB (by omega)]
        have e1 : binary32 ((m : ℚ) + n1) = .fin ((m : ℚ) + n1) := by
          have := binary32_natCast (n := m + n1) (by omega)
          push_cast at this
          exact this
        simp only [F32.add, e1]
        push_cast
        rfl

/-! ## The replacement loop of `FixChild` on arbitrary genotypes -/

/-- A step of the replacement loop at a gene outside `[0,n)` changes nothing. -/
theorem fixStep_of_not_mem {all_genes missing_genes : List Int} {s : FixState} {i : Nat}
    (hi : i < s.childGenes.length) (h : s.childGenes[i] ∉ all_genes) :
    fixStep all_genes missing_genes s i = .ok s := by
  unfold fixStep
  rw [List.getElem?_eq_getElem hi]
  simp only
  split_ifs <;> rfl

/-- Two predicates that agree off one index select numbers of elements of a list without
repetition that differ by at most one. -/
theorem length_filter_le_succ {p q : Nat → Bool} {k : Nat} (l : List Nat) (hd : l.Nodup)
    (h : ∀ i ∈ l, i ≠ k → q i = p i) : (l.filter q).length ≤ (l.filter p).length + 1 := by
  induction l with
  | nil => simp
  | cons x xs ih =>
    have hxs : ∀ i ∈ xs, i ≠ k → q i = p i := fun i hi => h i (List.mem_cons_of_mem _ hi)
    have hnd := (List.nodup_cons.1 hd).2
    have hx := (List.nodup_cons.1 hd).1
    by_cases hxk : x = k
    · have heq : xs.filter q = xs.filter p := by
        apply List.filter_congr
        intro i hi
        exact hxs i hi (fun hik => hx (hxk ▸ hik ▸ hi))
      rw [List.filter_cons, List.filter_cons, heq]
      split_ifs
      all_goals (try simp only [List.length_cons])
      all_goals omega
    · have hqp := h x (List.mem_cons_self _ _) hxk
      have := ih hnd hxs
      rw [List.filter_cons, List.filter_cons, hqp]
      split_ifs
      all_goals (try simp only [List.length_cons])
      all_goals omega

/-- Writing one position changes the number of changed positions by at most one. -/
theorem changedPositions_set_le (g cg : List Int) (k : Nat) (m : Int) :
    changedPositions g (cg.set k m) ≤ changedPositions g cg + 1 := by
  unfold changedPositions
  apply length_filter_le_succ (k := k) _ (List.nodup_range _)
  intro i _ hik
  rw [List.getElem?_set_ne (fun h => hik h.symm)]

/-- One step of the replacement loop keeps `FixSafe`, whatever the genes. -/
theorem fixStep_safe {n : Nat} {missing_genes g : List Int} {s : FixState}
    (hinv : FixSafe n missing_genes g s) {k : Nat} (hk : k < n) :
    ∃ s', fixStep (allGenes n) missing_genes s k = .ok s' ∧ FixSafe n missing_genes g s' ∧
      s.ii ≤ s'.ii ∧ s'.ii ≤ s.ii + 1 := by
  obtain ⟨hlen, habs, hbound, hkept, hchg⟩ := hinv
  have hi : k < s.childGenes.length := by omega
  by_cases hdup : 1 < s.childGenes.count s.childGenes[k]
  · by_cases hmem : s.childGenes[k] ∈ allGenes n
    · have hne := absentGenes_ne_nil hlen hdup
      obtain ⟨m, rest, hmr⟩ := List.exists_cons_of_ne_nil hne
      have hdrop : missing_genes.drop s.ii = m :: rest := by rw [← habs, hmr]
      have hget : missing_genes[s.ii]? = some m := by
        have := congrArg (fun l => l[0]?) hdrop
        simpa using this
      have hlt : s.ii < missing_genes.length := by
        by_contra hge
        rw [List.getElem?_eq_none (by omega)] at hget
        cases hget
      refine ⟨_, fixStep_of_dup hi hdup hmem hget, ⟨by simpa using hlen, ?_, hlt, ?_,
        le_trans (changedPositions_set_le g s.childGenes k m) (Nat.succ_le_succ hchg)⟩,
        Nat.le_succ _, le_refl _⟩
      · show absentGenes n (s.childGenes.set k m) = missing_genes.drop (s.ii + 1)
        rw [absentGenes_set hi hdup hmr]
        have := congrArg List.tail hdrop
        simpa using this.symm
      · intro i x hgi hx
        show (s.childGenes.set k m)[i]? = some x
        have hki : k ≠ i := by
          rintro rfl
          have := hkept k x hgi hx
          rw [List.getElem?_eq_getElem hi] at this
          cases this
          exact hx hmem
        rw [List.getElem?_set_ne hki]
        exact hkept i x hgi hx
    · exact ⟨s, fixStep_of_not_mem hi hmem, ⟨hlen, habs, hbound, hkept, hchg⟩, le_refl _,
        Nat.le_succ _⟩
  · exact ⟨s, fixStep_of_count_le hi (by omega), ⟨hlen, habs, hbound, hkept, hchg⟩, le_refl _,
      Nat.le_succ _⟩

/-- The replacement loop over the positions below `k`, on any genotype. -/
theorem fixLoop_safe (g : List Int) (k : Nat) (hk : k ≤ g.length) :
    ∃ s, (List.range k).foldlM (fixStep (allGenes g.length) (missingGenes g))
        { childGenes := g, ii := 0 } = .ok s ∧
      FixSafe g.length (missingGenes g) g s ∧ s.ii ≤ k := by
  induction k with
  | zero =>
    refine ⟨_, rfl, ⟨rfl, by simp [missingGenes], Nat.zero_le _, ?_, ?_⟩, le_refl _⟩
    · intro i x h _
      exact h
    · show changedPositions g g ≤ 0
      unfold changedPositions
      simp
  | succ k ih =>
    obtain ⟨s, hs, hinv, hle⟩ := ih (by omega)
    obtain ⟨s', hs', hinv', _, hle'⟩ := fixStep_safe hinv (show k < g.length by omega)
    refine ⟨s', ?_, hinv', by omega⟩
    rw [List.range_succ, List.foldlM_append, hs]
    simpa using hs'

/-- `FixChild` returns on every genotype; the returned genotype has the same length and
holds every gene outside `[0,n)` where it was. -/
theorem FixChildGenes_total (g : List Int) :
    ∃ s, fixLoop (allGenes g.length) (missingGenes g) g = .ok s ∧
      FixChildGenes g = .ok s.childGenes ∧ FixSafe g.length (missingGenes g) g s := by
  obtain ⟨s, hs, hinv, _⟩ := fixLoop_safe g g.length (le_refl _)
  refine ⟨s, hs, ?_, hinv⟩
  unfold FixChildGenes
  dsimp only
  unfold fixLoop
  rw [hs]
  rfl

/-! ## The pairing rule of `FixChild` -/

theorem length_pairedUpTo (g : List Int) (k : Nat) : (pairedUpTo g k).length = k := by
  simp [pairedUpTo]

theorem pairedUpTo_succ (g : List Int) (k : Nat) :
    pairedUpTo g (k + 1) = pairedUpTo g k ++ [pairedGene g k] := by
  simp [pairedUpTo, List.range_succ]

theorem overwrittenBefore_succ (g : List Int) (k : Nat) :
    overwrittenBefore g (k + 1)
      = overwrittenBefore g k + (if repeatsLater g k = true then 1 else 0) := by
  unfold overwrittenBefore
  rw [List.range_succ, List.filter_append, List.length_append]
  by_cases h : repeatsLater g k = true <;> simp [h]

theorem repeatsLater_iff {g : List Int} {k : Nat} (hk : k < g.length) :
    repeatsLater g k = true ↔ g[k] ∈ g.drop (k + 1) := by
  unfold repeatsLater
  rw [List.getD_eq_getElem _ _ hk]
  simp

theorem not_mem_drop_succ {g : List Int} {k : Nat} {x : Int} (h : x ∉ g.drop k) :
    x ∉ g.drop (k + 1) := by
  intro hx
  apply h
  have : g.drop (k + 1) = (g.drop k).drop 1 := by simp [List.drop_drop, Nat.add_comm]
  rw [this] at hx
  exact List.mem_of_mem_drop hx

/-- One step of the replacement loop follows the pairing rule. -/
theorem fixStep_pair {g : List Int} (hr : ∀ x ∈ g, x ∈ allGenes g.length) {k : Nat}
    {s : FixState} (hinv : PairInv g k s) (hk : k < g.length) :
    ∃ s', fixStep (allGenes g.length) (missingGenes g) s k = .ok s' ∧ PairInv g (k + 1) s' := by
  obtain ⟨hgenes, hcount, hfresh, habs, hbnd⟩ := hinv
  have hdropk : g.drop k = g[k] :: g.drop (k + 1) := List.drop_eq_getElem_cons hk
  have hlen : s.childGenes.length = g.length := by
    rw [hgenes, List.length_append, length_pairedUpTo, List.length_drop]
    omega
  have hi : k < s.childGenes.length := by omega
  have hsk : s.childGenes[k] = g[k] := by
    have h1 : s.childGenes[k]? = some g[k] := by
      rw [hgenes, List.getElem?_append_right (by rw [length_pairedUpTo]), length_pairedUpTo,
        Nat.sub_self, hdropk]
      exact List.getElem?_cons_zero
    rw [List.getElem?_eq_getElem hi] at h1
    exact Option.some.inj h1
  have hcnt : s.childGenes.count g[k] = 1 + (g.drop (k + 1)).count g[k] := by
    have h0 : (pairedUpTo g k).count g[k] = 0 := by
      apply List.count_eq_zero.2
      intro hmem
      exact hfresh _ hmem (by rw [hdropk]; exact List.mem_cons_self _ _)
    rw [hgenes, List.count_append, h0, hdropk, List.count_cons_self]
    omega
  by_cases hrep : repeatsLater g k = true
  · have hmemd : g[k] ∈ g.drop (k + 1) := (repeatsLater_iff hk).1 hrep
    have hpos : 0 < (g.drop (k + 1)).count g[k] := List.count_pos_iff.2 hmemd
    have hdup : 1 < s.childGenes.count s.childGenes[k] := by rw [hsk, hcnt]; omega
    have hne := absentGenes_ne_nil hlen hdup
    obtain ⟨m, rest, hmr⟩ := List.exists_cons_of_ne_nil hne
    have hdrop : (missingGenes g).drop s.ii = m :: rest := by rw [← habs, hmr]
    have hget : (missingGenes g)[s.ii]? = some m := by
      have := congrArg (fun l => l[0]?) hdrop
      simpa using this
    have hlt : s.ii < (missingGenes g).length := by
      by_contra hge
      rw [List.getElem?_eq_none (by omega)] at hget
      cases hget
    have hm : m ∈ absentGenes g.length s.childGenes := by
      rw [hmr]; exact List.mem_cons_self _ _
    have hm0 : m ∉ s.childGenes := List.count_eq_zero.1 (mem_absentGenes.1 hm).2
    have hpg : pairedGene g k = m := by
      unfold pairedGene
      rw [if_pos hrep, ← hcount, List.getD_eq_getElem?_getD, hget]
      rfl
    refine ⟨_, fixStep_of_dup hi hdup (by rw [hsk]; exact hr _ (List.getElem_mem _)) hget,
      ?_, ?_, ?_, ?_, ?_⟩
    · show s.childGenes.set k m = pairedUpTo g (k + 1) ++ g.drop (k + 1)
      rw [pairedUpTo_succ, hpg, hgenes, List.set_append_right _ _ (by rw [length_pairedUpTo]),
        length_pairedUpTo, Nat.sub_self]
      have hset : (g.drop k).set 0 m = m :: g.drop (k + 1) := by rw [hdropk]; rfl
      rw [hset]
      simp
    · show s.ii + 1 = overwrittenBefore g (k + 1)
      rw [overwrittenBefore_succ, if_pos hrep, hcount]
    · intro x hx
      rw [pairedUpTo_succ, hpg] at hx
      rcases List.mem_append.1 hx with h | h
      · exact not_mem_drop_succ (hfresh x h)
      · have : x = m := by simpa using h
        subst this
        intro hxd
        apply hm0
        rw [hgenes]
        exact List.mem_append_right _ (by rw [hdropk]; exact List.mem_cons_of_mem _ hxd)
    · show absentGenes g.length (s.childGenes.set k m) = (missingGenes g).drop (s.ii + 1)
      rw [absentGenes_set hi hdup hmr]
      have := congrArg List.tail hdrop
      simpa using this.symm
    · intro i hik hri
      by_cases hik' : i = k
      · subst hik'
        rw [← hcount]; exact hlt
      · exact hbnd i (by omega) hri
  · have hnmem : g[k] ∉ g.drop (k + 1) := fun h => hrep ((repeatsLater_iff hk).2 h)
    have hzero : (g.drop (k + 1)).count g[k] = 0 := List.count_eq_zero.2 hnmem
    have hpg : pairedGene g k = g[k] := by
      unfold pairedGene
      rw [if_neg hrep, List.getD_eq_getElem _ _ hk]
    refine ⟨s, fixStep_of_count_le hi (by rw [hsk, hcnt]; omega), ?_, ?_, ?_, habs, ?_⟩
    · rw [pairedUpTo_succ, hpg, hgenes, hdropk]
      simp
    · rw [overwrittenBefore_succ, if_neg hrep, hcount]
      rfl
    · intro x hx
      rw [pairedUpTo_succ, hpg] at hx
      rcases List.mem_append.1 hx with h | h
      · exact not_mem_drop_succ (hfresh x h)
      · have : x = g[k] := by simpa using h
        subst this
        exact hnmem
    · intro i hik hri
      by_cases hik' : i = k
      · subst hik'
        exact absurd hri hrep
      · exact hbnd i (by omega) hri

/-- The replacement loop over the positions below `k` follows the pairing rule. -/
theorem fixLoop_pair {g : List Int} (hr : ∀ x ∈ g, x ∈ allGenes g.length) (k : Nat)
    (hk : k ≤ g.length) :
    ∃ s, (List.range k).foldlM (fixStep (allGenes g.length) (missingGenes g))
        { childGenes := g, ii := 0 } = .ok s ∧ PairInv g k s := by
  induction k with
  | zero =>
    refine ⟨_, rfl, ?_, rfl, ?_, by simp [missingGenes], ?_⟩
    · simp [pairedUpTo]
    · intro x hx
      simp [pairedUpTo] at hx
    · intro i hi
      omega
  | succ k ih =>
    obtain ⟨s, hs, hinv⟩ := ih (by omega)
    obtain ⟨s', hs', hinv'⟩ := fixStep_pair hr hinv (by omega)
    refine ⟨s', ?_, hinv'⟩
    rw [List.range_succ, List.foldlM_append, hs]
    simpa using hs'

/-- On a genotype with genes in `[0,n)` `FixChild` returns the genotype of the pairing
rule. -/
theorem FixChildGenes_eq_paired {g : List Int} (hr : ∀ x ∈ g, x ∈ allGenes g.length) :
    FixChildGenes g = .ok (pairedGenotype g) ∧
      ∀ i, i < g.length → repeatsLater g i = true →
        overwrittenBefore g i < (missingGenes g).length := by
  obtain ⟨s, hs, hinv⟩ := fixLoop_pair hr g.length (le_refl _)
  refine ⟨?_, hinv.inBounds⟩
  have hg : s.childGenes = pairedGenotype g := by
    rw [hinv.genes, List.drop_length, List.append_nil]
    rfl
  unfold FixChildGenes
  dsimp only
  unfold fixLoop
  rw [hs, ← hg]
  rfl

theorem FixChild_of_genes {child : AIndividual} {g' : List Int}
    (h : FixChildGenes child.m_Genotype.m_IntGenotype = .ok g') :
    FixChild child = .ok (withIntGenotype child g') := by
  unfold FixChild
  rw [h]
  rfl

theorem allGenes_pairwise (n : Nat) : (allGenes n).Pairwise (· < ·) := by
  unfold allGenes
  rw [List.pairwise_map]
  refine List.Pairwise.imp ?_ (List.pairwise_lt_range n)
  intro a b h
  simp only [Int.ofNat_eq_coe]
  omega

theorem missingGenes_pairwise (g : List Int) : (missingGenes g).Pairwise (· < ·) :=
  List.Pairwise.filter _ (allGenes_pairwise _)

theorem getElem?_pairedGenotype (g : List Int) {i : Nat} (hi : i < g.length) :
    (pairedGenotype g)[i]? = some (pairedGene g i) := by
  unfold pairedGenotype pairedUpTo
  rw [List.getElem?_map, List.getElem?_range hi]
  rfl

theorem two_le_count_of_mem_drop {g : List Int} {i : Nat} (hi : i < g.length)
    (h : g[i] ∈ g.drop (i + 1)) : 2 ≤ g.count g[i] := by
  have hsplit : g = g.take i ++ g[i] :: g.drop (i + 1) := by
    rw [← List.drop_eq_getElem_cons hi, List.take_append_drop]
  have hpos : 0 < (g.drop (i + 1)).count g[i] := List.count_pos_iff.2 h
  have hc := congrArg (fun l => List.count g[i] l) hsplit
  simp only [List.count_append, List.count_cons_self] at hc
  omega

/-! ## Frame, closed form and termination of `Crossover` -/

/-- One section of `Crossover` leaves the parents as they are. -/
theorem crossoverStep_parents {p : ℚ} {fuel : Nat} {s s' : Family}
    {sd : SEncodingSection × OXDraw} (h : crossoverStep p fuel s sd = .ok s') :
    s'.firstParent = s.firstParent ∧ s'.secondParent = s.secondParent := by
  unfold crossoverStep at h
  dsimp only at h
  split_ifs at h with hr
  · cases hsec : crossoverSection fuel sd.1.m_SectionDescription.length sd.2.a sd.2.b
        s.firstParent.m_Genotype.m_IntGenotype s.secondParent.m_Genotype.m_IntGenotype
        s.firstChild.m_Genotype.m_IntGenotype s.secondChild.m_Genotype.m_IntGenotype with
    | error e =>
      rw [hsec] at h
      cases h
    | ok cs =>
      rw [hsec] at h
      cases h
      exact ⟨rfl, rfl⟩
  · cases h
    exact ⟨rfl, rfl⟩

/-- One section of `Crossover` whose draw fails leaves the whole family as it is. -/
theorem crossoverStep_of_no_draw {p : ℚ} (fuel : Nat) (s : Family)
    {sd : SEncodingSection × OXDraw} (h : ¬ sd.2.r < p) : crossoverStep p fuel s sd = .ok s := by
  unfold crossoverStep
  dsimp only
  rw [if_neg h]
  rfl

theorem foldlM_crossoverStep_parents {p : ℚ} {fuel : Nat}
    (l : List (SEncodingSection × OXDraw)) {s s' : Family}
    (h : l.foldlM (crossoverStep p fuel) s = .ok s') :
    s'.firstParent = s.firstParent ∧ s'.secondParent = s.secondParent := by
  induction l generalizing s with
  | nil =>
    cases h
    exact ⟨rfl, rfl⟩
  | cons x xs ih =>
    rw [List.foldlM_cons] at h
    cases hx : crossoverStep p fuel s x with
    | error e =>
      rw [hx] at h
      cases h
    | ok s1 =>
      rw [hx] at h
      obtain ⟨h1, h2⟩ := crossoverStep_parents hx
      obtain ⟨h3, h4⟩ := ih h
      exact ⟨h3.trans h1, h4.trans h2⟩

theorem getElem?_oxChild {parent : List Int} {n a b j : Nat} (hlen : parent.length = n)
    (hab : a ≤ b) (hbn : b ≤ n) (hj : j < n) :
    (oxChild parent n a b)[j]? = parent[oxSource n a b j]? := by
  have hs : oxSource n a b j < parent.length := by rw [hlen]; exact oxSource_lt hab hbn hj
  unfold oxChild
  rw [List.getElem?_map, List.getElem?_range hj]
  simp only [Option.map_some']
  rw [List.getElem?_eq_getElem hs, List.getD_eq_getElem _ _ hs]

/-- The genes of a child outside the segment, read in ascending position order, are the
parent's genes from `b` to the end followed by its genes below `a`. -/
theorem oxChild_fill {parent : List Int} {n a b : Nat} (hlen : parent.length = n)
    (hab : a ≤ b) (hbn : b ≤ n) :
    (oxChild parent n a b).take a ++ (oxChild parent n a b).drop b
      = parent.drop b ++ parent.take a := by
  have hl := length_oxChild parent n a b
  apply List.ext_getElem?
  intro j
  by_cases hjlt : j < a + (n - b)
  · have hR : (parent.drop b ++ parent.take a)[j]?
        = parent[if b + j < n then b + j else b + j - n]? := by
      by_cases h : b + j < n
      · rw [List.getElem?_append_left (by rw [List.length_drop]; omega), List.getElem?_drop,
          if_pos h]
      · rw [List.getElem?_append_right (by rw [List.length_drop]; omega), List.length_drop,
          List.getElem?_take_of_lt (by omega), if_neg h]
        congr 1
        omega
    rw [hR]
    by_cases hja : j < a
    · rw [List.getElem?_append_left (by rw [List.length_take]; omega),
        List.getElem?_take_of_lt hja, getElem?_oxChild hlen hab hbn (by omega)]
      congr 1
      unfold oxSource
      rw [if_pos hja]
    · rw [List.getElem?_append_right (by rw [List.length_take]; omega), List.length_take,
        List.getElem?_drop, getElem?_oxChild hlen hab hbn (by omega)]
      congr 1
      unfold oxSource
      have h1 : min a (oxChild parent n a b).length = a := by omega
      rw [h1]
      split_ifs <;> omega
  · rw [List.getElem?_eq_none (by simp [hl]; omega),
      List.getElem?_eq_none (by simp [hlen]; omega)]

/-- The child read off a permutation is a rearrangement of that permutation. -/
theorem oxChild_perm {parent : List Int} {n a b : Nat} (hab : a ≤ b) (hbn : b ≤ n)
    (hp : IsPermutation n parent) : List.Perm (oxChild parent n a b) parent :=
  List.Perm.trans (oxChild_isPermutation hab hbn hp) (List.Perm.symm hp)

/-- On the repeated parent `[0,0]` the circular scan never finds a free gene. -/
theorem findFree_repeated (fuel : Nat) :
    ∀ idx, idx < 2 → findFree fuel [0, -1] [0, 0] 2 idx = .error .outOfFuel := by
  induction fuel with
  | zero =>
    intro idx hidx
    interval_cases idx <;> rfl
  | succ fuel ih =>
    intro idx hidx
    interval_cases idx
    · have := ih 1 (by decide)
      simpa [findFree, INT_MAX] using this
    · have := ih 0 (by decide)
      simpa [findFree, INT_MAX] using this

/-- The body of `Crossover` on the repeated parents `[0,0]` with `a = b = 0` runs out of
every fuel. -/
theorem crossoverSection_repeated (fuel : Nat) :
    crossoverSection fuel 2 0 0 [0, 0] [0, 0] [0, 0] [0, 0] = .error .outOfFuel := by
  have h0 : findFree fuel [-1, -1] [0, 0] 2 0 = .ok 0 :=
    @findFree_of_not_mem fuel [-1, -1] [0, 0] 2 0 0 rfl (by decide)
  have h1 := findFree_repeated fuel 1 (by decide)
  have hr : List.range 2 = [0, 1] := rfl
  simp [crossoverSection, copyRange, hr, fillStep, fillOne, h0, h1, bind, Except.bind, pure,
    Except.pure]

/-! ## The load of the vehicle -/

/-- A position below `n` of a genotype of valid city positions holds a position below `n`. -/
theorem geneAt_of_valid {n : Nat} {genes : List Int} (hlen : n ≤ genes.length)
    (hval : ∀ x ∈ genes, 0 ≤ x ∧ x < n) {i : Nat} (hi : i < n) :
    geneAt genes i = .ok (positionOf genes i) ∧ positionOf genes i < n := by
  have hi' : i < genes.length := by omega
  have hmem := hval _ (List.getElem_mem (l := genes) hi')
  unfold geneAt positionOf
  rw [List.getElem?_eq_getElem hi', List.getD_eq_getElem _ _ hi']
  simp only [hmem.1, if_true]
  exact ⟨trivial, by omega⟩

/-- The route loop of `Evaluate` returns on a genotype of valid city positions. -/
theorem routeLoop_of_valid (rnd : ℚ → F32) {t : CCVRPTemplate} (hwf : t.WellFormed)
    {genes : List Int} (hlen : t.cities.length ≤ genes.length)
    (hval : ∀ x ∈ genes, 0 ≤ x ∧ x < t.cities.length) (k : Nat) (hk : k ≤ t.cities.length) :
    ∃ s, routeLoop rnd t genes k = .ok s := by
  unfold routeLoop
  induction k with
  | zero => exact ⟨_, rfl⟩
  | succ k ih =>
    obtain ⟨s, hs⟩ := ih (by omega)
    have hkn : k < t.cities.length := by omega
    have hn : 0 < t.cities.length := by omega
    obtain ⟨hcur, hcurlt⟩ := geneAt_of_valid hlen hval hkn
    obtain ⟨hnext, hnextlt⟩ := geneAt_of_valid hlen hval (Nat.mod_lt (k + 1) hn)
    obtain ⟨hdep, hdeplt⟩ := nearestDepot_eq hwf hcurlt
    rw [List.range_succ, List.foldlM_append, hs]
    simp only [bind, Except.bind, List.foldlM_cons, List.foldlM_nil]
    unfold evalStep CCVRPTemplate.GetCitiesSize
    simp only [hcur, hnext, demandAt_eq hnextlt, bind, Except.bind, pure, Except.pure]
    split_ifs with hload
    · simp only [hdep, distAt_eq hwf hcurlt hdeplt, distAt_eq hwf hdeplt hnextlt]
      exact ⟨_, rfl⟩
    · simp only [distAt_eq hwf hcurlt hnextlt]
      exact ⟨_, rfl⟩

theorem demandAt_bounds {t : CCVRPTemplate}
    (hdem : ∀ city ∈ t.cities, 0 ≤ city.m_demand ∧ city.m_demand ≤ t.capacity)
    {i : Nat} {d : Int} (h : demandAt t.cities i = .ok d) : 0 ≤ d ∧ d ≤ t.capacity := by
  unfold demandAt at h
  cases hc : t.cities[i]? with
  | none =>
    rw [hc] at h
    cases h
  | some city =>
    rw [hc] at h
    cases h
    exact hdem city (List.getElem?_mem hc)

/-- One transition of the route loop leaves a load between `0` and the capacity. -/
theorem evalStep_load {rnd : ℚ → F32} {t : CCVRPTemplate}
    (hdem : ∀ city ∈ t.cities, 0 ≤ city.m_demand ∧ city.m_demand ≤ t.capacity)
    {genes : List Int} {s s' : RouteState} {i : Nat} (hs : s.current_load ≤ t.capacity)
    (h : evalStep rnd t genes s i = .ok s') :
    0 ≤ s'.current_load ∧ s'.current_load ≤ t.capacity := by
  unfold evalStep at h
  cases h1 : geneAt genes i with
  | error e => rw [h1] at h; cases h
  | ok cityIdx =>
    rw [h1] at h
    simp only [bind, Except.bind] at h
    cases h2 : geneAt genes ((i + 1) % t.GetCitiesSize) with
    | error e => rw [h2] at h; cases h
    | ok nextCityIdx =>
      rw [h2] at h
      simp only at h
      cases h3 : demandAt t.cities nextCityIdx with
      | error e => rw [h3] at h; cases h
      | ok demand =>
        obtain ⟨hd0, hdc⟩ := demandAt_bounds hdem h3
        rw [h3] at h
        simp only [pure, Except.pure] at h
        split_ifs at h with hload
        · cases h4 : CCVRP.GetNearestDepotIdx t cityIdx with
          | error e => rw [h4] at h; cases h
          | ok depotIdx =>
            rw [h4] at h
            simp only at h
            cases h5 : distAt t.distMtx cityIdx depotIdx with
            | error e => rw [h5] at h; cases h
            | ok d1 =>
              rw [h5] at h
              simp only at h
              cases h6 : distAt t.distMtx depotIdx nextCityIdx with
              | error e => rw [h6] at h; cases h
              | ok d2 =>
                rw [h6] at h
                cases h
                exact ⟨by show 0 ≤ t.capacity - demand; omega,
                  by show t.capacity - demand ≤ t.capacity; omega⟩
        · cases h7 : distAt t.distMtx cityIdx nextCityIdx with
          | error e => rw [h7] at h; cases h
          | ok d =>
            rw [h7] at h
            cases h
            exact ⟨by show 0 ≤ s.current_load - demand; omega,
              by show s.current_load - demand ≤ t.capacity; omega⟩

/-- Whenever the route loop returns, the load is at most the capacity and, after at least
one transition, not negative. -/
theorem routeLoop_load {rnd : ℚ → F32} {t : CCVRPTemplate}
    (hdem : ∀ city ∈ t.cities, 0 ≤ city.m_demand ∧ city.m_demand ≤ t.capacity)
    (genes : List Int) (k : Nat) {s : RouteState} (h : routeLoop rnd t genes k = .ok s) :
    s.current_load ≤ t.capacity ∧ (1 ≤ k → 0 ≤ s.current_load) := by
  induction k generalizing s with
  | zero =>
    cases h
    exact ⟨le_refl _, fun h0 => absurd h0 (by decide)⟩
  | succ k ih =>
    unfold routeLoop at h
    rw [List.range_succ, List.foldlM_append] at h
    cases hprev : (List.range k).foldlM (evalStep rnd t genes)
        { current_load := t.capacity, distance := .fin 0 } with
    | error e =>
      rw [hprev] at h
      cases h
    | ok s0 =>
      rw [hprev] at h
      simp only [bind, Except.bind, List.foldlM_cons, List.foldlM_nil] at h
      have hstep : evalStep rnd t genes s0 k = .ok s := by
        cases hk : evalStep rnd t genes s0 k with
        | error e => rw [hk] at h; cases h
        | ok s1 =>
          rw [hk] at h
          cases h
          rfl
      obtain ⟨h0, hc⟩ := evalStep_load hdem (ih hprev).1 hstep
      exact ⟨hc, fun _ => h0⟩

/-- The route loop does not read the bounds of the normalization. -/
theorem routeLoop_bounds (rnd : ℚ → F32) (t : CCVRPTemplate) (hi lo : ℚ) (genes : List Int)
    (k : Nat) :
    routeLoop rnd { t with maxDistance := hi, minDistance := lo } genes k
      = routeLoop rnd t genes k :=
  rfl

theorem degenerateBounds_routeLoop :
    routeLoop binary32 degenerateBounds routeA.m_Genotype.m_IntGenotype
        degenerateBounds.cities.length
      = .ok { current_load := 0, distance := .fin 14 } :=
  (routeLoop_bounds binary32 scenarioA 14 14 _ _).trans
    (scenarioA_routeLoop binary32 binary32_small)

/-! ## The encoding of the problem -/

/-- With `2^24 + 2` cities the upper bound that `CreateProblemEncoding` stores is `2^24`. -/
theorem createProblemEncoding_at_tie (t : CCVRPTemplate) (h : t.cities.length = 16777218) :
    ∃ sec, (CCVRP.CreateProblemEncoding t).m_Encoding = [sec] ∧
      sec.m_SectionDescription.length = t.cities.length ∧
      ∀ d ∈ sec.m_SectionDescription,
        d.m_MaxValue = 16777216 ∧ d.m_MaxValue ≠ (t.cities.length : ℚ) - 1 := by
  have hsize : t.GetCitiesSize = 16777218 := h
  have hmax : nearest32 ((((t.GetCitiesSize : Int) - 1) % 2 ^ 64 : Int) : ℚ) = 16777216 := by
    rw [hsize]
    norm_num
    exact nearest32_tie
  refine ⟨_, rfl, ?_, ?_⟩
  · show (List.replicate t.GetCitiesSize _).length = _
    rw [List.length_replicate]
    rfl
  · intro d hd
    have hd' := List.eq_of_mem_replicate hd
    subst hd'
    constructor
    · exact hmax
    · show nearest32 ((((t.GetCitiesSize : Int) - 1) % 2 ^ 64 : Int) : ℚ) ≠ _
      rw [hmax, h]
      norm_num

/-! # The claims -/

/-- C1. `CCVRP_OX::Crossover` preserves permutations: on a single-section encoding of size
`n ≥ 1`, parents that are permutations of `[0,n)`, children of length `n` and cut points
`a ≤ b ≤ n`, when the draw succeeds `Crossover` returns (whatever the bound on the advances
of its `while` loops) and both children's integer genotypes are permutations of `[0,n)`:
every value of `[0,n)` occurs exactly once, no `-1` remains; a subsequent `FixChild`
returns them unchanged, hence as permutations. -/
theorem crossover_preserves_permutations (n : Nat) (_hn : 1 ≤ n) (enc : SProblemEncoding)
    (sec : SEncodingSection) (henc : enc.m_Encoding = [sec])
    (hsec : sec.m_SectionDescription.length = n) (s : Family)
    (hp1 : IsPermutation n s.firstParent.m_Genotype.m_IntGenotype)
    (hp2 : IsPermutation n s.secondParent.m_Genotype.m_IntGenotype)
    (hc1 : s.firstChild.m_Genotype.m_IntGenotype.length = n)
    (hc2 : s.secondChild.m_Genotype.m_IntGenotype.length = n)
    (p : ℚ) (draws : Nat → OXDraw) (a b : Nat) (hr : (draws 0).r < p)
    (ha : (draws 0).a = a) (hb : (draws 0).b = b) (hab : a ≤ b) (hbn : b ≤ n) (fuel : Nat) :
    ∃ s', CCVRP_OX.Crossover p draws fuel enc s = .ok s' ∧
      IsPermutation n s'.firstChild.m_Genotype.m_IntGenotype ∧
      IsPermutation n s'.secondChild.m_Genotype.m_IntGenotype ∧
      (∀ v : Nat, v < n → s'.firstChild.m_Genotype.m_IntGenotype.count (v : Int) = 1 ∧
        s'.secondChild.m_Genotype.m_IntGenotype.count (v : Int) = 1) ∧
      (-1 : Int) ∉ s'.firstChild.m_Genotype.m_IntGenotype ∧
      (-1 : Int) ∉ s'.secondChild.m_Genotype.m_IntGenotype ∧
      FixChild s'.firstChild = .ok s'.firstChild ∧
      FixChild s'.secondChild = .ok s'.secondChild := by
  have h1 : IsPermutation n (oxResult s n a b).firstChild.m_Genotype.m_IntGenotype :=
    oxChild_isPermutation hab hbn hp2
  have h2 : IsPermutation n (oxResult s n a b).secondChild.m_Genotype.m_IntGenotype :=
    oxChild_isPermutation hab hbn hp1
  exact ⟨oxResult s n a b, Crossover_single fuel henc hsec hp1 hp2 hc1 hc2 hr ha hb hab hbn,
    h1, h2, fun v hv => ⟨h1.count_eq_one hv, h2.count_eq_one hv⟩,
    h1.sentinel_not_mem, h2.sentinel_not_mem,
    FixChild_of_nodup h1.nodup, FixChild_of_nodup h2.nodup⟩

/-- Witness of C1: scenario B, cut points `1` and `3`, no fuel. -/
theorem crossover_preserves_permutations_witness :
    ∃ s', CCVRP_OX.Crossover 1 (cutDraws 1 3) 0 (permutationEncoding 5) scenarioB = .ok s' ∧
      IsPermutation 5 s'.firstChild.m_Genotype.m_IntGenotype ∧
      IsPermutation 5 s'.secondChild.m_Genotype.m_IntGenotype ∧
      (∀ v : Nat, v < 5 → s'.firstChild.m_Genotype.m_IntGenotype.count (v : Int) = 1 ∧
        s'.secondChild.m_Genotype.m_IntGenotype.count (v : Int) = 1) ∧
      (-1 : Int) ∉ s'.firstChild.m_Genotype.m_IntGenotype ∧
      (-1 : Int) ∉ s'.secondChild.m_Genotype.m_IntGenotype ∧
      FixChild s'.firstChild = .ok s'.firstChild ∧
      FixChild s'.secondChild = .ok s'.secondChild :=
  crossover_preserves_permutations 5 (by decide) (permutationEncoding 5) _ rfl (by decide)
    scenarioB (by decide) (by decide) (by decide) (by decide) 1 (cutDraws 1 3) 1 3
    (by simp [cutDraws]) rfl rfl (by decide) (by decide) 0

/-- C2. `CCVRP::Evaluate` computes the capacity-constrained route cost of the
specification, in the float arithmetic of the code: on a well-formed template whose capacity
and demands are not negative and fit an `int`, and a genotype that is a permutation of the
city positions, `Evaluate` returns and the raw evaluation is the one-element vector of the
distance of `specRoute` after the `n` transitions (load starting at the capacity, detour by
the nearest depot of the current city and reset of the load when the load is below the
demand of the next city, direct leg otherwise, demand of the next city taken off the load in
both cases), every addition to the distance being a binary32 addition; after each
transition the route loop holds the load and the distance of `specRoute`, and the load lies
inside the range of an `int`; the nearest depot of `specRoute` is a depot at the least
distance from the current city; on a table of whole numbers the cost of `specRoute` in
exact arithmetic is a whole number, and the raw evaluation is that number as long as it is
at most `2^24`. Scenario A: demands `[2,3,1,4]`, capacity `5`, depot at position `0`,
genotype `[1,2,3,0]` gives exactly one detour, at the transition `3 → 0`, and the total
`d(1,2) + d(2,3) + d(3,0) + d(0,0) + d(0,1)`, which no addition rounds. -/
theorem evaluate_computes_route_cost (t : CCVRPTemplate) (hwf : t.WellFormed)
    (individual : AIndividual)
    (hp : IsPermutation t.cities.length individual.m_Genotype.m_IntGenotype)
    (hnorm : individual.m_NormalizedEvaluation ≠ [])
    (hcap : 0 ≤ t.capacity ∧ t.capacity ≤ INT_MAX)
    (hdem : ∀ city ∈ t.cities, 0 ≤ city.m_demand ∧ city.m_demand ≤ INT_MAX) :
    (∃ problem individual', CCVRP.create t = .ok problem ∧
      CCVRP.Evaluate binary32 problem individual = .ok individual' ∧
      individual'.m_Evaluation
        = [(specRouteOf binary32 t individual.m_Genotype.m_IntGenotype
            t.cities.length).2]) ∧
    (∀ k, k ≤ t.cities.length →
      routeLoop binary32 t individual.m_Genotype.m_IntGenotype k
        = .ok { current_load :=
                  (specRouteOf binary32 t individual.m_Genotype.m_IntGenotype k).1,
                distance :=
                  (specRouteOf binary32 t individual.m_Genotype.m_IntGenotype k).2 } ∧
      -INT_MAX ≤ (specRouteOf binary32 t individual.m_Genotype.m_IntGenotype k).1 ∧
      (specRouteOf binary32 t individual.m_Genotype.m_IntGenotype k).1 ≤ INT_MAX) ∧
    (∀ i, i < t.cities.length →
      ∃ (k idx : Nat), t.depots[k]? = some idx ∧
        depotPosition t.cities idx = some (nearestDepotOf t i) ∧
        ∀ (j idx' q : Nat), t.depots[j]? = some idx' →
          depotPosition t.cities idx' = some q →
          distOf t i (nearestDepotOf t i) ≤ distOf t i q) ∧
    ((∀ row ∈ t.distMtx, ∀ d ∈ row, ∃ m : Nat, d = m) →
      ∃ m : Nat,
        (specRouteOf exactArithmetic t individual.m_Genotype.m_IntGenotype
          t.cities.length).2 = .fin m ∧
        (m ≤ 2 ^ 24 →
          (specRouteOf binary32 t individual.m_Genotype.m_IntGenotype
            t.cities.length).2 = .fin m)) ∧
    (∃ problem individual', CCVRP.create scenarioA = .ok problem ∧
      CCVRP.Evaluate binary32 problem routeA = .ok individual' ∧
      individual'.m_Evaluation
        = [.fin (distOf scenarioA 1 2 + distOf scenarioA 2 3 + distOf scenarioA 3 0
            + distOf scenarioA 0 0 + distOf scenarioA 0 1)] ∧
      nearestDepotOf scenarioA 3 = 0 ∧
      ∀ k, k < 4 →
        ((specRouteOf binary32 scenarioA [1, 2, 3, 0] k).1
            < demandOf scenarioA (positionOf [1, 2, 3, 0] ((k + 1) % 4)) ↔ k = 2)) := by
  refine ⟨?_, ?_, ?_, ?_, ?_⟩
  · obtain ⟨problem, hc, he⟩ := Evaluate_of_routeLoop
      (routeLoop_eq_spec binary32 hwf hp t.cities.length (le_refl _)) hnorm
    exact ⟨problem, _, hc, he, rfl⟩
  · intro k hk
    exact ⟨routeLoop_eq_spec binary32 hwf hp k hk,
      specRouteOf_load_range binary32 hcap hdem _ k⟩
  · intro i hi
    exact nearestDepotOf_spec hwf hi
  · intro hwhole
    obtain ⟨m, hE, hB⟩ := specRouteOf_whole hwhole individual.m_Genotype.m_IntGenotype
      t.cities.length
    exact ⟨m, by rw [hE], hB⟩
  · obtain ⟨problem, hc, he⟩ := Evaluate_of_routeLoop
      (scenarioA_routeLoop binary32 binary32_small)
      (by decide : routeA.m_NormalizedEvaluation ≠ [])
    obtain ⟨d1, d2, d3, d4, d5⟩ := scenarioA_distances
    obtain ⟨r0, r1, r2, r3, _⟩ := scenarioA_route binary32 binary32_small
    refine ⟨problem, _, hc, he, ?_, scenarioA_nearest, ?_⟩
    · rw [d1, d2, d3, d4, d5]
      norm_num
    · intro k hk
      obtain ⟨hcit, _⟩ := scenarioA_cities
      interval_cases k
      · rw [r0]; simp [demandOf, positionOf, hcit]
      · rw [r1]; simp [demandOf, positionOf, hcit]
      · rw [r2]; simp [demandOf, positionOf, hcit]
      · rw [r3]; simp [demandOf, positionOf, hcit]

/-- Witness of C2: scenario A, whose raw evaluation is `14`. -/
theorem evaluate_computes_route_cost_witness :
    (∃ problem individual', CCVRP.create scenarioA = .ok problem ∧
      CCVRP.Evaluate binary32 problem routeA = .ok individual' ∧
      individual'.m_Evaluation
        = [(specRouteOf binary32 scenarioA routeA.m_Genotype.m_IntGenotype
            scenarioA.cities.length).2]) ∧
    (specRouteOf binary32 scenarioA routeA.m_Genotype.m_IntGenotype
      scenarioA.cities.length).2 = .fin 14 :=
  ⟨(evaluate_computes_route_cost scenarioA scenarioA_wellFormed routeA (by decide)
    (by decide) (by decide) (by decide)).1,
    by rw [show specRouteOf binary32 scenarioA routeA.m_Genotype.m_IntGenotype
        scenarioA.cities.length = (0, .fin 14) from
      (scenarioA_route binary32 binary32_small).2.2.2.2]⟩

/-- C3. Repair postcondition: on a genotype of length `n` whose number of excess duplicate
occurrences equals its number of missing values of `[0,n)`, `CCVRP_OX::FixChild` returns and
leaves the integer genotype a permutation of `[0,n)`. -/
theorem fixChild_repairs (n : Nat) (child : AIndividual)
    (hn : child.m_Genotype.m_IntGenotype.length = n)
    (hk : excessDuplicates child.m_Genotype.m_IntGenotype
      = (missingGenes child.m_Genotype.m_IntGenotype).length) :
    ∃ child', FixChild child = .ok child' ∧
      IsPermutation n child'.m_Genotype.m_IntGenotype := by
  obtain ⟨g', hg', hperm⟩ :=
    FixChildGenes_of_inRange hn (hn ▸ inRange_of_excess_eq_missing hk)
  refine ⟨{ child with m_Genotype := { child.m_Genotype with m_IntGenotype := g' } },
    ?_, hperm⟩
  unfold FixChild
  rw [hg']
  rfl

/-- Witness of C3: `[0,0,1,1]` has two excess duplicates and misses `2` and `3`. -/
theorem fixChild_repairs_witness :
    excessDuplicates [0, 0, 1, 1] = (missingGenes [0, 0, 1, 1]).length ∧
    ∃ child', FixChild (intIndividual [0, 0, 1, 1]) = .ok child' ∧
      IsPermutation 4 child'.m_Genotype.m_IntGenotype :=
  ⟨by decide, fixChild_repairs 4 (intIndividual [0, 0, 1, 1]) rfl (by decide)⟩

/-- C4. Cross-assignment of the segment in `CCVRP_OX::Crossover`: for permutation parents
of length `n`, children of length `n` and cut points `a ≤ b ≤ n`, when the draw succeeds
`Crossover` returns, the first child's genes at the positions `[a,b)` are the second
parent's genes at `[a,b)` and the second child's are the first parent's. Scenario B:
`a = 1`, `b = 3`, parents `[0,1,2,3,4]` and `[4,3,2,1,0]` give a first child with segment
`[3,2]` and a second child with segment `[1,2]`, both children permutations. -/
theorem crossover_cross_assigns_segment (n : Nat) (enc : SProblemEncoding)
    (sec : SEncodingSection) (henc : enc.m_Encoding = [sec])
    (hsec : sec.m_SectionDescription.length = n) (s : Family)
    (hp1 : IsPermutation n s.firstParent.m_Genotype.m_IntGenotype)
    (hp2 : IsPermutation n s.secondParent.m_Genotype.m_IntGenotype)
    (hc1 : s.firstChild.m_Genotype.m_IntGenotype.length = n)
    (hc2 : s.secondChild.m_Genotype.m_IntGenotype.length = n)
    (p : ℚ) (draws : Nat → OXDraw) (a b : Nat) (hr : (draws 0).r < p)
    (ha : (draws 0).a = a) (hb : (draws 0).b = b) (hab : a ≤ b) (hbn : b ≤ n) (fuel : Nat) :
    (∃ s', CCVRP_OX.Crossover p draws fuel enc s = .ok s' ∧
      (∀ j, a ≤ j → j < b →
        s'.firstChild.m_Genotype.m_IntGenotype[j]?
            = s.secondParent.m_Genotype.m_IntGenotype[j]? ∧
        s'.secondChild.m_Genotype.m_IntGenotype[j]?
            = s.firstParent.m_Genotype.m_IntGenotype[j]?) ∧
      (s'.firstChild.m_Genotype.m_IntGenotype.drop a).take (b - a)
        = (s.secondParent.m_Genotype.m_IntGenotype.drop a).take (b - a) ∧
      (s'.secondChild.m_Genotype.m_IntGenotype.drop a).take (b - a)
        = (s.firstParent.m_Genotype.m_IntGenotype.drop a).take (b - a)) ∧
    (∃ s', CCVRP_OX.Crossover 1 (cutDraws 1 3) 0 (permutationEncoding 5) scenarioB = .ok s' ∧
      (s'.firstChild.m_Genotype.m_IntGenotype.drop 1).take (3 - 1) = [3, 2] ∧
      (s'.secondChild.m_Genotype.m_IntGenotype.drop 1).take (3 - 1) = [1, 2] ∧
      IsPermutation 5 s'.firstChild.m_Genotype.m_IntGenotype ∧
      IsPermutation 5 s'.secondChild.m_Genotype.m_IntGenotype) := by
  refine ⟨⟨oxResult s n a b,
    Crossover_single fuel henc hsec hp1 hp2 hc1 hc2 hr ha hb hab hbn, ?_, ?_, ?_⟩, ?_⟩
  · intro j h1 h2
    exact ⟨getElem?_oxChild_segment hp2.length_eq hbn h1 h2,
      getElem?_oxChild_segment hp1.length_eq hbn h1 h2⟩
  · exact segment_oxChild hp2.length_eq hbn
  · exact segment_oxChild hp1.length_eq hbn
  · refine ⟨oxResult scenarioB 5 1 3, ?_, by decide, by decide, by decide, by decide⟩
    exact Crossover_single (n := 5) (a := 1) (b := 3) 0 rfl (by decide)
      (by decide) (by decide) (by decide) (by decide) (by simp [cutDraws]) rfl rfl
      (by decide) (by decide)

/-- Witness of C4: scenario B. -/
theorem crossover_cross_assigns_segment_witness :
    ∃ s', CCVRP_OX.Crossover 1 (cutDraws 1 3) 0 (permutationEncoding 5) scenarioB = .ok s' ∧
      (∀ j, 1 ≤ j → j < 3 →
        s'.firstChild.m_Genotype.m_IntGenotype[j]?
            = scenarioB.secondParent.m_Genotype.m_IntGenotype[j]? ∧
        s'.secondChild.m_Genotype.m_IntGenotype[j]?
            = scenarioB.firstParent.m_Genotype.m_IntGenotype[j]?) ∧
      (s'.firstChild.m_Genotype.m_IntGenotype.drop 1).take (3 - 1)
        = (scenarioB.secondParent.m_Genotype.m_IntGenotype.drop 1).take (3 - 1) ∧
      (s'.secondChild.m_Genotype.m_IntGenotype.drop 1).take (3 - 1)
        = (scenarioB.firstParent.m_Genotype.m_IntGenotype.drop 1).take (3 - 1) :=
  (crossover_cross_assigns_segment 5 (permutationEncoding 5) _ rfl (by decide)
    scenarioB (by decide) (by decide) (by decide) (by decide) 1 (cutDraws 1 3) 1 3
    (by simp [cutDraws]) rfl rfl (by decide) (by decide) 0).1

/-- C5. `CCVRP::GetNearestDepotIdx` returns a nearest depot: on a template with a non-empty
depot list whose identifiers all occur in the city list and a table with entries below
`FLT_MAX`, for every city position `c` the function returns the city-list position `p` of
some depot, `dist[c][p] ≤ dist[c][q]` for the position `q` of every depot of the list, and
every depot earlier in the list than the returned one is strictly farther. -/
theorem nearestDepot_is_nearest (t : CCVRPTemplate) (hwf : t.WellFormed) (cityIdx : Nat)
    (hc : cityIdx < t.cities.length) :
    ∃ k idx p, t.depots[k]? = some idx ∧ depotPosition t.cities idx = some p ∧
      CCVRP.GetNearestDepotIdx t cityIdx = .ok p ∧
      ∀ (j idx' q : Nat), t.depots[j]? = some idx' → depotPosition t.cities idx' = some q →
        distOf t cityIdx p ≤ distOf t cityIdx q ∧
        (j < k → distOf t cityIdx p < distOf t cityIdx q) := by
  obtain ⟨k, idx, p, d, hk, hp, hpl, hres, hd, hall⟩ := GetNearestDepotIdx_spec hwf hc
  refine ⟨k, idx, p, hk, hp, hres, ?_⟩
  intro j idx' q hj hq
  obtain ⟨e, he, hle, hlt⟩ := hall j idx' q hj hq
  obtain ⟨q', hq', hql⟩ := depotPosition_of_known (hwf.depots_known idx' (List.getElem?_mem hj))
  rw [hq] at hq'
  cases hq'
  rw [distAt_eq hwf hc hpl] at hd
  rw [distAt_eq hwf hc hql] at he
  cases hd
  cases he
  exact ⟨hle, hlt⟩

/-- Witness of C5: with depots at positions `3`, `1`, `2` the nearest to city `0` is the
second of the list. -/
theorem nearestDepot_is_nearest_witness :
    ∃ k idx p, threeDepots.depots[k]? = some idx ∧
      depotPosition threeDepots.cities idx = some p ∧
      CCVRP.GetNearestDepotIdx threeDepots 0 = .ok p ∧
      ∀ (j idx' q : Nat), threeDepots.depots[j]? = some idx' →
        depotPosition threeDepots.cities idx' = some q →
        distOf threeDepots 0 p ≤ distOf threeDepots 0 q ∧
        (j < k → distOf threeDepots 0 p < distOf threeDepots 0 q) :=
  nearestDepot_is_nearest threeDepots threeDepots_wellFormed 0 (by decide)

/-- C6, as the code has it. `CCVRP::CCVRP` does not look at the depot list: for every
template the construction returns a problem that holds the template as given; and on a
template with a non-empty depot list (whose identifiers occur in the city list, with a
square table of entries below `FLT_MAX`) `CCVRP::GetNearestDepotIdx` returns an assigned
value, a position of the city list, for every city position. -/
theorem construction_accepts_every_template (t : CCVRPTemplate) (hwf : t.WellFormed)
    (cityIdx : Nat) (hc : cityIdx < t.cities.length) :
    (∀ t' : CCVRPTemplate, ∃ problem, CCVRP.create t' = .ok problem ∧
      problem.m_CVRPTemplate = t') ∧
    ∃ problem p, CCVRP.create t = .ok problem ∧
      CCVRP.GetNearestDepotIdx problem.m_CVRPTemplate cityIdx = .ok p ∧
      p < t.cities.length := by
  refine ⟨fun t' => ⟨_, rfl, rfl⟩, ?_⟩
  obtain ⟨hp, hpl⟩ := nearestDepot_eq hwf hc
  exact ⟨_, nearestDepotOf t cityIdx, rfl, hp, hpl⟩

/-- Witness of the amended C6: scenario A, city `3`. -/
theorem construction_accepts_every_template_witness :
    (∀ t' : CCVRPTemplate, ∃ problem, CCVRP.create t' = .ok problem ∧
      problem.m_CVRPTemplate = t') ∧
    ∃ problem p, CCVRP.create scenarioA = .ok problem ∧
      CCVRP.GetNearestDepotIdx problem.m_CVRPTemplate 3 = .ok p ∧
      p < scenarioA.cities.length :=
  construction_accepts_every_template scenarioA scenarioA_wellFormed 3 (by decide)

/-- Counterexample to C6 as stated: the template of scenario A with an empty depot list is
accepted by the constructor; `GetNearestDepotIdx` then returns its local `chosenIdx`
without any assignment, and `Evaluate` of the route `[1,2,3,0]` runs into that read at the
detour. -/
theorem empty_depot_list_accepted :
    noDepots.depots = [] ∧
    (∃ problem, CCVRP.create noDepots = .ok problem ∧ problem.m_CVRPTemplate = noDepots ∧
      CCVRP.Evaluate binary32 problem routeA = .error .uninitialized) ∧
    CCVRP.GetNearestDepotIdx noDepots 3 = .error .uninitialized :=
  ⟨rfl, ⟨_, rfl, rfl, rfl⟩, rfl⟩

/-- C7, as the code has it. When each child's float gene at every position of the section
already equals the first or the second parent's gene at that position (as for children
created as copies of the parents), then for every crossover probability and all draws
`CUniformCX::Crossover` returns and each child's float gene at every position of the section
equals the first parent's or the second parent's float gene at that position. -/
theorem uniformCrossover_no_third_value (n : Nat) (enc : SProblemEncoding)
    (sec : SEncodingSection) (henc : enc.m_Encoding = [sec])
    (hsec : sec.m_SectionDescription.length = n) (s : Family)
    (h1 : n ≤ s.firstParent.m_Genotype.m_FloatGenotype.length)
    (h2 : n ≤ s.secondParent.m_Genotype.m_FloatGenotype.length)
    (h3 : n ≤ s.firstChild.m_Genotype.m_FloatGenotype.length)
    (h4 : n ≤ s.secondChild.m_Genotype.m_FloatGenotype.length)
    (hpre : ∀ g, g < n →
      (s.firstChild.m_Genotype.m_FloatGenotype[g]? = s.firstParent.m_Genotype.m_FloatGenotype[g]?
        ∨ s.firstChild.m_Genotype.m_FloatGenotype[g]?
            = s.secondParent.m_Genotype.m_FloatGenotype[g]?) ∧
      (s.secondChild.m_Genotype.m_FloatGenotype[g]?
          = s.firstParent.m_Genotype.m_FloatGenotype[g]?
        ∨ s.secondChild.m_Genotype.m_FloatGenotype[g]?
            = s.secondParent.m_Genotype.m_FloatGenotype[g]?))
    (p : ℚ) (draws : Nat → ℚ) :
    ∃ s', CUniformCX.Crossover p draws enc s = .ok s' ∧ ∀ g, g < n →
      (s'.firstChild.m_Genotype.m_FloatGenotype[g]?
          = s.firstParent.m_Genotype.m_FloatGenotype[g]?
        ∨ s'.firstChild.m_Genotype.m_FloatGenotype[g]?
            = s.secondParent.m_Genotype.m_FloatGenotype[g]?) ∧
      (s'.secondChild.m_Genotype.m_FloatGenotype[g]?
          = s.firstParent.m_Genotype.m_FloatGenotype[g]?
        ∨ s'.secondChild.m_Genotype.m_FloatGenotype[g]?
            = s.secondParent.m_Genotype.m_FloatGenotype[g]?) := by
  have henc0 : enc.m_Encoding[0]? = some sec := by rw [henc]; rfl
  by_cases hr : draws 0 < p
  · refine ⟨_, uniformCrossover_of_draw henc0 hsec h1 h2 h3 h4 hr, ?_⟩
    intro g hg
    have e1 := getElem?_uxPartial draws 1 s.secondParent.m_Genotype.m_FloatGenotype
      s.firstChild.m_Genotype.m_FloatGenotype n g (by omega) (by omega)
    have e2 := getElem?_uxPartial draws 2 s.firstParent.m_Genotype.m_FloatGenotype
      s.secondChild.m_Genotype.m_FloatGenotype n g (by omega) (by omega)
    constructor
    · show (uxPartial draws 1 _ _ n)[g]? = _ ∨ (uxPartial draws 1 _ _ n)[g]? = _
      rw [e1]
      split_ifs
      · exact Or.inr rfl
      · exact (hpre g hg).1
    · show (uxPartial draws 2 _ _ n)[g]? = _ ∨ (uxPartial draws 2 _ _ n)[g]? = _
      rw [e2]
      split_ifs
      · exact Or.inl rfl
      · exact (hpre g hg).2
  · exact ⟨s, uniformCrossover_of_no_draw henc0 (not_lt.1 hr), hpre⟩

/-- Witness of the amended C7: children that are copies of the parents `[1,2]`, `[3,4]`. -/
theorem uniformCrossover_no_third_value_witness :
    ∃ s', CUniformCX.Crossover (1 / 2) sampleDraws (floatEncoding 2) copies = .ok s' ∧
      ∀ g, g < 2 →
      (s'.firstChild.m_Genotype.m_FloatGenotype[g]?
          = copies.firstParent.m_Genotype.m_FloatGenotype[g]?
        ∨ s'.firstChild.m_Genotype.m_FloatGenotype[g]?
            = copies.secondParent.m_Genotype.m_FloatGenotype[g]?) ∧
      (s'.secondChild.m_Genotype.m_FloatGenotype[g]?
          = copies.firstParent.m_Genotype.m_FloatGenotype[g]?
        ∨ s'.secondChild.m_Genotype.m_FloatGenotype[g]?
            = copies.secondParent.m_Genotype.m_FloatGenotype[g]?) :=
  uniformCrossover_no_third_value 2 (floatEncoding 2) _ rfl (by decide) copies
    (by decide) (by decide) (by decide) (by decide)
    (fun _ _ => ⟨Or.inl rfl, Or.inr rfl⟩) (1 / 2) sampleDraws

/-- Counterexample to C7 as stated: with parents `[1,2]` and `[3,4]`, children `[5,6]` and
`[7,8]` and an outer draw that fails, `CUniformCX::Crossover` leaves the children as they
were, so the first child's gene `0` is `5`, neither `1` nor `3`. -/
theorem uniformCrossover_third_value :
    CUniformCX.Crossover (1 / 2) (fun _ => 1) (floatEncoding 2) strangers = .ok strangers ∧
    strangers.firstChild.m_Genotype.m_FloatGenotype[0]? = some 5 ∧
    strangers.firstParent.m_Genotype.m_FloatGenotype[0]? = some 1 ∧
    strangers.secondParent.m_Genotype.m_FloatGenotype[0]? = some 3 ∧
    ¬ (∀ (enc : SProblemEncoding) (sec : SEncodingSection) (s s' : Family) (p : ℚ)
        (draws : Nat → ℚ), enc.m_Encoding = [sec] →
        CUniformCX.Crossover p draws enc s = .ok s' →
        ∀ g, g < sec.m_SectionDescription.length →
          (s'.firstChild.m_Genotype.m_FloatGenotype[g]?
              = s.firstParent.m_Genotype.m_FloatGenotype[g]?
            ∨ s'.firstChild.m_Genotype.m_FloatGenotype[g]?
                = s.secondParent.m_Genotype.m_FloatGenotype[g]?) ∧
          (s'.secondChild.m_Genotype.m_FloatGenotype[g]?
              = s.firstParent.m_Genotype.m_FloatGenotype[g]?
            ∨ s'.secondChild.m_Genotype.m_FloatGenotype[g]?
                = s.secondParent.m_Genotype.m_FloatGenotype[g]?)) := by
  have hrun : CUniformCX.Crossover (1 / 2) (fun _ => 1) (floatEncoding 2) strangers
      = .ok strangers :=
    uniformCrossover_of_no_draw rfl (by norm_num)
  refine ⟨hrun, rfl, rfl, rfl, ?_⟩
  intro h
  have h0 := (h (floatEncoding 2) _ strangers strangers (1 / 2) (fun _ => 1) rfl hrun 0
    (by decide)).1
  have e1 : strangers.firstChild.m_Genotype.m_FloatGenotype[0]? = some 5 := rfl
  have e2 : strangers.firstParent.m_Genotype.m_FloatGenotype[0]? = some 1 := rfl
  have e3 : strangers.secondParent.m_Genotype.m_FloatGenotype[0]? = some 3 := rfl
  rw [e1, e2, e3] at h0
  rcases h0 with h0 | h0
  · have := Option.some.inj h0
    norm_num at this
  · have := Option.some.inj h0
    norm_num at this

/-- C8. `CUniformCX::Crossover` as a function of its draws `r0, r1, r2, ...` on a section of
size `n`: if `r0 ≥ crossoverProbability` the whole family is returned as it was; if
`r0 < crossoverProbability` the parents are returned as they were and for every position
`g < n` the first child's gene `g` is the second parent's gene `g` when `r(2g+1) < 0.5` and
its previous gene otherwise, and the second child's gene `g` is the first parent's gene `g`
when `r(2g+2) < 0.5` and its previous gene otherwise. -/
theorem uniformCrossover_by_draws (n : Nat) (enc : SProblemEncoding)
    (sec : SEncodingSection) (henc : enc.m_Encoding[0]? = some sec)
    (hsec : sec.m_SectionDescription.length = n) (s : Family)
    (h1 : n ≤ s.firstParent.m_Genotype.m_FloatGenotype.length)
    (h2 : n ≤ s.secondParent.m_Genotype.m_FloatGenotype.length)
    (h3 : n ≤ s.firstChild.m_Genotype.m_FloatGenotype.length)
    (h4 : n ≤ s.secondChild.m_Genotype.m_FloatGenotype.length)
    (p : ℚ) (draws : Nat → ℚ) :
    (p ≤ draws 0 → CUniformCX.Crossover p draws enc s = .ok s) ∧
    (draws 0 < p → ∃ s', CUniformCX.Crossover p draws enc s = .ok s' ∧
      s'.firstParent = s.firstParent ∧ s'.secondParent = s.secondParent ∧
      ∀ g, g < n →
        s'.firstChild.m_Genotype.m_FloatGenotype[g]?
          = (if draws (2 * g + 1) < 1 / 2 then s.secondParent.m_Genotype.m_FloatGenotype[g]?
             else s.firstChild.m_Genotype.m_FloatGenotype[g]?) ∧
        s'.secondChild.m_Genotype.m_FloatGenotype[g]?
          = (if draws (2 * g + 2) < 1 / 2 then s.firstParent.m_Genotype.m_FloatGenotype[g]?
             else s.secondChild.m_Genotype.m_FloatGenotype[g]?)) := by
  refine ⟨fun hr => uniformCrossover_of_no_draw henc hr, fun hr => ?_⟩
  refine ⟨_, uniformCrossover_of_draw henc hsec h1 h2 h3 h4 hr, rfl, rfl, ?_⟩
  intro g hg
  have e1 := getElem?_uxPartial draws 1 s.secondParent.m_Genotype.m_FloatGenotype
    s.firstChild.m_Genotype.m_FloatGenotype n g (by omega) (by omega)
  have e2 := getElem?_uxPartial draws 2 s.firstParent.m_Genotype.m_FloatGenotype
    s.secondChild.m_Genotype.m_FloatGenotype n g (by omega) (by omega)
  simp only [hg, true_and] at e1 e2
  exact ⟨e1, e2⟩

/-- Witness of C8: parents `[1,2]`, `[3,4]`, children `[5,6]`, `[7,8]`, probability `0.5`,
draws `0, 0, 1, 1, 0, ...`: the outer draw succeeds, position `0` of the first child is
taken from the second parent and position `0` of the second child is kept; position `1` of
the first child is kept and position `1` of the second child is taken. -/
theorem uniformCrossover_by_draws_witness :
    ∃ s', CUniformCX.Crossover (1 / 2) sampleDraws (floatEncoding 2) strangers = .ok s' ∧
      s'.firstParent = strangers.firstParent ∧ s'.secondParent = strangers.secondParent ∧
      ∀ g, g < 2 →
        s'.firstChild.m_Genotype.m_FloatGenotype[g]?
          = (if sampleDraws (2 * g + 1) < 1 / 2
             then strangers.secondParent.m_Genotype.m_FloatGenotype[g]?
             else strangers.firstChild.m_Genotype.m_FloatGenotype[g]?) ∧
        s'.secondChild.m_Genotype.m_FloatGenotype[g]?
          = (if sampleDraws (2 * g + 2) < 1 / 2
             then strangers.firstParent.m_Genotype.m_FloatGenotype[g]?
             else strangers.secondChild.m_Genotype.m_FloatGenotype[g]?) :=
  (uniformCrossover_by_draws 2 (floatEncoding 2) _ rfl (by decide) strangers
    (by decide) (by decide) (by decide) (by decide) (1 / 2) sampleDraws).2
    (by norm_num [sampleDraws])

/-- C9. Normalization boundary of `CCVRP::Evaluate`: with `max ≠ min`, over exact
arithmetic, `Evaluate` of an individual whose route loop returns the distance `raw` returns,
writes `[raw]` as raw evaluation, and the normalized evaluation is `0` when `raw` equals the
configured minimum and `1` when it equals the configured maximum. -/
theorem normalization_boundary (t : CCVRPTemplate) (individual : AIndividual) (s : RouteState)
    (hs : routeLoop exactArithmetic t individual.m_Genotype.m_IntGenotype t.cities.length
      = .ok s)
    (hnorm : individual.m_NormalizedEvaluation ≠ [])
    (hne : t.maxDistance ≠ t.minDistance) :
    ∃ problem individual', CCVRP.create t = .ok problem ∧
      CCVRP.Evaluate exactArithmetic problem individual = .ok individual' ∧
      individual'.m_Evaluation = [s.distance] ∧
      (s.distance = .fin t.minDistance →
        individual'.m_NormalizedEvaluation[0]? = some (.fin 0)) ∧
      (s.distance = .fin t.maxDistance →
        individual'.m_NormalizedEvaluation[0]? = some (.fin 1)) := by
  obtain ⟨problem, hc, he⟩ := Evaluate_of_routeLoop hs hnorm
  have hlen : 0 < individual.m_NormalizedEvaluation.length := List.length_pos.2 hnorm
  refine ⟨problem, _, hc, he, rfl, ?_, ?_⟩
  · intro hmin
    show (individual.m_NormalizedEvaluation.set 0 _)[0]? = _
    rw [List.getElem?_set_self hlen, hmin, normalize_min hne]
  · intro hmax
    show (individual.m_NormalizedEvaluation.set 0 _)[0]? = _
    rw [List.getElem?_set_self hlen, hmax, normalize_max hne]

/-- Witness of C9: scenario A, whose route distance `14` is the configured minimum and whose
configured maximum is `28`. -/
theorem normalization_boundary_witness :
    ∃ problem individual', CCVRP.create scenarioA = .ok problem ∧
      CCVRP.Evaluate exactArithmetic problem routeA = .ok individual' ∧
      individual'.m_Evaluation = [.fin 14] ∧
      individual'.m_NormalizedEvaluation[0]? = some (.fin 0) := by
  obtain ⟨problem, individual', hc, he, hraw, hmin, _⟩ :=
    normalization_boundary scenarioA routeA { current_load := 0, distance := .fin 14 }
      (scenarioA_routeLoop exactArithmetic (fun _ _ => rfl)) (by decide)
      (by norm_num [scenarioA])
  exact ⟨problem, individual', hc, he, hraw, hmin rfl⟩

/-- C10. Repair is the identity on valid input: on an integer genotype that is already a
permutation of `[0,n)`, `CCVRP_OX::FixChild` returns the individual unchanged, so that
`FixChild` applied twice equals `FixChild` applied once. -/
theorem fixChild_identity_on_permutation (n : Nat) (child : AIndividual)
    (hp : IsPermutation n child.m_Genotype.m_IntGenotype) :
    FixChild child = .ok child ∧ (FixChild child >>= FixChild) = FixChild child := by
  have h := FixChild_of_nodup hp.nodup
  refine ⟨h, ?_⟩
  rw [h]
  exact h

/-- Witness of C10: the permutation `[2,0,3,1]` of `[0,4)`. -/
theorem fixChild_identity_on_permutation_witness :
    IsPermutation 4 [2, 0, 3, 1] ∧
    FixChild (intIndividual [2, 0, 3, 1]) = .ok (intIndividual [2, 0, 3, 1]) ∧
    (FixChild (intIndividual [2, 0, 3, 1]) >>= FixChild)
      = FixChild (intIndividual [2, 0, 3, 1]) :=
  ⟨by decide, fixChild_identity_on_permutation 4 (intIndividual [2, 0, 3, 1]) (by decide)⟩

/-- C11. `CCVRP_OX::Crossover` leaves the children unchanged when the probability draw
fails: for every encoding, parents and children, the processing of a section whose draw is
not below the crossover probability returns the family as it was (so both children's
genotypes are what they were), a run in which the draw of every section fails returns the
family as it was, and whatever the draws a run that returns gives back both parents as
they were. -/
theorem crossover_frame (p : ℚ) (draws : Nat → OXDraw) (fuel : Nat) (enc : SProblemEncoding)
    (s s' : Family) (hrun : CCVRP_OX.Crossover p draws fuel enc s = .ok s') :
    s'.firstParent = s.firstParent ∧ s'.secondParent = s.secondParent ∧
    (∀ (sec : SEncodingSection) (d : OXDraw) (s0 : Family), ¬ d.r < p →
      crossoverStep p fuel s0 (sec, d) = .ok s0) ∧
    ((∀ k, k < enc.m_Encoding.length → ¬ (draws k).r < p) → s' = s) := by
  obtain ⟨h1, h2⟩ := foldlM_crossoverStep_parents _ hrun
  refine ⟨h1, h2, fun sec d s0 hd => crossoverStep_of_no_draw fuel s0 hd, ?_⟩
  intro hall
  have hfix : CCVRP_OX.Crossover p draws fuel enc s = .ok s := by
    unfold CCVRP_OX.Crossover
    apply foldlM_fixed
    intro sd hsd
    apply crossoverStep_of_no_draw
    obtain ⟨d', hd', hk⟩ := List.mem_map.1 (List.of_mem_zip hsd).2
    rw [← hk]
    exact hall d' (List.mem_range.1 hd')
  rw [hfix] at hrun
  exact (Except.ok.inj hrun).symm

/-- Witness of C11: scenario B against the probability `1/2` with the draw `3/4`, which
fails: the draw of every section is not below the probability, the processing of the section
returns the family as it was, the run returns it with both children `[0,1,2,3,4]` and
`[4,3,2,1,0]` as they were, and the parents come back as given. -/
theorem crossover_frame_witness :
    (∀ k, k < (permutationEncoding 5).m_Encoding.length → ¬ (failingDraws k).r < 1 / 2) ∧
    CCVRP_OX.Crossover (1 / 2) failingDraws 5 (permutationEncoding 5) scenarioB
      = .ok scenarioB ∧
    (∀ sec ∈ (permutationEncoding 5).m_Encoding,
      crossoverStep (1 / 2) 5 scenarioB (sec, failingDraws 0) = .ok scenarioB) ∧
    scenarioB.firstChild.m_Genotype.m_IntGenotype = [0, 1, 2, 3, 4] ∧
    scenarioB.secondChild.m_Genotype.m_IntGenotype = [4, 3, 2, 1, 0] := by
  have hfail : ∀ k, ¬ (failingDraws k).r < 1 / 2 := by
    intro k
    norm_num [failingDraws]
  have hrun : CCVRP_OX.Crossover (1 / 2) failingDraws 5 (permutationEncoding 5) scenarioB
      = .ok scenarioB := by
    unfold CCVRP_OX.Crossover
    apply foldlM_fixed
    intro sd hsd
    apply crossoverStep_of_no_draw
    obtain ⟨k, _, hk⟩ := List.mem_map.1 (List.of_mem_zip hsd).2
    rw [← hk]
    exact hfail k
  obtain ⟨_, _, hstep, _⟩ :=
    crossover_frame (1 / 2) failingDraws 5 (permutationEncoding 5) scenarioB scenarioB hrun
  exact ⟨fun k _ => hfail k, hrun,
    fun sec _ => hstep sec (failingDraws 0) scenarioB (hfail 0), rfl, rfl⟩

/-- C12, as the code has it. `CCVRP_OX::FixChild` has no error to report: on every genotype
of length `n` it returns normally with a genotype of length `n`; a value outside `[0,n)` is
never overwritten, so on a genotype that holds such a value the returned genotype holds it
at the same position and is not a permutation of `[0,n)`. -/
theorem fixChild_keeps_value_loss (n : Nat) (child : AIndividual) (i : Nat) (x : Int)
    (hn : child.m_Genotype.m_IntGenotype.length = n)
    (hx : child.m_Genotype.m_IntGenotype[i]? = some x) (hout : ¬ (0 ≤ x ∧ x < n)) :
    ∃ child', FixChild child = .ok child' ∧
      child'.m_Genotype.m_IntGenotype.length = n ∧
      child'.m_Genotype.m_IntGenotype[i]? = some x ∧
      ¬ IsPermutation n child'.m_Genotype.m_IntGenotype := by
  obtain ⟨s, _, hs, hinv⟩ := FixChildGenes_total child.m_Genotype.m_IntGenotype
  rw [hn] at hinv
  have hkept : s.childGenes[i]? = some x :=
    hinv.kept i x hx (fun h => hout (mem_allGenes.1 h))
  refine ⟨withIntGenotype child s.childGenes, FixChild_of_genes hs, hinv.len, hkept, ?_⟩
  intro hperm
  exact hout (hperm.mem_iff.1 (List.getElem?_mem hkept))

/-- Witness of the amended C12: `[5,5,1,1]` holds `5`, outside `[0,4)`, at position `0`. -/
theorem fixChild_keeps_value_loss_witness :
    ∃ child', FixChild (intIndividual [5, 5, 1, 1]) = .ok child' ∧
      child'.m_Genotype.m_IntGenotype.length = 4 ∧
      child'.m_Genotype.m_IntGenotype[0]? = some 5 ∧
      ¬ IsPermutation 4 child'.m_Genotype.m_IntGenotype :=
  fixChild_keeps_value_loss 4 (intIndividual [5, 5, 1, 1]) 0 5 rfl rfl (by decide)

/-- Counterexample to C12 as stated: `[5,5,1,1]` of length `4` has lost the values `0`, `2`
and `3` and holds `5`, outside `[0,4)`; `FixChild` returns normally, with `[5,5,0,1]`,
which is not a permutation of `[0,4)`. -/
theorem fixChild_masks_value_loss :
    FixChild (intIndividual [5, 5, 1, 1]) = .ok (intIndividual [5, 5, 0, 1]) ∧
    (5 : Int) ∈ [5, 5, 1, 1] ∧ ¬ ((0 : Int) ≤ 5 ∧ (5 : Int) < 4) ∧
    missingGenes [5, 5, 1, 1] = [0, 2, 3] ∧
    ¬ IsPermutation 4 [5, 5, 0, 1] := by
  decide

/-- C13, as the code has it. `CCVRP::CreateProblemEncoding` builds, for every instance with
`cityCount ≥ 1` cities (a `size_t`), an encoding with objective count `1` and exactly one
section, of kind PERMUTATION, holding `cityCount` descriptors each with the lower bound `0`
and, as upper bound, the binary32 value nearest to `cityCount - 1`, which is
`cityCount - 1` itself as long as `cityCount ≤ 2^24 + 1`, and whose additional problem data
is the template's distance table; the constructor stores that encoding. -/
theorem createProblemEncoding_shape (t : CCVRPTemplate) (h1 : 1 ≤ t.cities.length)
    (h64 : t.cities.length < 2 ^ 64) :
    (CCVRP.CreateProblemEncoding t).m_objectivesNumber = 1 ∧
    (∃ sec, (CCVRP.CreateProblemEncoding t).m_Encoding = [sec] ∧
      sec.m_SectionType = EEncodingType.PERMUTATION ∧
      sec.m_SectionDescription.length = t.cities.length ∧
      ∀ d ∈ sec.m_SectionDescription,
        d.m_MinValue = 0 ∧
        binary32 ((t.cities.length : ℚ) - 1) = .fin d.m_MaxValue ∧
        (t.cities.length ≤ 2 ^ 24 + 1 → d.m_MaxValue = (t.cities.length : ℚ) - 1)) ∧
    (CCVRP.CreateProblemEncoding t).m_additionalProblemData = t.distMtx ∧
    ∃ problem, CCVRP.create t = .ok problem ∧
      problem.m_ProblemEncoding = CCVRP.CreateProblemEncoding t := by
  refine ⟨rfl, ⟨_, rfl, rfl, ?_, ?_⟩, rfl, _, rfl, rfl⟩
  · simp [CCVRPTemplate.GetCitiesSize]
  · intro d hd
    have hd' := List.eq_of_mem_replicate hd
    subst hd'
    obtain ⟨m, hm⟩ : ∃ m : Nat, t.cities.length = m + 1 := ⟨t.cities.length - 1, by omega⟩
    have hmod : ((t.GetCitiesSize : Int) - 1) % 2 ^ 64 = (m : Int) := by
      unfold CCVRPTemplate.GetCitiesSize
      rw [hm]
      push_cast
      rw [add_sub_cancel_right]
      apply Int.emod_eq_of_lt
      · omega
      · have : ((m + 1 : Nat) : Int) < 2 ^ 64 := by
          rw [← hm]
          exact_mod_cast h64
        omega
    have hmax : nearest32 ((((t.GetCitiesSize : Int) - 1) % 2 ^ 64 : Int) : ℚ)
        = nearest32 (m : ℚ) := by
      rw [hmod]
      norm_cast
    have hq : (t.cities.length : ℚ) - 1 = (m : ℚ) := by
      rw [hm]
      push_cast
      ring
    refine ⟨rfl, ?_, ?_⟩
    · show _ = F32.fin (nearest32 ((((t.GetCitiesSize : Int) - 1) % 2 ^ 64 : Int) : ℚ))
      rw [hmax, hq]
      exact binary32_natCast_finite (by omega)
    · intro hsmall
      show nearest32 ((((t.GetCitiesSize : Int) - 1) % 2 ^ 64 : Int) : ℚ) = _
      rw [hmax, hq]
      exact nearest32_natCast (by omega)

/-- Witness of the amended C13: scenario A, four cities, upper bound `3`. -/
theorem createProblemEncoding_shape_witness :
    (CCVRP.CreateProblemEncoding scenarioA).m_objectivesNumber = 1 ∧
    (∃ sec, (CCVRP.CreateProblemEncoding scenarioA).m_Encoding = [sec] ∧
      sec.m_SectionType = EEncodingType.PERMUTATION ∧
      sec.m_SectionDescription.length = scenarioA.cities.length ∧
      ∀ d ∈ sec.m_SectionDescription,
        d.m_MinValue = 0 ∧
        binary32 ((scenarioA.cities.length : ℚ) - 1) = .fin d.m_MaxValue ∧
        (scenarioA.cities.length ≤ 2 ^ 24 + 1 →
          d.m_MaxValue = (scenarioA.cities.length : ℚ) - 1)) ∧
    (CCVRP.CreateProblemEncoding scenarioA).m_additionalProblemData = scenarioA.distMtx ∧
    ∃ problem, CCVRP.create scenarioA = .ok problem ∧
      problem.m_ProblemEncoding = CCVRP.CreateProblemEncoding scenarioA :=
  createProblemEncoding_shape scenarioA (by decide) (by decide)

/-- Counterexample to C13 as stated: on a template of `2^24 + 2 = 16777218` cities the upper
bound of every descriptor is `(float) 16777217 = 16777216`, not `cityCount - 1`. -/
theorem createProblemEncoding_rounds_bound :
    manyCities.cities.length = 16777218 ∧
    ∃ sec, (CCVRP.CreateProblemEncoding manyCities).m_Encoding = [sec] ∧
      sec.m_SectionDescription.length = manyCities.cities.length ∧
      ∀ d ∈ sec.m_SectionDescription,
        d.m_MaxValue = 16777216 ∧ d.m_MaxValue ≠ (manyCities.cities.length : ℚ) - 1 := by
  have hlen : manyCities.cities.length = 16777218 := List.length_replicate _ _
  exact ⟨hlen, createProblemEncoding_at_tie manyCities hlen⟩

/-- C14, as the code has it. Degenerate normalization bounds are not rejected at
construction: `CCVRP::CCVRP` has no check, and on a template whose maximum distance equals
its minimum distance it returns a problem that holds both bounds as given; the divisor
`max - min` of `CCVRP::Evaluate` is then zero, and the normalized evaluation that `Evaluate`
writes is an infinity or a NaN. -/
theorem construction_keeps_bounds (t : CCVRPTemplate) (individual : AIndividual)
    (s : RouteState)
    (hs : routeLoop binary32 t individual.m_Genotype.m_IntGenotype t.cities.length = .ok s)
    (hnorm : individual.m_NormalizedEvaluation ≠ [])
    (heq : t.maxDistance = t.minDistance) :
    (∃ problem, CCVRP.create t = .ok problem ∧
      problem.m_MaxObjectiveValues = [t.maxDistance] ∧
      problem.m_MinObjectiveValues = [t.minDistance]) ∧
    F32.sub binary32 (.fin t.maxDistance) (.fin t.minDistance) = .fin 0 ∧
    ∃ problem individual' v, CCVRP.create t = .ok problem ∧
      CCVRP.Evaluate binary32 problem individual = .ok individual' ∧
      individual'.m_NormalizedEvaluation[0]? = some v ∧ v.isFinite = false := by
  obtain ⟨hdiv, hinf⟩ := normalize_degenerate s.distance t.minDistance
  refine ⟨⟨_, rfl, rfl, rfl⟩, ?_, ?_⟩
  · rw [heq]
    exact hdiv
  · obtain ⟨problem, hc, he⟩ := Evaluate_of_routeLoop hs hnorm
    have hlen : 0 < individual.m_NormalizedEvaluation.length := List.length_pos.2 hnorm
    refine ⟨problem, _, _, hc, he, ?_, hinf⟩
    show (individual.m_NormalizedEvaluation.set 0 _)[0]? = _
    rw [List.getElem?_set_self hlen, heq]

/-- Witness of the amended C14: scenario A with both bounds `14`, the route `[1,2,3,0]`. -/
theorem construction_keeps_bounds_witness :
    degenerateBounds.maxDistance = degenerateBounds.minDistance ∧
    (∃ problem, CCVRP.create degenerateBounds = .ok problem ∧
      problem.m_MaxObjectiveValues = [degenerateBounds.maxDistance] ∧
      problem.m_MinObjectiveValues = [degenerateBounds.minDistance]) ∧
    F32.sub binary32 (.fin degenerateBounds.maxDistance) (.fin degenerateBounds.minDistance)
      = .fin 0 ∧
    ∃ problem individual' v, CCVRP.create degenerateBounds = .ok problem ∧
      CCVRP.Evaluate binary32 problem routeA = .ok individual' ∧
      individual'.m_NormalizedEvaluation[0]? = some v ∧ v.isFinite = false :=
  ⟨rfl, construction_keeps_bounds degenerateBounds routeA
    { current_load := 0, distance := .fin 14 } degenerateBounds_routeLoop (by decide) rfl⟩

/-- Counterexample to C14 as stated: the template of scenario A with maximum and minimum
both `14` is accepted by the constructor, and `Evaluate` then divides by `max - min = 0`:
the raw evaluation of the route `[1,2,3,0]` is `14`, and the normalized evaluation it
writes, `0 / 0`, is a NaN. -/
theorem degenerate_bounds_accepted :
    degenerateBounds.maxDistance = degenerateBounds.minDistance ∧
    ∃ problem individual', CCVRP.create degenerateBounds = .ok problem ∧
      problem.m_MaxObjectiveValues = problem.m_MinObjectiveValues ∧
      CCVRP.Evaluate binary32 problem routeA = .ok individual' ∧
      individual'.m_Evaluation = [.fin 14] ∧
      individual'.m_NormalizedEvaluation = [.nan] := by
  obtain ⟨problem, hc, he⟩ := Evaluate_of_routeLoop degenerateBounds_routeLoop
    (by decide : routeA.m_NormalizedEvaluation ≠ [])
  have hz : binary32 0 = .fin 0 := by simpa using binary32_natCast (n := 0) (by norm_num)
  have hnan : normalize binary32 (.fin 14) degenerateBounds.minDistance
      degenerateBounds.maxDistance = .nan := by
    show normalize binary32 (.fin 14) 14 14 = .nan
    simp [normalize, F32.sub, F32.neg, F32.add, F32.div, hz]
  refine ⟨rfl, problem, _, hc, ?_, he, rfl, ?_⟩
  · cases hc
    rfl
  · show routeA.m_NormalizedEvaluation.set 0
        (normalize binary32 (.fin 14) degenerateBounds.minDistance
          degenerateBounds.maxDistance) = [.nan]
    rw [hnan]
    rfl

/-- C15. Pairing rule of `CCVRP_OX::FixChild`: on a genotype `g` of length `n` with all
values in `[0,n)`, `FixChild` returns the genotype of the pairing rule: the missing values
are in ascending order; a position whose value occurs again further right is overwritten,
the `j`-th such position (in ascending position order, from `0`) with the `j`-th missing
value; a position whose value does not occur further right, in particular one whose value
occurs once, keeps its value, so that a value keeps only its last occurrence. Witness:
`[0,0,1,1]` becomes `[2,0,3,1]`. -/
theorem fixChild_pairing_rule (n : Nat) (child : AIndividual) (g : List Int)
    (hg : child.m_Genotype.m_IntGenotype = g) (hn : g.length = n)
    (hr : ∀ x ∈ g, 0 ≤ x ∧ x < n) :
    (∃ child', FixChild child = .ok child' ∧
      child'.m_Genotype.m_IntGenotype = pairedGenotype g ∧
      child'.m_Genotype.m_IntGenotype.length = n ∧
      (missingGenes g).Pairwise (· < ·) ∧
      (∀ (i : Nat) (hi : i < g.length), g[i] ∈ g.drop (i + 1) →
        ∃ m, (missingGenes g)[overwrittenBefore g i]? = some m ∧
          child'.m_Genotype.m_IntGenotype[i]? = some m ∧ m ∉ g) ∧
      (∀ (i : Nat) (hi : i < g.length), g[i] ∉ g.drop (i + 1) →
        child'.m_Genotype.m_IntGenotype[i]? = some g[i]) ∧
      (∀ (i : Nat) (hi : i < g.length), g.count g[i] = 1 →
        child'.m_Genotype.m_IntGenotype[i]? = some g[i])) ∧
    FixChild (intIndividual [0, 0, 1, 1]) = .ok (intIndividual [2, 0, 3, 1]) := by
  subst hg
  have hr' : ∀ x ∈ child.m_Genotype.m_IntGenotype,
      x ∈ allGenes child.m_Genotype.m_IntGenotype.length := by
    intro x hx
    rw [hn]
    exact mem_allGenes.2 (hr x hx)
  obtain ⟨hfix, hbnd⟩ := FixChildGenes_eq_paired hr'
  have hkeep : ∀ (i : Nat) (hi : i < child.m_Genotype.m_IntGenotype.length),
      child.m_Genotype.m_IntGenotype[i] ∉ child.m_Genotype.m_IntGenotype.drop (i + 1) →
      (pairedGenotype child.m_Genotype.m_IntGenotype)[i]?
        = some child.m_Genotype.m_IntGenotype[i] := by
    intro i hi hnot
    rw [getElem?_pairedGenotype _ hi]
    unfold pairedGene
    rw [if_neg (fun h => hnot ((repeatsLater_iff hi).1 h)), List.getD_eq_getElem _ _ hi]
  refine ⟨⟨_, FixChild_of_genes hfix, rfl, ?_, missingGenes_pairwise _, ?_, hkeep, ?_⟩,
    by decide⟩
  · show (pairedGenotype child.m_Genotype.m_IntGenotype).length = n
    rw [← hn]
    exact length_pairedUpTo _ _
  · intro i hi hmem
    have hrep := (repeatsLater_iff hi).2 hmem
    have hlt := hbnd i hi hrep
    refine ⟨(missingGenes child.m_Genotype.m_IntGenotype)[
      overwrittenBefore child.m_Genotype.m_IntGenotype i], List.getElem?_eq_getElem hlt, ?_, ?_⟩
    · show (pairedGenotype child.m_Genotype.m_IntGenotype)[i]? = _
      rw [getElem?_pairedGenotype _ hi]
      unfold pairedGene
      rw [if_pos hrep, List.getD_eq_getElem _ _ hlt]
    · have hm := List.getElem_mem (l := missingGenes child.m_Genotype.m_IntGenotype) hlt
      exact List.count_eq_zero.1 (mem_absentGenes.1 hm).2
  · intro i hi hone
    apply hkeep i hi
    intro hmem
    have := two_le_count_of_mem_drop hi hmem
    omega

/-- Witness of C15: `[0,0,1,1]`, genes in `[0,4)`. -/
theorem fixChild_pairing_rule_witness :
    ∃ child', FixChild (intIndividual [0, 0, 1, 1]) = .ok child' ∧
      child'.m_Genotype.m_IntGenotype = pairedGenotype [0, 0, 1, 1] ∧
      pairedGenotype [0, 0, 1, 1] = [2, 0, 3, 1] := by
  obtain ⟨⟨child', h1, h2, _⟩, _⟩ :=
    fixChild_pairing_rule 4 (intIndividual [0, 0, 1, 1]) [0, 0, 1, 1] rfl rfl (by decide)
  exact ⟨child', h1, h2, by decide⟩

/-- C16. Closed form of the fill step of `CCVRP_OX::Crossover`: for permutation parents
`P1`, `P2` of length `n`, children of length `n` and cut points `a ≤ b ≤ n`, when the draw
succeeds `Crossover` returns; the first child's genes at the positions `0..a-1` followed by
`b..n-1` are `P2[b..n)` followed by `P2[0..a)`, the second child's are `P1[b..n)` followed
by `P1[0..a)`; the first child is a rearrangement of the second parent and the second child
of the first parent; a run that differs only in the first parent gives the same first
child, and a run that differs only in the second parent the same second child. Witness:
`a = 1`, `b = 3`, `P1 = [0,1,2,3,4]`, `P2 = [4,3,2,1,0]` give the children `[1,3,2,0,4]`
and `[3,1,2,4,0]`. -/
theorem crossover_fill_closed_form (n : Nat) (enc : SProblemEncoding)
    (sec : SEncodingSection) (henc : enc.m_Encoding = [sec])
    (hsec : sec.m_SectionDescription.length = n) (s : Family)
    (hp1 : IsPermutation n s.firstParent.m_Genotype.m_IntGenotype)
    (hp2 : IsPermutation n s.secondParent.m_Genotype.m_IntGenotype)
    (hc1 : s.firstChild.m_Genotype.m_IntGenotype.length = n)
    (hc2 : s.secondChild.m_Genotype.m_IntGenotype.length = n)
    (p : ℚ) (draws : Nat → OXDraw) (a b : Nat) (hr : (draws 0).r < p)
    (ha : (draws 0).a = a) (hb : (draws 0).b = b) (hab : a ≤ b) (hbn : b ≤ n) (fuel : Nat) :
    (∃ s', CCVRP_OX.Crossover p draws fuel enc s = .ok s' ∧
      s'.firstChild.m_Genotype.m_IntGenotype.take a
          ++ s'.firstChild.m_Genotype.m_IntGenotype.drop b
        = s.secondParent.m_Genotype.m_IntGenotype.drop b
          ++ s.secondParent.m_Genotype.m_IntGenotype.take a ∧
      s'.secondChild.m_Genotype.m_IntGenotype.take a
          ++ s'.secondChild.m_Genotype.m_IntGenotype.drop b
        = s.firstParent.m_Genotype.m_IntGenotype.drop b
          ++ s.firstParent.m_Genotype.m_IntGenotype.take a ∧
      List.Perm s'.firstChild.m_Genotype.m_IntGenotype
        s.secondParent.m_Genotype.m_IntGenotype ∧
      List.Perm s'.secondChild.m_Genotype.m_IntGenotype
        s.firstParent.m_Genotype.m_IntGenotype ∧
      (∀ other : AIndividual, IsPermutation n other.m_Genotype.m_IntGenotype →
        ∃ s'', CCVRP_OX.Crossover p draws fuel enc { s with firstParent := other } = .ok s'' ∧
          s''.firstChild = s'.firstChild) ∧
      (∀ other : AIndividual, IsPermutation n other.m_Genotype.m_IntGenotype →
        ∃ s'', CCVRP_OX.Crossover p draws fuel enc { s with secondParent := other } = .ok s'' ∧
          s''.secondChild = s'.secondChild)) ∧
    (∃ s', CCVRP_OX.Crossover 1 (cutDraws 1 3) 0 (permutationEncoding 5) scenarioB = .ok s' ∧
      s'.firstChild.m_Genotype.m_IntGenotype = [1, 3, 2, 0, 4] ∧
      s'.secondChild.m_Genotype.m_IntGenotype = [3, 1, 2, 4, 0]) := by
  refine ⟨⟨oxResult s n a b,
    Crossover_single fuel henc hsec hp1 hp2 hc1 hc2 hr ha hb hab hbn,
    oxChild_fill hp2.length_eq hab hbn, oxChild_fill hp1.length_eq hab hbn,
    oxChild_perm hab hbn hp2, oxChild_perm hab hbn hp1, ?_, ?_⟩, ?_⟩
  · intro other ho
    exact ⟨_, Crossover_single fuel henc hsec ho hp2 hc1 hc2 hr ha hb hab hbn, rfl⟩
  · intro other ho
    exact ⟨_, Crossover_single fuel henc hsec hp1 ho hc1 hc2 hr ha hb hab hbn, rfl⟩
  · refine ⟨oxResult scenarioB 5 1 3, ?_, by decide, by decide⟩
    exact Crossover_single 0 rfl (by decide) (by decide) (by decide) (by decide) (by decide)
      (by simp [cutDraws]) rfl rfl (by decide) (by decide)

/-- Witness of C16: scenario B. -/
theorem crossover_fill_closed_form_witness :
    ∃ s', CCVRP_OX.Crossover 1 (cutDraws 1 3) 0 (permutationEncoding 5) scenarioB = .ok s' ∧
      s'.firstChild.m_Genotype.m_IntGenotype.take 1
          ++ s'.firstChild.m_Genotype.m_IntGenotype.drop 3 = [1, 0, 4] ∧
      s'.secondChild.m_Genotype.m_IntGenotype.take 1
          ++ s'.secondChild.m_Genotype.m_IntGenotype.drop 3 = [3, 4, 0] := by
  obtain ⟨s', h, h1, h2, _⟩ :=
    (crossover_fill_closed_form 5 (permutationEncoding 5) _ rfl (by decide)
      scenarioB (by decide) (by decide) (by decide) (by decide) 1 (cutDraws 1 3) 1 3
      (by simp [cutDraws]) rfl rfl (by decide) (by decide) 0).1
  exact ⟨s', h, h1, h2⟩

/-- C17. Termination of `CCVRP_OX::Crossover`: for `n ≥ 1`, parents that are permutations
of `[0,n)`, children of length `n` and cut points `a ≤ b ≤ n`, `Crossover` returns its
children whatever number of advances is granted to each circular `while` loop, none
included, hence fewer than `n`, and no read of a parent leaves `[0,n)` (no out-of-bounds
failure); whereas on the parents `[0,0]` with `a = b = 0` no number of advances suffices. -/
theorem crossover_terminates (n : Nat) (_hn : 1 ≤ n) (enc : SProblemEncoding)
    (sec : SEncodingSection) (henc : enc.m_Encoding = [sec])
    (hsec : sec.m_SectionDescription.length = n) (s : Family)
    (hp1 : IsPermutation n s.firstParent.m_Genotype.m_IntGenotype)
    (hp2 : IsPermutation n s.secondParent.m_Genotype.m_IntGenotype)
    (hc1 : s.firstChild.m_Genotype.m_IntGenotype.length = n)
    (hc2 : s.secondChild.m_Genotype.m_IntGenotype.length = n)
    (p : ℚ) (draws : Nat → OXDraw) (a b : Nat) (hr : (draws 0).r < p)
    (ha : (draws 0).a = a) (hb : (draws 0).b = b) (hab : a ≤ b) (hbn : b ≤ n) :
    (∃ s', (∀ fuel, CCVRP_OX.Crossover p draws fuel enc s = .ok s') ∧
      CCVRP_OX.Crossover p draws 0 enc s = .ok s' ∧
      CCVRP_OX.Crossover p draws (n - 1) enc s = .ok s') ∧
    (∀ i, i < n → (i < a ∨ b ≤ i) →
      ∃ idx, idx < n ∧
        findFree 0 (oxPartial s.secondParent.m_Genotype.m_IntGenotype n a b i)
          s.secondParent.m_Genotype.m_IntGenotype n ((b + fillCount a b i) % n) = .ok idx ∧
        findFree 0 (oxPartial s.firstParent.m_Genotype.m_IntGenotype n a b i)
          s.firstParent.m_Genotype.m_IntGenotype n ((b + fillCount a b i) % n) = .ok idx) ∧
    ¬ IsPermutation 2 [0, 0] ∧
    (∀ fuel, CCVRP_OX.Crossover 1 (cutDraws 0 0) fuel (permutationEncoding 2) repeatedParents
      = .error .outOfFuel) := by
  refine ⟨⟨oxResult s n a b,
    fun fuel => Crossover_single fuel henc hsec hp1 hp2 hc1 hc2 hr ha hb hab hbn,
    Crossover_single 0 henc hsec hp1 hp2 hc1 hc2 hr ha hb hab hbn,
    Crossover_single (n - 1) henc hsec hp1 hp2 hc1 hc2 hr ha hb hab hbn⟩, ?_, by decide, ?_⟩
  · intro i hi hf
    have hidx := fillIndex_eq_oxSource hab hbn hi hf
    have hs := oxSource_lt hab hbn hi
    refine ⟨oxSource n a b i, hs, ?_, ?_⟩
    · rw [hidx]
      have hlt : oxSource n a b i < s.secondParent.m_Genotype.m_IntGenotype.length := by
        rw [hp2.length_eq]; exact hs
      exact findFree_of_not_mem
        (by rw [List.getElem?_eq_getElem hlt, List.getD_eq_getElem _ _ hlt])
        (not_mem_oxPartial hab hbn hp2.length_eq hp2.nodup hp2.sentinel_not_mem hi hf)
    · rw [hidx]
      have hlt : oxSource n a b i < s.firstParent.m_Genotype.m_IntGenotype.length := by
        rw [hp1.length_eq]; exact hs
      exact findFree_of_not_mem
        (by rw [List.getElem?_eq_getElem hlt, List.getD_eq_getElem _ _ hlt])
        (not_mem_oxPartial hab hbn hp1.length_eq hp1.nodup hp1.sentinel_not_mem hi hf)
  · intro fuel
    have hz : List.zip (permutationEncoding 2).m_Encoding
        ((List.range (permutationEncoding 2).m_Encoding.length).map (cutDraws 0 0))
        = [({ m_SectionDescription := List.replicate 2 ⟨0, (2 : ℚ) - 1⟩,
              m_SectionType := EEncodingType.PERMUTATION }, cutDraws 0 0 0)] := rfl
    have hlt : (cutDraws 0 0 0).r < 1 := by norm_num [cutDraws]
    unfold CCVRP_OX.Crossover
    rw [hz, List.foldlM_cons]
    unfold crossoverStep
    dsimp only
    rw [if_pos hlt]
    have hsec2 := crossoverSection_repeated fuel
    simp only [List.length_replicate]
    have e1 : (cutDraws 0 0 0).a = 0 := rfl
    have e2 : (cutDraws 0 0 0).b = 0 := rfl
    have e3 : repeatedParents.firstParent.m_Genotype.m_IntGenotype = [0, 0] := rfl
    have e4 : repeatedParents.secondParent.m_Genotype.m_IntGenotype = [0, 0] := rfl
    have e5 : repeatedParents.firstChild.m_Genotype.m_IntGenotype = [0, 0] := rfl
    have e6 : repeatedParents.secondChild.m_Genotype.m_IntGenotype = [0, 0] := rfl
    rw [e1, e2, e3, e4, e5, e6, hsec2]
    rfl

/-- Witness of C17: scenario B. -/
theorem crossover_terminates_witness :
    ∃ s', (∀ fuel, CCVRP_OX.Crossover 1 (cutDraws 1 3) fuel (permutationEncoding 5) scenarioB
        = .ok s') ∧
      CCVRP_OX.Crossover 1 (cutDraws 1 3) 0 (permutationEncoding 5) scenarioB = .ok s' ∧
      CCVRP_OX.Crossover 1 (cutDraws 1 3) (5 - 1) (permutationEncoding 5) scenarioB
        = .ok s' :=
  (crossover_terminates 5 (by decide) (permutationEncoding 5) _ rfl (by decide)
    scenarioB (by decide) (by decide) (by decide) (by decide) 1 (cutDraws 1 3) 1 3
    (by simp [cutDraws]) rfl rfl (by decide) (by decide)).1

/-- C18. Load invariant of `CCVRP::Evaluate`: on an instance in which every city's demand
`d` satisfies `0 ≤ d ≤ capacity`, whenever the route loop returns after at least one
transition the running load lies between `0` and the capacity; and on a well-formed
template and a genotype whose entries are valid city positions it returns after each of
the `n` transitions. The rounding `rnd` of the float additions, which the load does not
depend on, is arbitrary: it may be `binary32`. -/
theorem evaluate_load_invariant (rnd : ℚ → F32) (t : CCVRPTemplate) (genes : List Int)
    (hdem : ∀ city ∈ t.cities, 0 ≤ city.m_demand ∧ city.m_demand ≤ t.capacity) :
    (∀ (k : Nat) (s : RouteState), 1 ≤ k → routeLoop rnd t genes k = .ok s →
      0 ≤ s.current_load ∧ s.current_load ≤ t.capacity) ∧
    (t.WellFormed → t.cities.length ≤ genes.length →
      (∀ x ∈ genes, 0 ≤ x ∧ x < t.cities.length) →
      ∀ k, 1 ≤ k → k ≤ t.cities.length →
        ∃ s, routeLoop rnd t genes k = .ok s ∧
          0 ≤ s.current_load ∧ s.current_load ≤ t.capacity) := by
  have hA : ∀ (k : Nat) (s : RouteState), 1 ≤ k → routeLoop rnd t genes k = .ok s →
      0 ≤ s.current_load ∧ s.current_load ≤ t.capacity := by
    intro k s hk h
    obtain ⟨hc, h0⟩ := routeLoop_load hdem genes k h
    exact ⟨h0 hk, hc⟩
  refine ⟨hA, ?_⟩
  intro hwf hlen hval k hk hkn
  obtain ⟨s, hs⟩ := routeLoop_of_valid rnd hwf hlen hval k hkn
  exact ⟨s, hs, hA k s hk hs⟩

/-- Witness of C18: scenario A, demands `[2,3,1,4]` within the capacity `5`; after the four
transitions of the route `[1,2,3,0]` the load is `0`. -/
theorem evaluate_load_invariant_witness :
    ∃ s, routeLoop binary32 scenarioA [1, 2, 3, 0] 4 = .ok s ∧
      0 ≤ s.current_load ∧ s.current_load ≤ scenarioA.capacity :=
  (evaluate_load_invariant binary32 scenarioA [1, 2, 3, 0] (by decide)).2 scenarioA_wellFormed
    (by decide) (by decide) 4 (by decide) (by decide)

/-- C19. Index safety of `CCVRP_OX::FixChild`: on every integer genotype, whatever its
length and its values, the replacement loop over any number of positions returns with a
counter `ii`, the number of positions overwritten so far, that is at most the number of
values of `[0,n)` missing from the original genotype; no read `missing_genes[ii]` is out of
bounds, `FixChild` returns, and the returned genotype differs from the original one at no
more positions than there are missing values. -/
theorem fixChild_index_safe (g : List Int) :
    (∀ k, k ≤ g.length →
      ∃ s, (List.range k).foldlM (fixStep (allGenes g.length) (missingGenes g))
          { childGenes := g, ii := 0 } = .ok s ∧
        s.ii ≤ (missingGenes g).length ∧ s.ii ≤ k) ∧
    (∃ s, fixLoop (allGenes g.length) (missingGenes g) g = .ok s ∧
      s.ii ≤ (missingGenes g).length ∧ FixChildGenes g = .ok s.childGenes ∧
      changedPositions g s.childGenes ≤ (missingGenes g).length) ∧
    FixChild (intIndividual g) ≠ .error .outOfBounds := by
  refine ⟨?_, ?_, ?_⟩
  · intro k hk
    obtain ⟨s, hs, hinv, hle⟩ := fixLoop_safe g k hk
    exact ⟨s, hs, hinv.bound, hle⟩
  · obtain ⟨s, hs, hfix, hinv⟩ := FixChildGenes_total g
    exact ⟨s, hs, hinv.bound, hfix, le_trans hinv.changed hinv.bound⟩
  · obtain ⟨s, _, hfix, _⟩ := FixChildGenes_total g
    have h : FixChildGenes (intIndividual g).m_Genotype.m_IntGenotype = .ok s.childGenes := hfix
    rw [FixChild_of_genes h]
    intro hcontra
    cases hcontra

end iMOPSE
